import Mathlib

/-!
Verification of the graph pathfinding engine of the route-visualizer
repository: the `Graph` container (`src/algorithms/graph.py`), the result
types (`src/utils/types.py`), the two searches (`src/algorithms/dijkstra.py`,
`src/algorithms/astar.py`), the heuristics (`src/algorithms/heuristics.py`)
and the connectivity utilities (`src/services/routing.py`).

Modelling conventions:
* Python floats used as edge weights / costs are modelled exactly as `ℚ`
  (the algorithmic claims are about exact arithmetic); geographic
  computations that use trigonometry are modelled over `ℝ`.
* Python `Node.__eq__`/`__hash__` compare by `id` only, so every dictionary
  lookup, set membership and `in` test is modelled by id-equality (`BEq`).
* `heapq` pops the lexicographically least `(priority, counter, node)`
  triple; counters are unique, so the node is never compared.  `popMin`
  removes exactly that least entry.
* Python `while` loops are modelled with explicit fuel; `none` models a
  run that raises an exception or runs out of fuel, and the theorems
  prove `some` results with the fuel the wrappers supply.
* `time.time()` is not modelled: `execution_time` is always `0`.
-/

namespace RouteViz

/-- `Node` from `src/src/utils/types.py`: identifier plus coordinates. -/
structure Node where
  id : String
  latitude : ℝ
  longitude : ℝ

/-- `Node.__eq__` (and `__hash__`) compare solely by `id`. -/
instance : BEq Node := ⟨fun a b => a.id == b.id⟩

theorem node_beq_iff (a b : Node) : (a == b) = true ↔ a.id = b.id := by
  show (a.id == b.id) = true ↔ _
  exact beq_iff_eq

theorem node_beq_self (a : Node) : (a == a) = true := by
  rw [node_beq_iff]

/-- `Location` from `src/src/utils/types.py` (fields only). -/
structure Location where
  address : String
  latitude : ℝ
  longitude : ℝ

/-- `Route` from `src/src/utils/types.py`. -/
structure Route where
  path : List Node
  total_distance : ℚ
  algorithm : String
  execution_time : Int
  nodes_explored : Int
  explored_nodes : List Node
  open_set_nodes : List Node
  explored_edges : List (Node × Node)

/-- `PathfindingResult` from `src/src/utils/types.py` (fields only). -/
structure PathfindingResult where
  success : Bool
  route : Option Route := none
  error : Option String := none

/-- `PathfindingResult.__post_init__`: construction-time validation.
`Except.error` models the raised `ValueError`. -/
def mkPathfindingResult (success : Bool) (route : Option Route)
    (error : Option String) : Except String PathfindingResult :=
  if success && route.isNone then
    .error "Successful result must include a route"
  else if !success && error.isNone then
    .error "Failed result must include an error message"
  else
    .ok ⟨success, route, error⟩

/-! ## The graph container (`src/src/algorithms/graph.py`)

The Python `Graph` stores `Dict[Node, List[Tuple[Node, float]]]`; dicts are
insertion-ordered and keyed by `Node.__hash__`/`__eq__`, i.e. by `id`.  We
model the dict as an insertion-ordered association list. -/

structure Graph where
  adjacency : List (Node × List (Node × ℚ))

def Graph.emptyGraph : Graph := ⟨[]⟩

/-- `Graph.nodes`: `list(self._adjacency.keys())`. -/
def Graph.nodes (g : Graph) : List Node := g.adjacency.map (·.1)

/-- `Graph.neighbors`: `self._adjacency.get(node, [])`. -/
def Graph.neighbors (g : Graph) (node : Node) : List (Node × ℚ) :=
  ((g.adjacency.find? (fun p => p.1 == node)).map (·.2)).getD []

/-- `Graph.add_node`: insert with empty neighbor list unless present. -/
def Graph.add_node (g : Graph) (node : Node) : Graph :=
  if g.adjacency.any (fun p => p.1 == node) then g
  else ⟨g.adjacency ++ [(node, [])]⟩

/-- `self._adjacency[k].append(e)` (the key `k` is present). -/
def appendAdj (adj : List (Node × List (Node × ℚ))) (k : Node) (e : Node × ℚ) :
    List (Node × List (Node × ℚ)) :=
  adj.map (fun p => if p.1 == k then (p.1, p.2 ++ [e]) else p)

/-- `Graph.add_edge`; `Except.error` models the raised `ValueError`. -/
def Graph.add_edge (g : Graph) (from_node to_node : Node) (weight : ℚ)
    (bidirectional : Bool := false) : Except String Graph :=
  if weight ≤ 0 then
    .error ("Edge weight must be positive, got " ++ toString weight)
  else
    let g1 := (g.add_node from_node).add_node to_node
    let g2 : Graph := ⟨appendAdj g1.adjacency from_node (to_node, weight)⟩
    .ok (if bidirectional then ⟨appendAdj g2.adjacency to_node (from_node, weight)⟩ else g2)

/-- Well-formedness every `Graph` built through the API enjoys: strictly
positive weights and id-distinct keys. -/
def Graph.WF (g : Graph) : Prop :=
  (∀ p ∈ g.adjacency, ∀ e ∈ p.2, 0 < e.2) ∧ (g.adjacency.map (fun p => p.1.id)).Nodup

theorem bool_eq_false {b : Bool} (h : ¬ b = true) : b = false := by
  cases b
  · rfl
  · exact absurd rfl h

theorem wf_emptyGraph : Graph.WF Graph.emptyGraph :=
  ⟨fun p hp => absurd hp (List.not_mem_nil p), List.nodup_nil⟩

theorem wf_add_node (g : Graph) (n : Node) (h : g.WF) : (g.add_node n).WF := by
  obtain ⟨hw, hd⟩ := h
  unfold Graph.add_node
  split
  · exact ⟨hw, hd⟩
  · rename_i hnone
    constructor
    · intro p hp e he
      rcases List.mem_append.1 hp with h1 | h1
      · exact hw p h1 e he
      · simp at h1
        subst h1
        simp at he
    · rw [List.map_append, List.nodup_append]
      refine ⟨hd, by simp, ?_⟩
      intro x hx
      simp only [List.map_cons, List.map_nil, List.mem_singleton]
      intro hxn
      simp only [List.mem_map] at hx
      obtain ⟨p, hp, hpid⟩ := hx
      apply hnone
      rw [List.any_eq_true]
      refine ⟨p, hp, ?_⟩
      rw [node_beq_iff, hpid, hxn]

theorem appendAdj_keys (adj : List (Node × List (Node × ℚ))) (k : Node) (e : Node × ℚ) :
    (appendAdj adj k e).map (fun p => p.1.id) = adj.map (fun p => p.1.id) := by
  unfold appendAdj
  rw [List.map_map]
  apply List.map_congr_left
  intro p _
  by_cases h : (p.1 == k) = true <;> simp [h]

theorem wf_appendAdj (adj : List (Node × List (Node × ℚ))) (k : Node) (m : Node) (w : ℚ)
    (hw : 0 < w) (h : ∀ p ∈ adj, ∀ e ∈ p.2, 0 < e.2) :
    ∀ p ∈ appendAdj adj k (m, w), ∀ e ∈ p.2, 0 < e.2 := by
  intro p hp e he
  unfold appendAdj at hp
  rw [List.mem_map] at hp
  obtain ⟨q, hq, hpq⟩ := hp
  by_cases hk : (q.1 == k) = true
  · simp only [hk, if_pos] at hpq
    subst hpq
    simp only at he
    rcases List.mem_append.1 he with h1 | h1
    · exact h q hq e h1
    · simp at h1
      subst h1
      exact hw
  · rw [if_neg hk] at hpq
    subst hpq
    exact h q hq e he

theorem wf_add_edge (g g' : Graph) (a b : Node) (w : ℚ) (bi : Bool)
    (h : g.WF) (hok : g.add_edge a b w bi = .ok g') : g'.WF := by
  unfold Graph.add_edge at hok
  split at hok
  · exact absurd hok (by simp)
  · rename_i hwpos
    have hw : 0 < w := lt_of_not_ge hwpos
    have h1 : ((g.add_node a).add_node b).WF := wf_add_node _ _ (wf_add_node _ _ h)
    simp only [Except.ok.injEq] at hok
    subst hok
    constructor
    · split
      · exact wf_appendAdj _ _ _ _ hw (wf_appendAdj _ _ _ _ hw h1.1)
      · exact wf_appendAdj _ _ _ _ hw h1.1
    · split
      · rw [appendAdj_keys, appendAdj_keys]
        exact h1.2
      · rw [appendAdj_keys]
        exact h1.2

/-! ## Association-list maps keyed by node id (Python dicts) -/

def lookupA {α : Type} (l : List (Node × α)) (n : Node) : Option α :=
  (l.find? (fun p => p.1 == n)).map (·.2)

def containsA {α : Type} (l : List (Node × α)) (n : Node) : Bool :=
  l.any (fun p => p.1 == n)

/-- `d[n] = v`: replace if an id-equal key is present, else append. -/
def setA {α : Type} (l : List (Node × α)) (n : Node) (v : α) : List (Node × α) :=
  if containsA l n then l.map (fun p => if p.1 == n then (p.1, v) else p)
  else l ++ [(n, v)]

/-- Python `n in list_of_nodes`. -/
def memberN (l : List Node) (n : Node) : Bool := l.any (fun m => m == n)

theorem memberN_iff (l : List Node) (n : Node) :
    memberN l n = true ↔ ∃ m ∈ l, m.id = n.id := by
  unfold memberN
  rw [List.any_eq_true]
  constructor
  · rintro ⟨m, hm, hb⟩
    exact ⟨m, hm, (node_beq_iff m n).1 hb⟩
  · rintro ⟨m, hm, hb⟩
    exact ⟨m, hm, (node_beq_iff m n).2 hb⟩

theorem memberN_append (l1 l2 : List Node) (n : Node) :
    memberN (l1 ++ l2) n = (memberN l1 n || memberN l2 n) := by
  unfold memberN
  exact List.any_append

theorem lookupA_id {α : Type} (l : List (Node × α)) (n m : Node) (h : n.id = m.id) :
    lookupA l n = lookupA l m := by
  unfold lookupA
  have : (fun p : Node × α => p.1 == n) = (fun p : Node × α => p.1 == m) := by
    funext p
    show (p.1.id == n.id) = (p.1.id == m.id)
    rw [h]
  rw [this]

theorem containsA_iff {α : Type} (l : List (Node × α)) (n : Node) :
    containsA l n = true ↔ ∃ p ∈ l, p.1.id = n.id := by
  unfold containsA
  rw [List.any_eq_true]
  constructor
  · rintro ⟨p, hp, hb⟩
    exact ⟨p, hp, (node_beq_iff _ _).1 hb⟩
  · rintro ⟨p, hp, hb⟩
    exact ⟨p, hp, (node_beq_iff _ _).2 hb⟩

theorem lookupA_isSome_iff {α : Type} (l : List (Node × α)) (n : Node) :
    (lookupA l n).isSome = true ↔ containsA l n = true := by
  induction l with
  | nil => simp [lookupA, containsA]
  | cons p rest ih =>
    by_cases hp : (p.1 == n) = true
    · simp [lookupA, containsA, hp]
    · have hp2 := bool_eq_false hp
      simp only [lookupA, containsA, List.find?_cons, hp2, List.any_cons, Bool.false_or]
      exact ih

theorem option_eq_none_of_isSome_false {α : Type} {o : Option α} (h : o.isSome = false) :
    o = none := by
  cases o
  · rfl
  · exact absurd h (by simp)

theorem lookupA_eq_none_iff {α : Type} (l : List (Node × α)) (n : Node) :
    lookupA l n = none ↔ containsA l n = false := by
  constructor
  · intro h
    apply bool_eq_false
    intro hc
    rw [← lookupA_isSome_iff, h] at hc
    exact absurd hc (by simp)
  · intro h
    apply option_eq_none_of_isSome_false
    apply bool_eq_false
    intro hs
    rw [lookupA_isSome_iff, h] at hs
    exact absurd hs (by simp)

/-- Effect of the in-place-update half of `setA` on lookups. -/
theorem lookupA_map_upd {α : Type} (l : List (Node × α)) (n m : Node) (v : α) :
    lookupA (l.map (fun p => if p.1 == n then (p.1, v) else p)) m
      = if n.id = m.id then (lookupA l m).map (fun _ => v) else lookupA l m := by
  induction l with
  | nil => by_cases h : n.id = m.id <;> simp [lookupA, h]
  | cons p rest ih =>
    by_cases hpn : (p.1 == n) = true
    · have hpn' : p.1.id = n.id := (node_beq_iff _ _).1 hpn
      by_cases hnm : n.id = m.id
      · have hpm : (p.1 == m) = true := (node_beq_iff _ _).2 (hpn'.trans hnm)
        simp [lookupA, hpn, hpm, hnm]
      · have hpm : (p.1 == m) = false := by
          apply bool_eq_false
          rw [node_beq_iff, hpn']
          exact hnm
        simpa [lookupA, hpn, hpm, hnm] using ih
    · have hpn2 : (p.1 == n) = false := bool_eq_false hpn
      by_cases hpm : (p.1 == m) = true
      · have hnm : ¬ n.id = m.id := by
          intro h
          apply hpn
          rw [node_beq_iff]
          rw [(node_beq_iff _ _).1 hpm, h]
        simp [lookupA, hpn2, hpm, hnm]
      · have hpm2 : (p.1 == m) = false := bool_eq_false hpm
        simpa [lookupA, hpn2, hpm2] using ih

theorem lookupA_append {α : Type} (l1 l2 : List (Node × α)) (n : Node) :
    lookupA (l1 ++ l2) n = ((lookupA l1 n).orElse fun _ => lookupA l2 n) := by
  induction l1 with
  | nil => simp [lookupA]
  | cons p rest ih =>
    by_cases hpn : (p.1 == n) = true
    · simp [lookupA, hpn]
    · have hpn2 : (p.1 == n) = false := bool_eq_false hpn
      simpa [lookupA, hpn2] using ih

theorem lookupA_setA_self {α : Type} (l : List (Node × α)) (n m : Node) (v : α)
    (h : n.id = m.id) : lookupA (setA l n v) m = some v := by
  unfold setA
  by_cases hc : containsA l n = true
  · rw [if_pos hc, lookupA_map_upd, if_pos h]
    have hsome : (lookupA l m).isSome = true := by
      rw [lookupA_isSome_iff]
      rw [containsA_iff] at hc ⊢
      obtain ⟨p, hp, hpid⟩ := hc
      exact ⟨p, hp, hpid.trans h⟩
    obtain ⟨w, hw⟩ := Option.isSome_iff_exists.1 hsome
    rw [hw]
    rfl
  · rw [if_neg hc, lookupA_append]
    have hnone : lookupA l m = none := by
      rw [lookupA_eq_none_iff]
      apply bool_eq_false
      intro hcm
      apply hc
      rw [containsA_iff] at hcm ⊢
      obtain ⟨p, hp, hpid⟩ := hcm
      exact ⟨p, hp, hpid.trans h.symm⟩
    rw [hnone]
    have : (n == m) = true := (node_beq_iff _ _).2 h
    simp [lookupA, this]

theorem lookupA_setA_ne {α : Type} (l : List (Node × α)) (n m : Node) (v : α)
    (h : ¬ n.id = m.id) : lookupA (setA l n v) m = lookupA l m := by
  unfold setA
  by_cases hc : containsA l n = true
  · rw [if_pos hc, lookupA_map_upd, if_neg h]
  · rw [if_neg hc, lookupA_append]
    have : (n == m) = false := by
      apply bool_eq_false
      rw [node_beq_iff]
      exact h
    simp [lookupA, this]

theorem containsA_setA {α : Type} (l : List (Node × α)) (n m : Node) (v : α) :
    containsA (setA l n v) m = (containsA l m || (n == m)) := by
  rcases Bool.eq_false_or_eq_true (containsA (setA l n v) m) with h | h
  swap
  · rw [h]
    rw [← lookupA_eq_none_iff] at h
    by_cases hnm : n.id = m.id
    · rw [lookupA_setA_self l n m v hnm] at h
      exact absurd h (by simp)
    · rw [lookupA_setA_ne l n m v hnm] at h
      rw [lookupA_eq_none_iff] at h
      rw [h]
      have hb : (n == m) = false := by
        apply bool_eq_false
        rw [node_beq_iff]
        exact hnm
      rw [hb]
      rfl
  · rw [h]
    by_cases hnm : n.id = m.id
    · have : (n == m) = true := (node_beq_iff _ _).2 hnm
      rw [this, Bool.or_true]
    · have h2 : lookupA (setA l n v) m = lookupA l m := lookupA_setA_ne l n m v hnm
      have h3 : (lookupA (setA l n v) m).isSome = true := by
        rw [lookupA_isSome_iff]
        exact h
      rw [h2, lookupA_isSome_iff] at h3
      rw [h3, Bool.true_or]

/-! ## The shared search state (`dijkstra.py` / `astar.py`)

Both algorithms keep a heap of `(priority, counter, node)` triples, a
best-known-cost dict (`distances` in `dijkstra.py`, `g_score` in
`astar.py`, modelled as the shared field `gScore`), a parent dict
`came_from`, a `visited` set, and three instrumentation lists. -/

/-- A priority-queue entry `(priority, counter, node)`. -/
abbrev Entry := ℚ × Nat × Node

/-- Strict lexicographic order on `(priority, counter)`; counters are unique
so `heapq` never compares the nodes. -/
def entryLtB (a b : Entry) : Bool :=
  decide (a.1 < b.1) || ((a.1 == b.1) && decide (a.2.1 < b.2.1))

/-- `heapq.heappop`: remove the least entry (first occurrence). -/
def popMin : List Entry → Option (Entry × List Entry)
  | [] => none
  | e :: rest =>
    match popMin rest with
    | none => some (e, [])
    | some (m, rest2) => if entryLtB m e then some (m, e :: rest2) else some (e, rest)

structure SearchState where
  pq : List Entry
  counter : Nat
  gScore : List (Node × ℚ)
  cameFrom : List (Node × Node)
  visited : List Node
  exploredNodes : List Node
  openSetNodes : List Node
  exploredEdges : List (Node × Node)

/-- Append one inspected edge to the `explored_edges` log. -/
def logEdge (current neighbor : Node) (S : SearchState) : SearchState :=
  {S with exploredEdges := S.exploredEdges ++ [(current, neighbor)]}

/-- `neighbor not in distances or tentative < distances[neighbor]`. -/
def betterThan (S : SearchState) (neighbor : Node) (tentative : ℚ) : Bool :=
  match lookupA S.gScore neighbor with
  | none => true
  | some gn => decide (tentative < gn)

/-- Record the neighbor in `open_set_nodes` on first occurrence. -/
def logOpen (neighbor : Node) (S : SearchState) : SearchState :=
  if memberN S.openSetNodes neighbor then S
  else {S with openSetNodes := S.openSetNodes ++ [neighbor]}

/-- The successful-relaxation updates of `dijkstra.py`: update `distances`
and `came_from`, push `(new_distance, counter, neighbor)`. -/
def relaxD (current neighbor : Node) (new_distance : ℚ) (S : SearchState) : SearchState :=
  logOpen neighbor {S with
    gScore := setA S.gScore neighbor new_distance
    cameFrom := setA S.cameFrom neighbor current
    pq := S.pq ++ [(new_distance, S.counter, neighbor)]
    counter := S.counter + 1}

/-- The successful-relaxation updates of `astar.py`: as `relaxD`, but the
pushed priority is `tentative + heuristic(neighbor, goal)`. -/
def relaxA (goal : Node) (heuristic : Node → Node → ℚ) (current neighbor : Node)
    (tentative_g_score : ℚ) (S : SearchState) : SearchState :=
  logOpen neighbor {S with
    gScore := setA S.gScore neighbor tentative_g_score
    cameFrom := setA S.cameFrom neighbor current
    pq := S.pq ++ [(tentative_g_score + heuristic neighbor goal, S.counter, neighbor)]
    counter := S.counter + 1}

/-- The neighbor loop of `dijkstra` (lines 95-114 of `dijkstra.py`):
record every inspected edge, skip visited neighbors, relax with
`new_distance = current_distance + edge_weight` (popped priority). -/
def dijkstraExpand (current : Node) (current_distance : ℚ) :
    List (Node × ℚ) → SearchState → SearchState
  | [], S => S
  | (neighbor, edge_weight) :: rest, S =>
    if memberN S.visited neighbor then
      dijkstraExpand current current_distance rest (logEdge current neighbor S)
    else if betterThan S neighbor (current_distance + edge_weight) then
      dijkstraExpand current current_distance rest
        (relaxD current neighbor (current_distance + edge_weight) (logEdge current neighbor S))
    else dijkstraExpand current current_distance rest (logEdge current neighbor S)

/-- Pop bookkeeping shared by both loops: replace the queue by the popped
remainder, mark the node visited, append it to `explored_nodes`. -/
def finalize (current : Node) (rest : List Entry) (S : SearchState) : SearchState :=
  {S with
    pq := rest
    visited := S.visited ++ [current]
    exploredNodes := S.exploredNodes ++ [current]}

/-- The main `while pq` loop of `dijkstra.py`. -/
def dijkstraLoop (g : Graph) (goal : Node) : Nat → SearchState → Option SearchState
  | 0, _ => none
  | fuel+1, S =>
    match popMin S.pq with
    | none => some S
    | some ((current_distance, _, current), rest) =>
      if memberN S.visited current then dijkstraLoop g goal fuel {S with pq := rest}
      else
        let S1 := finalize current rest S
        if current == goal then some S1
        else dijkstraLoop g goal fuel
          (dijkstraExpand current current_distance (g.neighbors current) S1)

/-- The neighbor loop of `astar` (lines 110-130 of `astar.py`): the tentative
cost reads `g_score[current]` (a `KeyError`, modelled `none`, is impossible
once the loop invariant is established). -/
def astarExpand (goal : Node) (heuristic : Node → Node → ℚ) (current : Node) :
    List (Node × ℚ) → SearchState → Option SearchState
  | [], S => some S
  | (neighbor, edge_weight) :: rest, S =>
    if memberN S.visited neighbor then
      astarExpand goal heuristic current rest (logEdge current neighbor S)
    else
      match lookupA S.gScore current with
      | none => none
      | some gc =>
        if betterThan S neighbor (gc + edge_weight) then
          astarExpand goal heuristic current rest
            (relaxA goal heuristic current neighbor (gc + edge_weight) (logEdge current neighbor S))
        else astarExpand goal heuristic current rest (logEdge current neighbor S)

/-- The main `while pq` loop of `astar.py` (the popped priority is unused). -/
def astarLoop (g : Graph) (goal : Node) (heuristic : Node → Node → ℚ) :
    Nat → SearchState → Option SearchState
  | 0, _ => none
  | fuel+1, S =>
    match popMin S.pq with
    | none => some S
    | some ((_, _, current), rest) =>
      if memberN S.visited current then astarLoop g goal heuristic fuel {S with pq := rest}
      else
        let S1 := finalize current rest S
        if current == goal then some S1
        else
          match astarExpand goal heuristic current (g.neighbors current) S1 with
          | none => none
          | some S2 => astarLoop g goal heuristic fuel S2

/-- Path reconstruction (`while current_node != start:` in both files);
`none` models the `KeyError` on a missing parent or fuel exhaustion. -/
def reconstructPath (cameFrom : List (Node × Node)) (start : Node) :
    Nat → Node → List Node → Option (List Node)
  | 0, _, _ => none
  | fuel+1, current_node, path =>
    if current_node == start then some ((path ++ [start]).reverse)
    else
      match lookupA cameFrom current_node with
      | none => none
      | some parent => reconstructPath cameFrom start fuel parent (path ++ [current_node])

/-- Total number of adjacency entries of the graph. -/
def totalEntries (g : Graph) : Nat := (g.adjacency.map (fun p => p.2.length)).sum

/-- Fuel that provably lets either search loop run to completion. -/
def searchFuel (g : Graph) : Nat := totalEntries g + 2

/-- The shared postlude of both search functions (lines 116-158 of
`dijkstra.py`, 132-174 of `astar.py`): report "no path found" when the goal
has no parent and differs from the start, otherwise reconstruct the path
and package the `Route`.  `none` models an uncaught exception. -/
def searchResult (algname : String) (start goal : Node) (out : Option SearchState) :
    Option PathfindingResult :=
  match out with
  | none => none
  | some S =>
    if !(containsA S.cameFrom goal) && !(goal == start) then
      some ⟨false, none, some ("No path found from " ++ start.id ++ " to " ++ goal.id)⟩
    else
      match reconstructPath S.cameFrom start (S.cameFrom.length + 1) goal [] with
      | none => none
      | some path =>
        match lookupA S.gScore goal with
        | none => none
        | some d =>
          some ⟨true, some ⟨path, d, algname, 0, (S.exploredNodes.length : Int),
            S.exploredNodes, S.openSetNodes, S.exploredEdges⟩, none⟩

/-- `dijkstra` from `src/src/algorithms/dijkstra.py`.  `none` models an
uncaught exception (never happens; the theorems prove `some` results). -/
def dijkstra (graph : Graph) (start goal : Node) : Option PathfindingResult :=
  if !(memberN graph.nodes start) then
    some ⟨false, none, some ("Start node " ++ start.id ++ " not found in graph")⟩
  else if !(memberN graph.nodes goal) then
    some ⟨false, none, some ("Goal node " ++ goal.id ++ " not found in graph")⟩
  else if start == goal then
    some ⟨true, some ⟨[start], 0, "Dijkstra", 0, 1, [start], [start], []⟩, none⟩
  else
    searchResult "Dijkstra" start goal
      (dijkstraLoop graph goal (searchFuel graph)
        ⟨[((0 : ℚ), 0, start)], 1, [(start, (0 : ℚ))], [], [], [], [start], []⟩)

/-- A Python value passed as the `heuristic` argument of `astar`: either a
callable two-node function or some non-callable object. -/
inductive PyObj where
  | callable (f : Node → Node → ℚ)
  | notCallable

/-- `astar` from `src/src/algorithms/astar.py`. -/
def astar (graph : Graph) (start goal : Node) (heuristic : PyObj) :
    Option PathfindingResult :=
  if !(memberN graph.nodes start) then
    some ⟨false, none, some ("Start node " ++ start.id ++ " not found in graph")⟩
  else if !(memberN graph.nodes goal) then
    some ⟨false, none, some ("Goal node " ++ goal.id ++ " not found in graph")⟩
  else
    match heuristic with
    | .notCallable => some ⟨false, none, some "Heuristic must be a callable function"⟩
    | .callable hf =>
      if start == goal then
        some ⟨true, some ⟨[start], 0, "A*", 0, 1, [start], [start], []⟩, none⟩
      else
        searchResult "A*" start goal
          (astarLoop graph goal hf (searchFuel graph)
            ⟨[(hf start goal, 0, start)], 1, [(start, (0 : ℚ))], [], [], [], [start], []⟩)

/-! ## Connectivity check (`src/src/services/routing.py`, `is_connected`) -/

/-- The neighbor loop of the BFS: enqueue unvisited neighbors. -/
def bfsEnqueue : List (Node × ℚ) → List Node → List Node → List Node × List Node
  | [], visited, queue => (visited, queue)
  | (neighbor, _) :: rest, visited, queue =>
    if memberN visited neighbor then bfsEnqueue rest visited queue
    else bfsEnqueue rest (visited ++ [neighbor]) (queue ++ [neighbor])

/-- The `while queue` loop of `is_connected`. -/
def bfsLoop (g : Graph) (goal : Node) : Nat → List Node → List Node → Option Bool
  | 0, _, _ => none
  | fuel+1, visited, queue =>
    match queue with
    | [] => some false
    | current :: queueRest =>
      if current == goal then some true
      else
        let step := bfsEnqueue (g.neighbors current) visited queueRest
        bfsLoop g goal fuel step.1 step.2

/-- Fuel that provably lets the BFS run to completion. -/
def bfsFuel (g : Graph) : Nat := totalEntries g + 2

/-- `is_connected` from `src/src/services/routing.py`. -/
def is_connected (graph : Graph) (start goal : Node) : Option Bool :=
  if start == goal then some true
  else bfsLoop graph goal (bfsFuel graph) [start] [start]

/-! ## Priority-queue lemmas -/

theorem entryLt_iff (a b : Entry) :
    entryLtB a b = true ↔ (a.1 < b.1 ∨ (a.1 = b.1 ∧ a.2.1 < b.2.1)) := by
  unfold entryLtB
  rw [Bool.or_eq_true, Bool.and_eq_true, decide_eq_true_eq, decide_eq_true_eq, beq_iff_eq]

theorem entryLt_false_iff (a b : Entry) :
    entryLtB a b = false ↔ (b.1 ≤ a.1 ∧ (a.1 = b.1 → b.2.1 ≤ a.2.1)) := by
  constructor
  · intro h
    have h1 : ¬ entryLtB a b = true := by rw [h]; simp
    rw [entryLt_iff] at h1
    push_neg at h1
    exact ⟨h1.1, fun he => h1.2 he⟩
  · intro ⟨h1, h2⟩
    apply bool_eq_false
    rw [entryLt_iff]
    rintro (h3 | ⟨h3, h4⟩)
    · exact absurd (lt_of_lt_of_le h3 h1) (lt_irrefl _)
    · exact absurd (Nat.lt_of_lt_of_le h4 (h2 h3)) (Nat.lt_irrefl _)

theorem entryLt_irrefl (a : Entry) : entryLtB a a = false := by
  rw [entryLt_false_iff]
  exact ⟨le_refl _, fun _ => Nat.le_refl _⟩

theorem entryLt_asymm (a b : Entry) (h : entryLtB a b = true) : entryLtB b a = false := by
  rw [entryLt_iff] at h
  rw [entryLt_false_iff]
  rcases h with h1 | ⟨h1, h2⟩
  · exact ⟨le_of_lt h1, fun he => absurd (lt_of_lt_of_le h1 (le_of_eq he)) (lt_irrefl _)⟩
  · exact ⟨le_of_eq h1, fun _ => Nat.le_of_lt h2⟩

theorem entryLt_false_trans (x m a : Entry) (h1 : entryLtB x m = false)
    (h2 : entryLtB m a = false) : entryLtB x a = false := by
  rw [entryLt_false_iff] at h1 h2 ⊢
  obtain ⟨h1a, h1b⟩ := h1
  obtain ⟨h2a, h2b⟩ := h2
  refine ⟨le_trans h2a h1a, fun he => ?_⟩
  have hxm : x.1 = m.1 := le_antisymm (he ▸ h2a) h1a
  have hma : m.1 = a.1 := hxm ▸ he
  exact Nat.le_trans (h2b hma) (h1b hxm)

theorem popMin_none_iff (l : List Entry) : popMin l = none ↔ l = [] := by
  cases l with
  | nil => simp [popMin]
  | cons e rest =>
    simp only [popMin]
    constructor
    · intro h
      exfalso
      cases hr : popMin rest with
      | none => rw [hr] at h; exact absurd h (by simp)
      | some p =>
        rw [hr] at h
        rcases p with ⟨m, rest2⟩
        by_cases hlt : entryLtB m e = true <;> simp [hlt] at h
    · intro h
      exact absurd h (by simp)

theorem popMin_spec (l : List Entry) (e : Entry) (r : List Entry)
    (h : popMin l = some (e, r)) :
    l.Perm (e :: r) ∧ (∀ x ∈ l, entryLtB x e = false) := by
  induction l generalizing e r with
  | nil => exact absurd h (by simp [popMin])
  | cons a rest ih =>
    cases hr : popMin rest with
    | none =>
      rw [popMin_none_iff] at hr
      subst hr
      simp only [popMin, Option.some.injEq, Prod.mk.injEq] at h
      obtain ⟨he, hrr⟩ := h
      subst he
      subst hrr
      refine ⟨List.Perm.refl _, ?_⟩
      intro x hx
      simp only [List.mem_singleton] at hx
      subst hx
      exact entryLt_irrefl _
    | some p =>
      rcases p with ⟨m, rest2⟩
      obtain ⟨hperm, hmin⟩ := ih m rest2 hr
      by_cases hlt : entryLtB m a = true
      · have hstep : popMin (a :: rest) = some (m, a :: rest2) := by
          simp only [popMin, hr, hlt, if_pos]
        rw [hstep] at h
        simp only [Option.some.injEq, Prod.mk.injEq] at h
        obtain ⟨he, hrr⟩ := h
        subst he
        subst hrr
        constructor
        · exact (List.Perm.cons a hperm).trans (List.Perm.swap m a rest2)
        · intro x hx
          rcases List.mem_cons.1 hx with h1 | h1
          · subst h1
            exact entryLt_asymm _ _ hlt
          · exact hmin x h1
      · have hlt2 := bool_eq_false hlt
        have hstep : popMin (a :: rest) = some (a, rest) := by
          simp only [popMin, hr, hlt2]
          simp
        rw [hstep] at h
        simp only [Option.some.injEq, Prod.mk.injEq] at h
        obtain ⟨he, hrr⟩ := h
        subst he
        subst hrr
        refine ⟨List.Perm.refl _, ?_⟩
        intro x hx
        rcases List.mem_cons.1 hx with h1 | h1
        · subst h1
          exact entryLt_irrefl _
        · exact entryLt_false_trans x m a (hmin x h1) hlt2

theorem popMin_perm (l : List Entry) (e : Entry) (r : List Entry)
    (h : popMin l = some (e, r)) : l.Perm (e :: r) :=
  (popMin_spec l e r h).1

theorem popMin_not_lt (l : List Entry) (e : Entry) (r : List Entry)
    (h : popMin l = some (e, r)) : ∀ x ∈ l, entryLtB x e = false :=
  (popMin_spec l e r h).2

/-- The popped priority is a lower bound for every queued priority. -/
theorem popMin_key_le (l : List Entry) (e : Entry) (r : List Entry)
    (h : popMin l = some (e, r)) : ∀ x ∈ l, e.1 ≤ x.1 := by
  intro x hx
  exact ((entryLt_false_iff x e).1 (popMin_not_lt l e r h x hx)).1

theorem popMin_mem (l : List Entry) (e : Entry) (r : List Entry)
    (h : popMin l = some (e, r)) : e ∈ l :=
  (popMin_perm l e r h).symm.subset (List.mem_cons_self e r)

theorem popMin_rest_subset (l : List Entry) (e : Entry) (r : List Entry)
    (h : popMin l = some (e, r)) : ∀ x ∈ r, x ∈ l := by
  intro x hx
  exact (popMin_perm l e r h).symm.subset (List.mem_cons_of_mem e hx)

theorem popMin_length (l : List Entry) (e : Entry) (r : List Entry)
    (h : popMin l = some (e, r)) : l.length = r.length + 1 := by
  have := (popMin_perm l e r h).length_eq
  simpa using this

/-! ## Walks through the adjacency structure -/

/-- A walk: a list of adjacency steps `(next, weight)` starting at `u`. -/
def WalkFrom (g : Graph) : Node → List (Node × ℚ) → Prop
  | _, [] => True
  | u, (v, w) :: rest => (v, w) ∈ g.neighbors u ∧ WalkFrom g v rest

def walkEnd : Node → List (Node × ℚ) → Node
  | u, [] => u
  | _, (v, _) :: rest => walkEnd v rest

def walkCost (steps : List (Node × ℚ)) : ℚ := (steps.map (fun e => e.2)).sum

/-- Reachability in the Python sense: some walk ends at a node with the
target identifier. -/
def Reachable (g : Graph) (u z : Node) : Prop :=
  ∃ steps, WalkFrom g u steps ∧ (walkEnd u steps).id = z.id

/-- `d` is the minimum cost over all walks from `u` to (the id of) `z`. -/
def IsMinCost (g : Graph) (u z : Node) (d : ℚ) : Prop :=
  (∃ steps, WalkFrom g u steps ∧ (walkEnd u steps).id = z.id ∧ walkCost steps = d) ∧
  (∀ steps, WalkFrom g u steps → (walkEnd u steps).id = z.id → d ≤ walkCost steps)

theorem neighbors_id (g : Graph) (u v : Node) (h : u.id = v.id) :
    g.neighbors u = g.neighbors v := by
  unfold Graph.neighbors
  have : (fun p : Node × List (Node × ℚ) => p.1 == u) = (fun p : Node × List (Node × ℚ) => p.1 == v) := by
    funext p
    show (p.1.id == u.id) = (p.1.id == v.id)
    rw [h]
  rw [this]

theorem mem_neighbors_pos (g : Graph) (hw : g.WF) (u : Node) :
    ∀ e ∈ g.neighbors u, 0 < e.2 := by
  intro e he
  unfold Graph.neighbors at he
  cases hf : g.adjacency.find? (fun p => p.1 == u) with
  | none => rw [hf] at he; exact absurd he (by simp)
  | some p =>
    rw [hf] at he
    exact hw.1 p (List.mem_of_find?_eq_some hf) e he

theorem walkFrom_nil (g : Graph) (u : Node) : WalkFrom g u [] := trivial

theorem walkFrom_cons (g : Graph) (u v : Node) (w : ℚ) (rest : List (Node × ℚ)) :
    WalkFrom g u ((v, w) :: rest) ↔ (v, w) ∈ g.neighbors u ∧ WalkFrom g v rest :=
  Iff.rfl

theorem walkEnd_nil (u : Node) : walkEnd u [] = u := rfl

theorem walkEnd_cons (u v : Node) (w : ℚ) (rest : List (Node × ℚ)) :
    walkEnd u ((v, w) :: rest) = walkEnd v rest := rfl

theorem walkCost_nil : walkCost [] = 0 := rfl

theorem walkCost_cons (v : Node) (w : ℚ) (rest : List (Node × ℚ)) :
    walkCost ((v, w) :: rest) = w + walkCost rest := by
  unfold walkCost
  rw [List.map_cons, List.sum_cons]

theorem walkFrom_append (g : Graph) (u : Node) (s1 s2 : List (Node × ℚ)) :
    WalkFrom g u (s1 ++ s2) ↔ WalkFrom g u s1 ∧ WalkFrom g (walkEnd u s1) s2 := by
  induction s1 generalizing u with
  | nil => exact ⟨fun h => ⟨trivial, h⟩, fun h => h.2⟩
  | cons e rest ih =>
    rcases e with ⟨v, w⟩
    constructor
    · rintro ⟨hm, hw2⟩
      have h2 := (ih v).1 hw2
      exact ⟨⟨hm, h2.1⟩, h2.2⟩
    · rintro ⟨⟨hm, hw1⟩, hw2⟩
      exact ⟨hm, (ih v).2 ⟨hw1, hw2⟩⟩

theorem walkEnd_append (u : Node) (s1 s2 : List (Node × ℚ)) :
    walkEnd u (s1 ++ s2) = walkEnd (walkEnd u s1) s2 := by
  induction s1 generalizing u with
  | nil => rfl
  | cons e rest ih =>
    rcases e with ⟨v, w⟩
    exact ih v

theorem walkCost_append (s1 s2 : List (Node × ℚ)) :
    walkCost (s1 ++ s2) = walkCost s1 + walkCost s2 := by
  unfold walkCost
  rw [List.map_append, List.sum_append]

theorem walkCost_nonneg (g : Graph) (hw : g.WF) (u : Node) (steps : List (Node × ℚ))
    (h : WalkFrom g u steps) : 0 ≤ walkCost steps := by
  induction steps generalizing u with
  | nil => simp [walkCost]
  | cons e rest ih =>
    rcases e with ⟨v, w⟩
    obtain ⟨hmem, hrest⟩ := (walkFrom_cons g u v w rest).1 h
    have h1 : 0 < w := mem_neighbors_pos g hw u (v, w) hmem
    have h2 : 0 ≤ walkCost rest := ih v hrest
    rw [walkCost_cons]
    linarith

theorem walkCost_pos (g : Graph) (hw : g.WF) (u : Node) (steps : List (Node × ℚ))
    (h : WalkFrom g u steps) (hne : steps ≠ []) : 0 < walkCost steps := by
  cases steps with
  | nil => exact absurd rfl hne
  | cons e rest =>
    rcases e with ⟨v, w⟩
    obtain ⟨hmem, hrest⟩ := (walkFrom_cons g u v w rest).1 h
    have h1 : 0 < w := mem_neighbors_pos g hw u (v, w) hmem
    have h2 : 0 ≤ walkCost rest := walkCost_nonneg g hw v rest hrest
    rw [walkCost_cons]
    linarith

/-! ## The search-loop invariant -/

theorem memberN_id (l : List Node) (n m : Node) (h : n.id = m.id) :
    memberN l n = memberN l m := by
  unfold memberN
  have : (fun x : Node => x == n) = (fun x : Node => x == m) := by
    funext x
    show (x.id == n.id) = (x.id == m.id)
    rw [h]
  rw [this]

theorem containsA_id {α : Type} (l : List (Node × α)) (n m : Node) (h : n.id = m.id) :
    containsA l n = containsA l m := by
  unfold containsA
  have : (fun p : Node × α => p.1 == n) = (fun p : Node × α => p.1 == m) := by
    funext p
    show (p.1.id == n.id) = (p.1.id == m.id)
    rw [h]
  rw [this]

theorem memberN_append_one (l : List Node) (c n : Node) :
    memberN (l ++ [c]) n = (memberN l n || (c == n)) := by
  rw [memberN_append]
  unfold memberN
  simp [List.any_cons]

theorem mem_setA {α : Type} (l : List (Node × α)) (n : Node) (v : α) :
    ∀ q ∈ setA l n v, (q ∈ l ∧ ¬ q.1.id = n.id) ∨ (q.1.id = n.id ∧ q.2 = v) := by
  intro q hq
  unfold setA at hq
  by_cases hc : containsA l n = true
  · rw [if_pos hc] at hq
    rw [List.mem_map] at hq
    obtain ⟨q0, hq0, hmap⟩ := hq
    by_cases hqn : (q0.1 == n) = true
    · rw [if_pos hqn] at hmap
      right
      rw [← hmap]
      exact ⟨(node_beq_iff _ _).1 hqn, rfl⟩
    · rw [if_neg hqn] at hmap
      left
      subst hmap
      exact ⟨hq0, fun hid => hqn ((node_beq_iff _ _).2 hid)⟩
  · rw [if_neg hc] at hq
    rcases List.mem_append.1 hq with h1 | h1
    · left
      refine ⟨h1, fun hid => ?_⟩
      apply hc
      rw [containsA_iff]
      exact ⟨q, h1, hid⟩
    · simp only [List.mem_singleton] at h1
      subst h1
      right
      exact ⟨rfl, rfl⟩

/-- Core invariant of both search loops over the mutable state; `heuristic`
is the summand added to pushed priorities (`fun _ _ => 0` for `dijkstra`). -/
structure SInv (g : Graph) (start goal : Node) (heuristic : Node → Node → ℚ)
    (S : SearchState) : Prop where
  entry_gs : ∀ e ∈ S.pq, ∃ v, lookupA S.gScore e.2.2 = some v ∧
    v + heuristic e.2.2 goal ≤ e.1
  min_entry : ∀ n v, memberN S.visited n = false → lookupA S.gScore n = some v →
    ∃ e ∈ S.pq, e.2.2.id = n.id ∧ e.1 = v + heuristic e.2.2 goal
  gs_walk : ∀ n v, lookupA S.gScore n = some v →
    ∃ steps, WalkFrom g start steps ∧ (walkEnd start steps).id = n.id ∧ walkCost steps = v
  gs_start : lookupA S.gScore start = some 0
  start_no_parent : containsA S.cameFrom start = false
  cf_edge : ∀ q ∈ S.cameFrom, ∃ m w vp, (m, w) ∈ g.neighbors q.2 ∧ m.id = q.1.id ∧
    memberN S.visited q.2 = true ∧ lookupA S.gScore q.2 = some vp ∧
    lookupA S.gScore q.1 = some (vp + w)
  gs_cf : ∀ n v, lookupA S.gScore n = some v → n.id = start.id ∨ containsA S.cameFrom n = true
  visited_gs : ∀ n, memberN S.visited n = true → (lookupA S.gScore n).isSome = true

theorem sinv_gs_nonneg {g : Graph} {start goal : Node} {heuristic : Node → Node → ℚ}
    {S : SearchState} (hw : g.WF) (inv : SInv g start goal heuristic S) :
    ∀ n v, lookupA S.gScore n = some v → 0 ≤ v := by
  intro n v h
  obtain ⟨steps, hwalk, _, hcost⟩ := inv.gs_walk n v h
  rw [← hcost]
  exact walkCost_nonneg g hw start steps hwalk

/-- `SInv` only depends on the `pq`, `gScore`, `cameFrom` and `visited`
components of the state. -/
theorem sinv_congr {g : Graph} {start goal : Node} {heuristic : Node → Node → ℚ}
    {S S' : SearchState} (hpq : S'.pq = S.pq) (hgs : S'.gScore = S.gScore)
    (hcf : S'.cameFrom = S.cameFrom) (hv : S'.visited = S.visited)
    (inv : SInv g start goal heuristic S) : SInv g start goal heuristic S' := by
  refine ⟨?_, ?_, ?_, ?_, ?_, ?_, ?_, ?_⟩
  · rw [hpq, hgs]; exact inv.entry_gs
  · rw [hpq, hgs, hv]; exact inv.min_entry
  · rw [hgs]; exact inv.gs_walk
  · rw [hgs]; exact inv.gs_start
  · rw [hcf]; exact inv.start_no_parent
  · rw [hcf, hgs, hv]; exact inv.cf_edge
  · rw [hgs, hcf]; exact inv.gs_cf
  · rw [hgs, hv]; exact inv.visited_gs

/-- What one call to either neighbor-expansion loop does to the state,
beyond preserving `SInv`. -/
structure EPost (cur : Node) (ns : List (Node × ℚ)) (S S' : SearchState) : Prop where
  visited_eq : S'.visited = S.visited
  explored_eq : S'.exploredNodes = S.exploredNodes
  edges_eq : S'.exploredEdges = S.exploredEdges ++ ns.map (fun e => (cur, e.1))
  pq_app : ∃ tail, S'.pq = S.pq ++ tail
  pq_len : S'.pq.length ≤ S.pq.length + ns.length
  gs_mono : ∀ n v, lookupA S.gScore n = some v → ∃ v', lookupA S'.gScore n = some v' ∧ v' ≤ v
  gs_frozen : ∀ n, memberN S.visited n = true → lookupA S'.gScore n = lookupA S.gScore n
  cf_mono : ∀ n, containsA S.cameFrom n = true → containsA S'.cameFrom n = true
  ns_defined : ∀ e ∈ ns, (lookupA S'.gScore e.1).isSome = true

theorem epost_refl (cur : Node) (S : SearchState) : EPost cur [] S S := by
  refine ⟨rfl, rfl, by simp, ⟨[], by simp⟩, by simp, ?_, ?_, ?_, ?_⟩
  · intro n v h
    exact ⟨v, h, le_refl v⟩
  · intro n _
    rfl
  · intro n h
    exact h
  · intro e he
    exact absurd he (List.not_mem_nil e)

theorem relaxA_fields (goal : Node) (heuristic : Node → Node → ℚ) (cur nb : Node)
    (t : ℚ) (S : SearchState) :
    (relaxA goal heuristic cur nb t S).visited = S.visited ∧
    (relaxA goal heuristic cur nb t S).exploredNodes = S.exploredNodes ∧
    (relaxA goal heuristic cur nb t S).exploredEdges = S.exploredEdges ∧
    (relaxA goal heuristic cur nb t S).pq
      = S.pq ++ [(t + heuristic nb goal, S.counter, nb)] ∧
    (relaxA goal heuristic cur nb t S).gScore = setA S.gScore nb t ∧
    (relaxA goal heuristic cur nb t S).cameFrom = setA S.cameFrom nb cur := by
  unfold relaxA logOpen
  split <;> exact ⟨rfl, rfl, rfl, rfl, rfl, rfl⟩

theorem logEdge_fields (cur nb : Node) (S : SearchState) :
    (logEdge cur nb S).visited = S.visited ∧
    (logEdge cur nb S).exploredNodes = S.exploredNodes ∧
    (logEdge cur nb S).exploredEdges = S.exploredEdges ++ [(cur, nb)] ∧
    (logEdge cur nb S).pq = S.pq ∧
    (logEdge cur nb S).gScore = S.gScore ∧
    (logEdge cur nb S).cameFrom = S.cameFrom :=
  ⟨rfl, rfl, rfl, rfl, rfl, rfl⟩

/-- `SInv` is preserved by one successful A*-style relaxation. -/
theorem relaxA_sinv {g : Graph} {start goal : Node} {heuristic : Node → Node → ℚ}
    {S : SearchState} (hw : g.WF) (inv : SInv g start goal heuristic S)
    (cur neighbor : Node) (w gc : ℚ)
    (hedge : (neighbor, w) ∈ g.neighbors cur)
    (hvcur : memberN S.visited cur = true)
    (hnb : memberN S.visited neighbor = false)
    (hgc : lookupA S.gScore cur = some gc)
    (hbetter : betterThan S neighbor (gc + w) = true) :
    SInv g start goal heuristic (relaxA goal heuristic cur neighbor (gc + w) S) := by
  obtain ⟨hv, hx, he, hpq, hgs, hcf⟩ := relaxA_fields goal heuristic cur neighbor (gc + w) S
  have hwpos : 0 < w := mem_neighbors_pos g hw cur (neighbor, w) hedge
  have hgcnn : 0 ≤ gc := sinv_gs_nonneg hw inv cur gc hgc
  have hbet2 : ∀ gn, lookupA S.gScore neighbor = some gn → gc + w < gn := by
    intro gn hgn
    unfold betterThan at hbetter
    rw [hgn] at hbetter
    exact of_decide_eq_true hbetter
  have hnbcur : ¬ neighbor.id = cur.id := by
    intro hid
    rw [memberN_id S.visited neighbor cur hid, hvcur] at hnb
    exact absurd hnb (by simp)
  have hnbstart : ¬ neighbor.id = start.id := by
    intro hid
    have h0 : lookupA S.gScore neighbor = some 0 := by
      rw [lookupA_id S.gScore neighbor start hid]
      exact inv.gs_start
    have := hbet2 0 h0
    linarith
  set t := gc + w with ht
  refine ⟨?_, ?_, ?_, ?_, ?_, ?_, ?_, ?_⟩
  · -- entry_gs
    intro e hee
    rw [hpq] at hee
    rw [hgs]
    rcases List.mem_append.1 hee with h1 | h1
    · obtain ⟨v, hv1, hv2⟩ := inv.entry_gs e h1
      by_cases hid : e.2.2.id = neighbor.id
      · have hold : lookupA S.gScore neighbor = some v := by
          rw [← lookupA_id S.gScore e.2.2 neighbor hid]
          exact hv1
        have hlt : t < v := hbet2 v hold
        refine ⟨t, lookupA_setA_self S.gScore neighbor e.2.2 t hid.symm, ?_⟩
        have := add_le_add_right (le_of_lt hlt) (heuristic e.2.2 goal)
        linarith
      · refine ⟨v, ?_, hv2⟩
        rw [lookupA_setA_ne S.gScore neighbor e.2.2 t (fun hh => hid hh.symm)]
        exact hv1
    · simp only [List.mem_singleton] at h1
      subst h1
      refine ⟨t, lookupA_setA_self S.gScore neighbor neighbor t rfl, le_refl _⟩
  · -- min_entry
    intro n v hnv hlk
    rw [hv] at hnv
    rw [hgs] at hlk
    rw [hpq]
    by_cases hid : n.id = neighbor.id
    · rw [lookupA_setA_self S.gScore neighbor n t hid.symm] at hlk
      have hvt : v = t := by injection hlk.symm
      refine ⟨(t + heuristic neighbor goal, S.counter, neighbor), ?_, hid.symm, ?_⟩
      · exact List.mem_append_right _ (List.mem_singleton_self _)
      · rw [hvt]
    · rw [lookupA_setA_ne S.gScore neighbor n t (fun hh => hid hh.symm)] at hlk
      obtain ⟨e, hee, hid2, hkey⟩ := inv.min_entry n v hnv hlk
      exact ⟨e, List.mem_append_left _ hee, hid2, hkey⟩
  · -- gs_walk
    intro n v hlk
    rw [hgs] at hlk
    by_cases hid : n.id = neighbor.id
    · rw [lookupA_setA_self S.gScore neighbor n t hid.symm] at hlk
      have hvt : v = t := by injection hlk.symm
      obtain ⟨steps, hsteps, hzid, hcost⟩ := inv.gs_walk cur gc hgc
      refine ⟨steps ++ [(neighbor, w)], ?_, ?_, ?_⟩
      · rw [walkFrom_append]
        refine ⟨hsteps, ?_⟩
        rw [walkFrom_cons]
        refine ⟨?_, trivial⟩
        rw [neighbors_id g (walkEnd start steps) cur hzid]
        exact hedge
      · rw [walkEnd_append]
        rw [walkEnd_cons, walkEnd_nil]
        exact hid.symm
      · rw [walkCost_append, hcost, walkCost_cons, walkCost_nil, hvt]
        ring
    · rw [lookupA_setA_ne S.gScore neighbor n t (fun hh => hid hh.symm)] at hlk
      exact inv.gs_walk n v hlk
  · -- gs_start
    rw [hgs]
    rw [lookupA_setA_ne S.gScore neighbor start t hnbstart]
    exact inv.gs_start
  · -- start_no_parent
    rw [hcf]
    rw [containsA_setA S.cameFrom neighbor start cur, inv.start_no_parent]
    have : (neighbor == start) = false := by
      apply bool_eq_false
      rw [node_beq_iff]
      exact hnbstart
    rw [this]
    rfl
  · -- cf_edge
    intro q hq
    rw [hcf] at hq
    rcases mem_setA S.cameFrom neighbor cur q hq with ⟨hqm, hqid⟩ | ⟨hqid, hqv⟩
    · obtain ⟨m, w2, vp, hm, hmid, hqvis, hvp, hq1⟩ := inv.cf_edge q hqm
      have hq2id : ¬ q.2.id = neighbor.id := by
        intro hid
        rw [← memberN_id S.visited q.2 neighbor hid, hqvis] at hnb
        exact absurd hnb (by simp)
      refine ⟨m, w2, vp, hm, hmid, ?_, ?_, ?_⟩
      · rw [hv]; exact hqvis
      · rw [hgs, lookupA_setA_ne S.gScore neighbor q.2 t (fun hh => hq2id hh.symm)]
        exact hvp
      · rw [hgs, lookupA_setA_ne S.gScore neighbor q.1 t (fun hh => hqid hh.symm)]
        exact hq1
    · refine ⟨neighbor, w, gc, ?_, hqid.symm, ?_, ?_, ?_⟩
      · rw [hqv]; exact hedge
      · rw [hv, hqv]; exact hvcur
      · rw [hgs, hqv, lookupA_setA_ne S.gScore neighbor cur t hnbcur]
        exact hgc
      · rw [hgs, lookupA_setA_self S.gScore neighbor q.1 t hqid.symm]
  · -- gs_cf
    intro n v hlk
    rw [hgs] at hlk
    rw [hcf, containsA_setA S.cameFrom neighbor n cur]
    by_cases hid : n.id = neighbor.id
    · right
      have : (neighbor == n) = true := (node_beq_iff _ _).2 hid.symm
      rw [this, Bool.or_true]
    · rw [lookupA_setA_ne S.gScore neighbor n t (fun hh => hid hh.symm)] at hlk
      rcases inv.gs_cf n v hlk with h1 | h1
      · exact Or.inl h1
      · right
        rw [h1, Bool.true_or]
  · -- visited_gs
    intro n hn
    rw [hv] at hn
    rw [hgs]
    by_cases hid : n.id = neighbor.id
    · rw [← memberN_id S.visited n neighbor hid, hn] at hnb
      exact absurd hnb (by simp)
    · rw [lookupA_setA_ne S.gScore neighbor n t (fun hh => hid hh.symm)]
      exact inv.visited_gs n hn

theorem relaxA_post (goal : Node) (heuristic : Node → Node → ℚ) (cur neighbor : Node)
    (t : ℚ) (S : SearchState)
    (hbetter : betterThan S neighbor t = true)
    (hnb : memberN S.visited neighbor = false) :
    (∀ n v, lookupA S.gScore n = some v →
      ∃ v', lookupA (relaxA goal heuristic cur neighbor t S).gScore n = some v' ∧ v' ≤ v) ∧
    (∀ n, memberN S.visited n = true →
      lookupA (relaxA goal heuristic cur neighbor t S).gScore n = lookupA S.gScore n) ∧
    (∀ n, containsA S.cameFrom n = true →
      containsA (relaxA goal heuristic cur neighbor t S).cameFrom n = true) ∧
    (∃ tail, (relaxA goal heuristic cur neighbor t S).pq = S.pq ++ tail) := by
  obtain ⟨hv, hx, he, hpq, hgs, hcf⟩ := relaxA_fields goal heuristic cur neighbor t S
  have hbet2 : ∀ gn, lookupA S.gScore neighbor = some gn → t < gn := by
    intro gn hgn
    unfold betterThan at hbetter
    rw [hgn] at hbetter
    exact of_decide_eq_true hbetter
  refine ⟨?_, ?_, ?_, ⟨_, hpq⟩⟩
  · intro n v h
    rw [hgs]
    by_cases hid : n.id = neighbor.id
    · have hold : lookupA S.gScore neighbor = some v := by
        rw [← lookupA_id S.gScore n neighbor hid]
        exact h
      exact ⟨t, lookupA_setA_self S.gScore neighbor n t hid.symm,
        le_of_lt (hbet2 v hold)⟩
    · exact ⟨v, by rw [lookupA_setA_ne S.gScore neighbor n t (fun hh => hid hh.symm)]; exact h,
        le_refl v⟩
  · intro n hvn
    rw [hgs]
    by_cases hid : n.id = neighbor.id
    · rw [← memberN_id S.visited n neighbor hid, hvn] at hnb
      exact absurd hnb (by simp)
    · exact lookupA_setA_ne S.gScore neighbor n t (fun hh => hid hh.symm)
  · intro n h
    rw [hcf, containsA_setA S.cameFrom neighbor n cur, h, Bool.true_or]

/-- Composition of the per-step state delta with the remaining expansion. -/
theorem epost_step {cur neighbor : Node} {w : ℚ} {rest : List (Node × ℚ)}
    {S T S' : SearchState}
    (tv : T.visited = S.visited) (tx : T.exploredNodes = S.exploredNodes)
    (te : T.exploredEdges = S.exploredEdges ++ [(cur, neighbor)])
    (tpq : ∃ tail, T.pq = S.pq ++ tail)
    (tlen : T.pq.length ≤ S.pq.length + 1)
    (tgs : ∀ n v, lookupA S.gScore n = some v → ∃ v', lookupA T.gScore n = some v' ∧ v' ≤ v)
    (tfr : ∀ n, memberN S.visited n = true → lookupA T.gScore n = lookupA S.gScore n)
    (tcf : ∀ n, containsA S.cameFrom n = true → containsA T.cameFrom n = true)
    (thd : (lookupA T.gScore neighbor).isSome = true)
    (post : EPost cur rest T S') :
    EPost cur ((neighbor, w) :: rest) S S' := by
  refine ⟨post.visited_eq.trans tv, post.explored_eq.trans tx, ?_, ?_, ?_, ?_, ?_, ?_, ?_⟩
  · rw [post.edges_eq, te, List.append_assoc]
    rfl
  · obtain ⟨t1, ht1⟩ := tpq
    obtain ⟨t2, ht2⟩ := post.pq_app
    exact ⟨t1 ++ t2, by rw [ht2, ht1, List.append_assoc]⟩
  · have h1 := post.pq_len
    simp only [List.length_cons]
    omega
  · intro n v h
    obtain ⟨v1, h1, h2⟩ := tgs n v h
    obtain ⟨v2, h3, h4⟩ := post.gs_mono n v1 h1
    exact ⟨v2, h3, le_trans h4 h2⟩
  · intro n h
    rw [post.gs_frozen n (by rw [tv]; exact h)]
    exact tfr n h
  · intro n h
    exact post.cf_mono n (tcf n h)
  · intro e he
    rcases List.mem_cons.1 he with h1 | h1
    · subst h1
      show (lookupA S'.gScore neighbor).isSome = true
      obtain ⟨v, hv⟩ := Option.isSome_iff_exists.1 thd
      obtain ⟨v2, hv2, _⟩ := post.gs_mono neighbor v hv
      rw [hv2]
      rfl
    · exact post.ns_defined e h1

theorem astarExpand_cons_skip (goal : Node) (heuristic : Node → Node → ℚ)
    (cur neighbor : Node) (w : ℚ) (rest : List (Node × ℚ)) (S : SearchState)
    (hnb : memberN S.visited neighbor = true) :
    astarExpand goal heuristic cur ((neighbor, w) :: rest) S
      = astarExpand goal heuristic cur rest (logEdge cur neighbor S) := by
  simp only [astarExpand, hnb]
  simp

theorem astarExpand_cons_relax (goal : Node) (heuristic : Node → Node → ℚ)
    (cur neighbor : Node) (w gc : ℚ) (rest : List (Node × ℚ)) (S : SearchState)
    (hnb : memberN S.visited neighbor = false)
    (hgc : lookupA S.gScore cur = some gc)
    (hbet : betterThan S neighbor (gc + w) = true) :
    astarExpand goal heuristic cur ((neighbor, w) :: rest) S
      = astarExpand goal heuristic cur rest
          (relaxA goal heuristic cur neighbor (gc + w) (logEdge cur neighbor S)) := by
  simp only [astarExpand, hnb, hgc, hbet]
  simp

theorem astarExpand_cons_norelax (goal : Node) (heuristic : Node → Node → ℚ)
    (cur neighbor : Node) (w gc : ℚ) (rest : List (Node × ℚ)) (S : SearchState)
    (hnb : memberN S.visited neighbor = false)
    (hgc : lookupA S.gScore cur = some gc)
    (hbet : betterThan S neighbor (gc + w) = false) :
    astarExpand goal heuristic cur ((neighbor, w) :: rest) S
      = astarExpand goal heuristic cur rest (logEdge cur neighbor S) := by
  simp only [astarExpand, hnb, hgc, hbet]
  simp

/-- Running the A* neighbor loop from an invariant state succeeds and
preserves the invariant. -/
theorem astarExpand_run (g : Graph) (start goal : Node) (heuristic : Node → Node → ℚ)
    (hw : g.WF) (cur : Node) :
    ∀ (ns : List (Node × ℚ)) (S : SearchState),
    (∀ e ∈ ns, e ∈ g.neighbors cur) → memberN S.visited cur = true →
    SInv g start goal heuristic S →
    ∃ S', astarExpand goal heuristic cur ns S = some S' ∧
      SInv g start goal heuristic S' ∧ EPost cur ns S S' := by
  intro ns
  induction ns with
  | nil =>
    intro S hsub hvcur inv
    exact ⟨S, rfl, inv, epost_refl cur S⟩
  | cons e rest ih =>
    rcases e with ⟨neighbor, w⟩
    intro S hsub hvcur inv
    have hedge : (neighbor, w) ∈ g.neighbors cur := hsub _ (List.mem_cons_self _ _)
    have hsubr : ∀ e ∈ rest, e ∈ g.neighbors cur :=
      fun e he => hsub e (List.mem_cons_of_mem _ he)
    obtain ⟨lv, lx, le2, lpq, lgs, lcf⟩ := logEdge_fields cur neighbor S
    have inv1 : SInv g start goal heuristic (logEdge cur neighbor S) :=
      sinv_congr lpq lgs lcf lv inv
    have hvcur1 : memberN (logEdge cur neighbor S).visited cur = true := by
      rw [lv]; exact hvcur
    by_cases hnb : memberN S.visited neighbor = true
    · obtain ⟨S', heq, inv', post⟩ := ih (logEdge cur neighbor S) hsubr hvcur1 inv1
      refine ⟨S', ?_, inv', ?_⟩
      · rw [astarExpand_cons_skip goal heuristic cur neighbor w rest S hnb]
        exact heq
      · refine epost_step lv lx le2 ⟨[], by rw [lpq, List.append_nil]⟩
          (by rw [lpq]; omega) ?_ ?_ ?_ (by rw [lgs]; exact inv.visited_gs neighbor hnb) post
        · intro n v h
          rw [lgs]
          exact ⟨v, h, le_refl v⟩
        · intro n _
          rw [lgs]
        · intro n h
          rw [lcf]
          exact h
    · have hnb2 : memberN S.visited neighbor = false := bool_eq_false hnb
      have hgcs : (lookupA S.gScore cur).isSome = true := inv.visited_gs cur hvcur
      obtain ⟨gc, hgc⟩ := Option.isSome_iff_exists.1 hgcs
      by_cases hbet : betterThan S neighbor (gc + w) = true
      · -- successful relaxation
        have hbet1 : betterThan (logEdge cur neighbor S) neighbor (gc + w) = true := by
          unfold betterThan
          rw [lgs]
          unfold betterThan at hbet
          exact hbet
        have hnb1 : memberN (logEdge cur neighbor S).visited neighbor = false := by
          rw [lv]; exact hnb2
        have hgc1 : lookupA (logEdge cur neighbor S).gScore cur = some gc := by
          rw [lgs]; exact hgc
        have hedge1 : (neighbor, w) ∈ g.neighbors cur := hedge
        have inv2 : SInv g start goal heuristic
            (relaxA goal heuristic cur neighbor (gc + w) (logEdge cur neighbor S)) :=
          relaxA_sinv hw inv1 cur neighbor w gc hedge1 hvcur1 hnb1 hgc1 hbet1
        obtain ⟨hpostm, hpostf, hpostc, hpostpq⟩ :=
          relaxA_post goal heuristic cur neighbor (gc + w) (logEdge cur neighbor S) hbet1 hnb1
        obtain ⟨rv, rx, re, rpq, rgs, rcf⟩ :=
          relaxA_fields goal heuristic cur neighbor (gc + w) (logEdge cur neighbor S)
        have hvcur2 : memberN
            (relaxA goal heuristic cur neighbor (gc + w) (logEdge cur neighbor S)).visited
            cur = true := by
          rw [rv, lv]; exact hvcur
        obtain ⟨S', heq, inv', post⟩ := ih _ hsubr hvcur2 inv2
        refine ⟨S', ?_, inv', ?_⟩
        · rw [astarExpand_cons_relax goal heuristic cur neighbor w gc rest S hnb2 hgc hbet]
          exact heq
        · refine epost_step ?_ ?_ ?_ ?_ ?_ ?_ ?_ ?_ ?_ post
          · rw [rv, lv]
          · rw [rx, lx]
          · rw [re, le2]
          · obtain ⟨tail, htail⟩ := hpostpq
            exact ⟨tail, by rw [htail, lpq]⟩
          · rw [rpq, lpq]
            simp
          · intro n v h
            have h1 : lookupA (logEdge cur neighbor S).gScore n = some v := by
              rw [lgs]; exact h
            exact hpostm n v h1
          · intro n h
            have h1 : memberN (logEdge cur neighbor S).visited n = true := by
              rw [lv]; exact h
            rw [hpostf n h1, lgs]
          · intro n h
            apply hpostc
            rw [lcf]
            exact h
          · rw [rgs, lgs, lookupA_setA_self S.gScore neighbor neighbor (gc + w) rfl]
            rfl
      · have hbet2 : betterThan S neighbor (gc + w) = false := bool_eq_false hbet
        obtain ⟨S', heq, inv', post⟩ := ih (logEdge cur neighbor S) hsubr hvcur1 inv1
        refine ⟨S', ?_, inv', ?_⟩
        · rw [astarExpand_cons_norelax goal heuristic cur neighbor w gc rest S hnb2 hgc hbet2]
          exact heq
        · have hnbdef : (lookupA S.gScore neighbor).isSome = true := by
            unfold betterThan at hbet2
            cases hlook : lookupA S.gScore neighbor with
            | none =>
              rw [hlook] at hbet2
              exact absurd hbet2 (by simp)
            | some gn => rfl
          refine epost_step lv lx le2 ⟨[], by rw [lpq, List.append_nil]⟩
            (by rw [lpq]; omega) ?_ ?_ ?_ (by rw [lgs]; exact hnbdef) post
          · intro n v h
            rw [lgs]
            exact ⟨v, h, le_refl v⟩
          · intro n _
            rw [lgs]
          · intro n h
            rw [lcf]
            exact h

/-! ## Termination measure for the search loops -/

/-- Total degree of the not-yet-visited graph nodes. -/
def unvisitedDeg (g : Graph) (visited : List Node) : Nat :=
  ((g.adjacency.filter (fun p => !(memberN visited p.1))).map (fun p => p.2.length)).sum

def sMeasure (g : Graph) (S : SearchState) : Nat := S.pq.length + unvisitedDeg g S.visited

theorem sumDeg_finalize_aux (visited : List Node) (cur : Node)
    (hnv : memberN visited cur = false) :
    ∀ adj : List (Node × List (Node × ℚ)), (adj.map (fun p => p.1.id)).Nodup →
    ((adj.filter (fun p => !(memberN visited p.1))).map (fun p => p.2.length)).sum
      = ((adj.filter (fun p => !(memberN (visited ++ [cur]) p.1))).map
          (fun p => p.2.length)).sum
        + (((adj.find? (fun p => p.1 == cur)).map (fun p => p.2)).getD []).length := by
  intro adj
  induction adj with
  | nil => simp
  | cons p rest ih =>
    intro hnd
    rw [List.map_cons, List.nodup_cons] at hnd
    obtain ⟨hp, hnd2⟩ := hnd
    by_cases hpc : (p.1 == cur) = true
    · have hpid : p.1.id = cur.id := (node_beq_iff _ _).1 hpc
      have hv1 : memberN visited p.1 = false := by
        rw [memberN_id visited p.1 cur hpid]
        exact hnv
      have hv2 : memberN (visited ++ [cur]) p.1 = true := by
        rw [memberN_append_one]
        have : (cur == p.1) = true := (node_beq_iff _ _).2 hpid.symm
        rw [this, Bool.or_true]
      have hfind : (p :: rest).find? (fun q => q.1 == cur) = some p := by
        simp only [List.find?, hpc]
      have hrest : ∀ q ∈ rest, memberN (visited ++ [cur]) q.1 = memberN visited q.1 := by
        intro q hq
        rw [memberN_append_one]
        have hne : (cur == q.1) = false := by
          apply bool_eq_false
          rw [node_beq_iff]
          intro hidq
          apply hp
          rw [List.mem_map]
          exact ⟨q, hq, (hpid.trans hidq).symm⟩
        rw [hne, Bool.or_false]
      have hfilter : rest.filter (fun q => !(memberN (visited ++ [cur]) q.1))
          = rest.filter (fun q => !(memberN visited q.1)) := by
        apply List.filter_congr
        intro q hq
        rw [hrest q hq]
      rw [hfind]
      have e1 : List.filter (fun q => !memberN visited q.1) (p :: rest)
          = p :: List.filter (fun q => !memberN visited q.1) rest := by
        simp [List.filter_cons, hv1]
      have e2 : List.filter (fun q => !memberN (visited ++ [cur]) q.1) (p :: rest)
          = List.filter (fun q => !memberN (visited ++ [cur]) q.1) rest := by
        simp [List.filter_cons, hv2]
      rw [e1, e2, hfilter]
      simp only [List.map_cons, List.sum_cons]
      have hre : ((Option.map (fun p : Node × List (Node × ℚ) => p.2) (some p)).getD
          ([] : List (Node × ℚ))).length = p.2.length := rfl
      rw [hre]
      omega
    · have hpc2 : (p.1 == cur) = false := bool_eq_false hpc
      have hpid : ¬ p.1.id = cur.id := fun hh => hpc ((node_beq_iff _ _).2 hh)
      have hmm : memberN (visited ++ [cur]) p.1 = memberN visited p.1 := by
        rw [memberN_append_one]
        have : (cur == p.1) = false := by
          apply bool_eq_false
          rw [node_beq_iff]
          exact fun hh => hpid hh.symm
        rw [this, Bool.or_false]
      have hfind : (p :: rest).find? (fun q => q.1 == cur)
          = rest.find? (fun q => q.1 == cur) := by
        simp only [List.find?, hpc2]
      rw [hfind]
      by_cases hkeep : memberN visited p.1 = true
      · have e1 : List.filter (fun q => !memberN visited q.1) (p :: rest)
            = List.filter (fun q => !memberN visited q.1) rest := by
          simp [List.filter_cons, hkeep]
        have e2 : List.filter (fun q => !memberN (visited ++ [cur]) q.1) (p :: rest)
            = List.filter (fun q => !memberN (visited ++ [cur]) q.1) rest := by
          simp [List.filter_cons, hmm, hkeep]
        rw [e1, e2]
        exact ih hnd2
      · have hkeep2 : memberN visited p.1 = false := bool_eq_false hkeep
        have e1 : List.filter (fun q => !memberN visited q.1) (p :: rest)
            = p :: List.filter (fun q => !memberN visited q.1) rest := by
          simp [List.filter_cons, hkeep2]
        have e2 : List.filter (fun q => !memberN (visited ++ [cur]) q.1) (p :: rest)
            = p :: List.filter (fun q => !memberN (visited ++ [cur]) q.1) rest := by
          simp [List.filter_cons, hmm, hkeep2]
        rw [e1, e2]
        simp only [List.map_cons, List.sum_cons]
        have := ih hnd2
        omega

/-- Finalizing an unvisited node removes exactly its degree from the
unvisited-degree sum. -/
theorem unvisitedDeg_finalize (g : Graph) (hw : g.WF) (visited : List Node) (cur : Node)
    (hnv : memberN visited cur = false) :
    unvisitedDeg g visited
      = unvisitedDeg g (visited ++ [cur]) + (g.neighbors cur).length := by
  unfold unvisitedDeg Graph.neighbors
  exact sumDeg_finalize_aux visited cur hnv g.adjacency hw.2

/-- `SInv` survives discarding a stale queue entry. -/
theorem sinv_pop_stale {g : Graph} {start goal : Node} {heuristic : Node → Node → ℚ}
    {S : SearchState} (inv : SInv g start goal heuristic S)
    (e0 : Entry) (rest : List Entry) (hpop : popMin S.pq = some (e0, rest))
    (hvis : memberN S.visited e0.2.2 = true) :
    SInv g start goal heuristic {S with pq := rest} := by
  refine ⟨?_, ?_, inv.gs_walk, inv.gs_start, inv.start_no_parent, inv.cf_edge,
    inv.gs_cf, inv.visited_gs⟩
  · intro e he
    exact inv.entry_gs e (popMin_rest_subset S.pq e0 rest hpop e he)
  · intro n v hnv hlk
    obtain ⟨e, he, hid, hkey⟩ := inv.min_entry n v hnv hlk
    refine ⟨e, ?_, hid, hkey⟩
    have hmem : e ∈ e0 :: rest := (popMin_perm S.pq e0 rest hpop).subset he
    rcases List.mem_cons.1 hmem with h1 | h1
    · exfalso
      subst h1
      have hveq : memberN S.visited n = false := hnv
      rw [memberN_id S.visited n e.2.2 hid.symm, hvis] at hveq
      exact absurd hveq (by simp)
    · exact h1

/-- `SInv` survives finalizing a freshly-popped node. -/
theorem sinv_finalize {g : Graph} {start goal : Node} {heuristic : Node → Node → ℚ}
    {S : SearchState} (inv : SInv g start goal heuristic S)
    (e0 : Entry) (rest : List Entry) (hpop : popMin S.pq = some (e0, rest))
    (hvis : memberN S.visited e0.2.2 = false) :
    SInv g start goal heuristic (finalize e0.2.2 rest S) := by
  obtain ⟨v0, hv0, _⟩ := inv.entry_gs e0 (popMin_mem S.pq e0 rest hpop)
  refine ⟨?_, ?_, inv.gs_walk, inv.gs_start, inv.start_no_parent, ?_, inv.gs_cf, ?_⟩
  · intro e he
    exact inv.entry_gs e (popMin_rest_subset S.pq e0 rest hpop e he)
  · intro n v hnv hlk
    have hnv1 : memberN (S.visited ++ [e0.2.2]) n = false := hnv
    rw [memberN_append_one] at hnv1
    have hnv2 : memberN S.visited n = false := by
      rcases Bool.eq_false_or_eq_true (memberN S.visited n) with h | h
      · rw [h, Bool.true_or] at hnv1
        exact absurd hnv1 (by simp)
      · exact h
    have hcn : (e0.2.2 == n) = false := by
      rcases Bool.eq_false_or_eq_true (e0.2.2 == n) with h | h
      · rw [h, Bool.or_true] at hnv1
        exact absurd hnv1 (by simp)
      · exact h
    obtain ⟨e, he, hid, hkey⟩ := inv.min_entry n v hnv2 hlk
    refine ⟨e, ?_, hid, hkey⟩
    have hmem : e ∈ e0 :: rest := (popMin_perm S.pq e0 rest hpop).subset he
    rcases List.mem_cons.1 hmem with h1 | h1
    · exfalso
      subst h1
      have hbeq := (node_beq_iff _ _).2 hid
      rw [hcn] at hbeq
      exact absurd hbeq (by simp)
    · exact h1
  · intro q hq
    obtain ⟨m, w, vp, hm, hmid, hqvis, hvp, hq1⟩ := inv.cf_edge q hq
    refine ⟨m, w, vp, hm, hmid, ?_, hvp, hq1⟩
    show memberN (S.visited ++ [e0.2.2]) q.2 = true
    rw [memberN_append_one, hqvis, Bool.true_or]
  · intro n hn
    have hn1 : memberN (S.visited ++ [e0.2.2]) n = true := hn
    rw [memberN_append_one] at hn1
    rcases Bool.eq_false_or_eq_true (memberN S.visited n) with h | h
    · exact inv.visited_gs n h
    · rw [h, Bool.false_or] at hn1
      have hid : e0.2.2.id = n.id := (node_beq_iff _ _).1 hn1
      show (lookupA S.gScore n).isSome = true
      rw [← lookupA_id S.gScore e0.2.2 n hid, hv0]
      rfl

/-- Visited non-goal nodes have been fully expanded: each of their
neighbors has a best-known cost. -/
def ClosedInv (g : Graph) (goal : Node) (S : SearchState) : Prop :=
  ∀ n, memberN S.visited n = true → ¬ n.id = goal.id →
    ∀ e ∈ g.neighbors n, (lookupA S.gScore e.1).isSome = true

/-- The instrumentation-trace invariant of both loops: the visited set and
`explored_nodes` coincide, and `explored_edges` is the concatenation of the
full neighbor lists of the finalized non-goal nodes in pop order. -/
def TraceOK (g : Graph) (goal : Node) (S : SearchState) : Prop :=
  S.visited = S.exploredNodes ∧
  S.exploredEdges = S.exploredNodes.flatMap (fun v =>
    if v.id = goal.id then [] else (g.neighbors v).map (fun e => (v, e.1)))

/-- Running the A* main loop from an invariant state with enough fuel
succeeds, preserves the invariants, and ends with an empty frontier or
with the goal finalized. -/
theorem astarLoop_run (g : Graph) (start goal : Node) (heuristic : Node → Node → ℚ)
    (hw : g.WF) :
    ∀ (fuel : Nat) (S : SearchState), SInv g start goal heuristic S →
    TraceOK g goal S → ClosedInv g goal S → memberN S.visited goal = false →
    sMeasure g S < fuel →
    ∃ S', astarLoop g goal heuristic fuel S = some S' ∧
      SInv g start goal heuristic S' ∧ TraceOK g goal S' ∧ ClosedInv g goal S' ∧
      (S'.pq = [] ∨ memberN S'.visited goal = true) := by
  intro fuel
  induction fuel with
  | zero =>
    intro S _ _ _ _ hm
    exact absurd hm (Nat.not_lt_zero _)
  | succ fuel ih =>
    intro S inv htr hcl hgv hm
    cases hpop : popMin S.pq with
    | none =>
      refine ⟨S, ?_, inv, htr, hcl, Or.inl ((popMin_none_iff S.pq).1 hpop)⟩
      simp only [astarLoop, hpop]
    | some pr =>
      rcases pr with ⟨⟨k, c, cur⟩, rest⟩
      have hlen : S.pq.length = rest.length + 1 := popMin_length _ _ _ hpop
      by_cases hvis : memberN S.visited cur = true
      · have hred : astarLoop g goal heuristic (fuel+1) S
            = astarLoop g goal heuristic fuel {S with pq := rest} := by
          simp only [astarLoop, hpop, hvis]
          simp
        have inv2 := sinv_pop_stale inv (k, c, cur) rest hpop hvis
        have htr2 : TraceOK g goal {S with pq := rest} := htr
        have hcl2 : ClosedInv g goal {S with pq := rest} := hcl
        have hgv2 : memberN ({S with pq := rest} : SearchState).visited goal = false := hgv
        have hm2 : sMeasure g {S with pq := rest} < fuel := by
          have hm1 : S.pq.length + unvisitedDeg g S.visited < fuel + 1 := hm
          show rest.length + unvisitedDeg g S.visited < fuel
          omega
        obtain ⟨S', heq, inv', htr', hcl', hfin⟩ := ih _ inv2 htr2 hcl2 hgv2 hm2
        exact ⟨S', by rw [hred]; exact heq, inv', htr', hcl', hfin⟩
      · have hvis2 : memberN S.visited cur = false := bool_eq_false hvis
        have inv1 : SInv g start goal heuristic (finalize cur rest S) :=
          sinv_finalize inv (k, c, cur) rest hpop hvis2
        by_cases hgoal : (cur == goal) = true
        · have hred : astarLoop g goal heuristic (fuel+1) S
              = some (finalize cur rest S) := by
            simp only [astarLoop, hpop, hvis, hgoal]
            simp
          obtain ⟨ht1, ht2⟩ := htr
          refine ⟨finalize cur rest S, hred, inv1, ⟨?_, ?_⟩, ?_, Or.inr ?_⟩
          · show S.visited ++ [cur] = S.exploredNodes ++ [cur]
            rw [ht1]
          · show S.exploredEdges = (S.exploredNodes ++ [cur]).flatMap _
            rw [List.flatMap_append]
            have hcg : cur.id = goal.id := (node_beq_iff _ _).1 hgoal
            simp [hcg, ht2]
          · intro n hn hng e he
            have hn1 : memberN (S.visited ++ [cur]) n = true := hn
            rw [memberN_append_one] at hn1
            rcases Bool.eq_false_or_eq_true (memberN S.visited n) with h | h
            · exact hcl n h hng e he
            · rw [h, Bool.false_or] at hn1
              exfalso
              apply hng
              rw [← (node_beq_iff _ _).1 hn1]
              exact (node_beq_iff _ _).1 hgoal
          · show memberN (S.visited ++ [cur]) goal = true
            rw [memberN_append_one, hgoal, Bool.or_true]
        · have hgoal2 : (cur == goal) = false := bool_eq_false hgoal
          have hvcur1 : memberN (finalize cur rest S).visited cur = true := by
            show memberN (S.visited ++ [cur]) cur = true
            rw [memberN_append_one, node_beq_self, Bool.or_true]
          obtain ⟨S2, hexp, inv2, post⟩ := astarExpand_run g start goal heuristic hw cur
            (g.neighbors cur) (finalize cur rest S) (fun e he => he) hvcur1 inv1
          have hred : astarLoop g goal heuristic (fuel+1) S
              = astarLoop g goal heuristic fuel S2 := by
            simp only [astarLoop, hpop, hvis2, hgoal2, hexp]
            simp
          have hfv : S2.visited = S.visited ++ [cur] := post.visited_eq
          have hfx : S2.exploredNodes = S.exploredNodes ++ [cur] := post.explored_eq
          obtain ⟨ht1, ht2⟩ := htr
          have htr2 : TraceOK g goal S2 := by
            constructor
            · rw [hfv, hfx, ht1]
            · have he2 : S2.exploredEdges = S.exploredEdges
                  ++ (g.neighbors cur).map (fun e => (cur, e.1)) := post.edges_eq
              rw [he2, hfx, List.flatMap_append, ht2]
              have hcg : ¬ cur.id = goal.id := by
                intro hh
                exact absurd ((node_beq_iff _ _).2 hh) (by rw [hgoal2]; simp)
              simp [hcg]
          have hcl2 : ClosedInv g goal S2 := by
            intro n hn hng e he
            have hn1 : memberN (S.visited ++ [cur]) n = true := by
              rw [← hfv]; exact hn
            rw [memberN_append_one] at hn1
            rcases Bool.eq_false_or_eq_true (memberN S.visited n) with h | h
            · have hdef := hcl n h hng e he
              obtain ⟨v, hv⟩ := Option.isSome_iff_exists.1 hdef
              have hv1 : lookupA (finalize cur rest S).gScore e.1 = some v := hv
              obtain ⟨v2, hv2, _⟩ := post.gs_mono e.1 v hv1
              rw [hv2]
              rfl
            · rw [h, Bool.false_or] at hn1
              have hncur : n.id = cur.id := ((node_beq_iff _ _).1 hn1).symm
              have hne : e ∈ g.neighbors cur := by
                rw [← neighbors_id g n cur hncur]
                exact he
              exact post.ns_defined e hne
          have hgv2 : memberN S2.visited goal = false := by
            rw [hfv, memberN_append_one, hgv, hgoal2]
            rfl
          have hm2 : sMeasure g S2 < fuel := by
            have hm1 : S.pq.length + unvisitedDeg g S.visited < fuel + 1 := hm
            have hud := unvisitedDeg_finalize g hw S.visited cur hvis2
            have hpl : S2.pq.length ≤ rest.length + (g.neighbors cur).length := post.pq_len
            have hun : unvisitedDeg g S2.visited = unvisitedDeg g (S.visited ++ [cur]) := by
              rw [hfv]
            show S2.pq.length + unvisitedDeg g S2.visited < fuel
            rw [hun]
            omega
          obtain ⟨S', heq, inv', htr', hcl', hfin⟩ := ih S2 inv2 htr2 hcl2 hgv2 hm2
          exact ⟨S', by rw [hred]; exact heq, inv', htr', hcl', hfin⟩

/-! ## Completeness: with an exhausted frontier every reachable node,
in particular a reachable goal, has been finalized -/

theorem gs_defined_visited_of_empty {g : Graph} {start goal : Node}
    {heuristic : Node → Node → ℚ} {S : SearchState}
    (inv : SInv g start goal heuristic S) (hempty : S.pq = []) :
    ∀ n, (lookupA S.gScore n).isSome = true → memberN S.visited n = true := by
  intro n hdef
  rcases Bool.eq_false_or_eq_true (memberN S.visited n) with h | h
  · exact h
  · obtain ⟨v, hv⟩ := Option.isSome_iff_exists.1 hdef
    obtain ⟨e, he, _, _⟩ := inv.min_entry n v h hv
    rw [hempty] at he
    exact absurd he (List.not_mem_nil e)

theorem reachable_goal_visited {g : Graph} {start goal : Node}
    {heuristic : Node → Node → ℚ} {S : SearchState}
    (inv : SInv g start goal heuristic S) (hcl : ClosedInv g goal S)
    (hempty : S.pq = []) (hre : Reachable g start goal) :
    memberN S.visited goal = true := by
  have hvd := gs_defined_visited_of_empty inv hempty
  have hsv : memberN S.visited start = true := by
    apply hvd start
    rw [inv.gs_start]
    rfl
  obtain ⟨steps, hwalk, hend⟩ := hre
  have main : ∀ (steps : List (Node × ℚ)) (u : Node), WalkFrom g u steps →
      memberN S.visited u = true →
      memberN S.visited (walkEnd u steps) = true ∨ memberN S.visited goal = true := by
    intro steps2
    induction steps2 with
    | nil =>
      intro u _ hu
      exact Or.inl hu
    | cons e rest ih =>
      rcases e with ⟨v, w⟩
      intro u hwk hu
      obtain ⟨hmem, hrest⟩ := (walkFrom_cons g u v w rest).1 hwk
      by_cases hug : u.id = goal.id
      · right
        rw [← memberN_id S.visited u goal hug]
        exact hu
      · have hvdef := hcl u hu hug (v, w) hmem
        have hvv : memberN S.visited v = true := hvd v hvdef
        exact ih v hrest hvv
  rcases main steps start hwalk hsv with h | h
  · rw [← memberN_id S.visited (walkEnd start steps) goal hend]
    exact h
  · exact h

/-! ## Path reconstruction -/

theorem filter_length_le {α : Type} (l : List α) (P1 P2 : α → Bool)
    (h : ∀ x ∈ l, P1 x = true → P2 x = true) :
    (l.filter P1).length ≤ (l.filter P2).length := by
  induction l with
  | nil => simp
  | cons a rest ih =>
    have hrest := ih (fun x hx => h x (List.mem_cons_of_mem a hx))
    by_cases h1 : P1 a = true
    · have h2 := h a (List.mem_cons_self a rest) h1
      rw [List.filter_cons, List.filter_cons, h1, h2]
      simpa using hrest
    · have h1f : P1 a = false := bool_eq_false h1
      rw [List.filter_cons, h1f]
      by_cases h2 : P2 a = true
      · rw [List.filter_cons, h2]
        simp only [if_neg, List.length_cons]
        have : (List.filter P1 rest).length ≤ (List.filter P2 rest).length := hrest
        simp
        omega
      · have h2f : P2 a = false := bool_eq_false h2
        rw [List.filter_cons, h2f]
        simpa using hrest

theorem filter_length_lt {α : Type} (l : List α) (P1 P2 : α → Bool)
    (himp : ∀ x ∈ l, P1 x = true → P2 x = true)
    (x0 : α) (hx0 : x0 ∈ l) (hP2 : P2 x0 = true) (hP1 : P1 x0 = false) :
    (l.filter P1).length < (l.filter P2).length := by
  induction l with
  | nil => exact absurd hx0 (List.not_mem_nil x0)
  | cons a rest ih =>
    have himpr : ∀ x ∈ rest, P1 x = true → P2 x = true :=
      fun x hx => himp x (List.mem_cons_of_mem a hx)
    by_cases h2 : P2 a = true
    · by_cases h1 : P1 a = true
      · have hane : ¬ a = x0 := by
          intro hh
          rw [hh, hP1] at h1
          exact absurd h1 (by simp)
        have hx0r : x0 ∈ rest := by
          rcases List.mem_cons.1 hx0 with hh | hh
          · exact absurd hh.symm hane
          · exact hh
        rw [List.filter_cons, List.filter_cons, h1, h2]
        simpa using ih himpr hx0r
      · have h1f : P1 a = false := bool_eq_false h1
        rw [List.filter_cons, List.filter_cons, h1f, h2]
        have hle := filter_length_le rest P1 P2 himpr
        simp
        omega
    · have h2f : P2 a = false := bool_eq_false h2
      have h1f : P1 a = false := by
        rcases Bool.eq_false_or_eq_true (P1 a) with hh | hh
        · rw [himp a (List.mem_cons_self a rest) hh] at h2f
          exact absurd h2f (by simp)
        · exact hh
      have hane : ¬ a = x0 := by
        intro hh
        rw [hh, hP2] at h2f
        exact absurd h2f (by simp)
      have hx0r : x0 ∈ rest := by
        rcases List.mem_cons.1 hx0 with hh | hh
        · exact absurd hh.symm hane
        · exact hh
      rw [List.filter_cons, List.filter_cons, h1f, h2f]
      simpa using ih himpr hx0r

theorem lookupA_mem {α : Type} (l : List (Node × α)) (n : Node) (v : α)
    (h : lookupA l n = some v) : ∃ q ∈ l, q.1.id = n.id ∧ q.2 = v := by
  unfold lookupA at h
  cases hf : l.find? (fun p => p.1 == n) with
  | none =>
    rw [hf] at h
    exact absurd h (by simp)
  | some q =>
    rw [hf] at h
    have hq : q ∈ l := List.mem_of_find?_eq_some hf
    have hpred := List.find?_some hf
    refine ⟨q, hq, (node_beq_iff _ _).1 hpred, ?_⟩
    injection h

/-- Number of `came_from` entries whose best cost is at most `vc`; the
strictly decreasing measure of the reconstruction loop. -/
def cfCount (cf : List (Node × Node)) (gs : List (Node × ℚ)) (vc : ℚ) : Nat :=
  (cf.filter (fun q => match lookupA gs q.1 with
    | some x => decide (x ≤ vc)
    | none => false)).length

/-- The reconstruction loop of both wrappers terminates and produces a path
from `start` to the queried node whose consecutive pairs follow parent
edges. -/
theorem reconstructPath_ok {g : Graph} {start goal : Node}
    {heuristic : Node → Node → ℚ} {S : SearchState} (hw : g.WF)
    (inv : SInv g start goal heuristic S) :
    ∀ (k : Nat) (cur : Node) (vc : ℚ) (acc : List Node),
    lookupA S.gScore cur = some vc →
    cfCount S.cameFrom S.gScore vc < k →
    ∃ tailp : List Node,
      reconstructPath S.cameFrom start k cur acc = some ((acc ++ tailp).reverse) ∧
      (∃ hnode, tailp.head? = some hnode ∧ hnode.id = cur.id) ∧
      tailp.getLast? = some start ∧
      List.Chain' (fun a b => ∃ m w, (m, w) ∈ g.neighbors b ∧ m.id = a.id) tailp := by
  intro k
  induction k with
  | zero =>
    intro cur vc acc _ hc
    exact absurd hc (Nat.not_lt_zero _)
  | succ k ih =>
    intro cur vc acc hgs hcnt
    by_cases hcs : (cur == start) = true
    · refine ⟨[start], ?_, ⟨start, rfl, ((node_beq_iff _ _).1 hcs).symm⟩, rfl,
        List.chain'_singleton _⟩
      simp only [reconstructPath, hcs]
      simp
    · have hcs2 : (cur == start) = false := bool_eq_false hcs
      have hcsid : ¬ cur.id = start.id := fun hh => hcs ((node_beq_iff _ _).2 hh)
      have hcf : containsA S.cameFrom cur = true := by
        rcases inv.gs_cf cur vc hgs with h | h
        · exact absurd h hcsid
        · exact h
      have hlkcf : (lookupA S.cameFrom cur).isSome = true := (lookupA_isSome_iff _ _).2 hcf
      obtain ⟨parent, hpar⟩ := Option.isSome_iff_exists.1 hlkcf
      obtain ⟨q, hq, hqid, hqv⟩ := lookupA_mem S.cameFrom cur parent hpar
      obtain ⟨m, w, vp, hm, hmid, hqvis, hvp, hq1⟩ := inv.cf_edge q hq
      have hvc : vc = vp + w := by
        have hthis := hq1
        rw [lookupA_id S.gScore q.1 cur hqid, hgs] at hthis
        injection hthis
      have hwpos : 0 < w := mem_neighbors_pos g hw q.2 (m, w) hm
      have hppar : lookupA S.gScore parent = some vp := by
        rw [← hqv]
        exact hvp
      have hstrict : cfCount S.cameFrom S.gScore vp < cfCount S.cameFrom S.gScore vc := by
        apply filter_length_lt _ _ _ ?_ q hq ?_ ?_
        · intro x _ hpx
          dsimp only at hpx ⊢
          cases hlx : lookupA S.gScore x.1 with
          | none =>
            rw [hlx] at hpx
            simp at hpx
          | some y =>
            rw [hlx] at hpx
            simp only [decide_eq_true_eq] at hpx ⊢
            linarith
        · dsimp only
          rw [hq1]
          simp only [decide_eq_true_eq]
          rw [hvc]
        · dsimp only
          rw [hq1]
          simp only [decide_eq_false_iff_not, not_le]
          linarith
      obtain ⟨tailp, hrun, hhead, hlast, hchain⟩ := ih parent vp (acc ++ [cur]) hppar
        (by omega)
      refine ⟨cur :: tailp, ?_, ⟨cur, rfl, rfl⟩, ?_, ?_⟩
      · simp only [reconstructPath, hcs2, hpar]
        simp only [Bool.false_eq_true, if_false]
        rw [hrun]
        rw [List.append_assoc, List.singleton_append]
      · cases tailp with
        | nil =>
          obtain ⟨hn, hh, _⟩ := hhead
          exact absurd hh (by simp)
        | cons a l =>
          rw [List.getLast?_cons_cons]
          exact hlast
      · obtain ⟨hnode, hh, hhid⟩ := hhead
        rw [List.chain'_cons']
        refine ⟨?_, hchain⟩
        intro y hy
        rw [hh] at hy
        simp only [Option.mem_some_iff] at hy
        subst hy
        refine ⟨m, w, ?_, hmid.trans hqid⟩
        have hpid : hnode.id = q.2.id := by
          rw [hhid, hqv]
        rw [neighbors_id g hnode q.2 hpid]
        exact hm

/-! ## The initial search state -/

theorem lookupA_single_self (start : Node) :
    lookupA [(start, (0 : ℚ))] start = some 0 := by
  have h := lookupA_setA_self ([] : List (Node × ℚ)) start start 0 rfl
  have e : setA ([] : List (Node × ℚ)) start 0 = [(start, 0)] := rfl
  rw [e] at h
  exact h

theorem lookupA_single {n start : Node} {v : ℚ}
    (h : lookupA [(start, (0 : ℚ))] n = some v) : start.id = n.id ∧ v = 0 := by
  obtain ⟨q, hq, hqid, hqv⟩ := lookupA_mem _ n v h
  simp only [List.mem_singleton] at hq
  subst hq
  exact ⟨hqid, hqv.symm⟩

theorem sinv_init (g : Graph) (start goal : Node) (heuristic : Node → Node → ℚ) :
    SInv g start goal heuristic
      ⟨[(heuristic start goal, 0, start)], 1, [(start, (0 : ℚ))], [], [], [], [start], []⟩ := by
  refine ⟨?_, ?_, ?_, ?_, rfl, ?_, ?_, ?_⟩
  · intro e he
    simp only [List.mem_singleton] at he
    subst he
    refine ⟨0, lookupA_single_self start, ?_⟩
    rw [zero_add]
  · intro n v _ hlk
    obtain ⟨hid, hv⟩ := lookupA_single hlk
    refine ⟨(heuristic start goal, 0, start), List.mem_singleton_self _, hid, ?_⟩
    rw [hv, zero_add]
  · intro n v hlk
    obtain ⟨hid, hv⟩ := lookupA_single hlk
    exact ⟨[], trivial, hid, by rw [hv]; rfl⟩
  · exact lookupA_single_self start
  · intro q hq
    exact absurd hq (List.not_mem_nil q)
  · intro n v hlk
    exact Or.inl (lookupA_single hlk).1.symm
  · intro n hn
    exact absurd hn (by simp [memberN])

theorem traceOK_init (g : Graph) (goal : Node) (k : ℚ) (start : Node) :
    TraceOK g goal ⟨[(k, 0, start)], 1, [(start, (0 : ℚ))], [], [], [], [start], []⟩ :=
  ⟨rfl, rfl⟩

theorem closedInv_init (g : Graph) (goal : Node) (k : ℚ) (start : Node) :
    ClosedInv g goal ⟨[(k, 0, start)], 1, [(start, (0 : ℚ))], [], [], [], [start], []⟩ := by
  intro n hn
  exact absurd hn (by simp [memberN])

theorem unvisitedDeg_nil (g : Graph) : unvisitedDeg g [] = totalEntries g := by
  unfold unvisitedDeg totalEntries
  have : g.adjacency.filter (fun p => !(memberN [] p.1)) = g.adjacency := by
    rw [List.filter_eq_self]
    intro p _
    rfl
  rw [this]

theorem sMeasure_init (g : Graph) (k : ℚ) (start : Node) :
    sMeasure g ⟨[(k, 0, start)], 1, [(start, (0 : ℚ))], [], [], [], [start], []⟩
      < searchFuel g := by
  unfold sMeasure searchFuel
  show 1 + unvisitedDeg g [] < totalEntries g + 2
  rw [unvisitedDeg_nil]
  omega

/-! ## `dijkstra` runs the shared loop with the zero heuristic -/

theorem relaxA_zero (goal cur nb : Node) (t : ℚ) (S : SearchState) :
    relaxA goal (fun _ _ => (0 : ℚ)) cur nb t S = relaxD cur nb t S := by
  unfold relaxA relaxD
  rw [add_zero]

theorem dijkstraExpand_cons_skip (cur nb : Node) (cd w : ℚ) (rest : List (Node × ℚ))
    (S : SearchState) (hnb : memberN S.visited nb = true) :
    dijkstraExpand cur cd ((nb, w) :: rest) S
      = dijkstraExpand cur cd rest (logEdge cur nb S) := by
  simp only [dijkstraExpand, hnb]
  simp

theorem dijkstraExpand_cons_relax (cur nb : Node) (cd w : ℚ) (rest : List (Node × ℚ))
    (S : SearchState) (hnb : memberN S.visited nb = false)
    (hbet : betterThan S nb (cd + w) = true) :
    dijkstraExpand cur cd ((nb, w) :: rest) S
      = dijkstraExpand cur cd rest (relaxD cur nb (cd + w) (logEdge cur nb S)) := by
  simp only [dijkstraExpand, hnb, hbet]
  simp

theorem dijkstraExpand_cons_norelax (cur nb : Node) (cd w : ℚ) (rest : List (Node × ℚ))
    (S : SearchState) (hnb : memberN S.visited nb = false)
    (hbet : betterThan S nb (cd + w) = false) :
    dijkstraExpand cur cd ((nb, w) :: rest) S
      = dijkstraExpand cur cd rest (logEdge cur nb S) := by
  simp only [dijkstraExpand, hnb, hbet]
  simp

theorem astarExpand_zero (goal cur : Node) :
    ∀ (ns : List (Node × ℚ)) (S : SearchState) (gc : ℚ),
    memberN S.visited cur = true → lookupA S.gScore cur = some gc →
    astarExpand goal (fun _ _ => (0 : ℚ)) cur ns S
      = some (dijkstraExpand cur gc ns S) := by
  intro ns
  induction ns with
  | nil =>
    intro S gc _ _
    rfl
  | cons e rest ih =>
    rcases e with ⟨nb, w⟩
    intro S gc hv hgc
    obtain ⟨lv, lx, le2, lpq, lgs, lcf⟩ := logEdge_fields cur nb S
    have hv1 : memberN (logEdge cur nb S).visited cur = true := by rw [lv]; exact hv
    have hgc1 : lookupA (logEdge cur nb S).gScore cur = some gc := by rw [lgs]; exact hgc
    by_cases hnb : memberN S.visited nb = true
    · rw [astarExpand_cons_skip _ _ cur nb w rest S hnb,
        dijkstraExpand_cons_skip cur nb gc w rest S hnb]
      exact ih (logEdge cur nb S) gc hv1 hgc1
    · have hnb2 : memberN S.visited nb = false := bool_eq_false hnb
      by_cases hbet : betterThan S nb (gc + w) = true
      · rw [astarExpand_cons_relax _ _ cur nb w gc rest S hnb2 hgc hbet,
          dijkstraExpand_cons_relax cur nb gc w rest S hnb2 hbet,
          relaxA_zero goal cur nb (gc + w) (logEdge cur nb S)]
        apply ih
        · obtain ⟨rv, _, _, _, _, _⟩ :=
            relaxA_fields goal (fun _ _ => (0 : ℚ)) cur nb (gc + w) (logEdge cur nb S)
          rw [relaxA_zero goal cur nb (gc + w) (logEdge cur nb S)] at rv
          rw [rv, lv]
          exact hv
        · have hnc : ¬ nb.id = cur.id := by
            intro hh
            rw [memberN_id S.visited nb cur hh, hv] at hnb2
            exact absurd hnb2 (by simp)
          obtain ⟨_, _, _, _, rgs, _⟩ :=
            relaxA_fields goal (fun _ _ => (0 : ℚ)) cur nb (gc + w) (logEdge cur nb S)
          rw [relaxA_zero goal cur nb (gc + w) (logEdge cur nb S)] at rgs
          rw [rgs, lgs, lookupA_setA_ne S.gScore nb cur (gc + w) hnc]
          exact hgc
      · have hbet2 : betterThan S nb (gc + w) = false := bool_eq_false hbet
        rw [astarExpand_cons_norelax _ _ cur nb w gc rest S hnb2 hgc hbet2,
          dijkstraExpand_cons_norelax cur nb gc w rest S hnb2 hbet2]
        exact ih (logEdge cur nb S) gc hv1 hgc1

/-- The popped priority of a fresh pop equals the node's best known cost
when the heuristic summand is zero. -/
theorem popped_key_zero {g : Graph} {start goal : Node} {S : SearchState}
    (inv : SInv g start goal (fun _ _ => (0 : ℚ)) S)
    (k : ℚ) (c : Nat) (cur : Node) (rest : List Entry)
    (hpop : popMin S.pq = some ((k, c, cur), rest))
    (hvis : memberN S.visited cur = false) :
    lookupA S.gScore cur = some k := by
  obtain ⟨v, hv, hle⟩ := inv.entry_gs (k, c, cur) (popMin_mem S.pq _ rest hpop)
  have hle1 : v ≤ k := by
    have : v + 0 ≤ k := hle
    linarith
  obtain ⟨e, he, _, hkey⟩ := inv.min_entry cur v hvis hv
  have hk2 : k ≤ e.1 := popMin_key_le S.pq _ rest hpop e he
  have hkey2 : e.1 = v := by
    rw [hkey]
    exact add_zero v
  have : k = v := le_antisymm (by rw [← hkey2]; exact hk2) hle1
  rw [this]
  exact hv

theorem dijkstraLoop_zero (g : Graph) (start goal : Node) (hw : g.WF) :
    ∀ (fuel : Nat) (S : SearchState), SInv g start goal (fun _ _ => (0 : ℚ)) S →
    dijkstraLoop g goal fuel S = astarLoop g goal (fun _ _ => (0 : ℚ)) fuel S := by
  intro fuel
  induction fuel with
  | zero =>
    intro S _
    rfl
  | succ fuel ih =>
    intro S inv
    cases hpop : popMin S.pq with
    | none => simp only [dijkstraLoop, astarLoop, hpop]
    | some pr =>
      rcases pr with ⟨⟨k, c, cur⟩, rest⟩
      by_cases hvis : memberN S.visited cur = true
      · have h1 : dijkstraLoop g goal (fuel+1) S
            = dijkstraLoop g goal fuel {S with pq := rest} := by
          simp only [dijkstraLoop, hpop, hvis]
          simp
        have h2 : astarLoop g goal (fun _ _ => (0 : ℚ)) (fuel+1) S
            = astarLoop g goal (fun _ _ => (0 : ℚ)) fuel {S with pq := rest} := by
          simp only [astarLoop, hpop, hvis]
          simp
        rw [h1, h2]
        exact ih _ (sinv_pop_stale inv (k, c, cur) rest hpop hvis)
      · have hvis2 : memberN S.visited cur = false := bool_eq_false hvis
        by_cases hgoal : (cur == goal) = true
        · have h1 : dijkstraLoop g goal (fuel+1) S = some (finalize cur rest S) := by
            simp only [dijkstraLoop, hpop, hvis, hgoal]
            simp
          have h2 : astarLoop g goal (fun _ _ => (0 : ℚ)) (fuel+1) S
              = some (finalize cur rest S) := by
            simp only [astarLoop, hpop, hvis, hgoal]
            simp
          rw [h1, h2]
        · have hgc : lookupA S.gScore cur = some k :=
            popped_key_zero inv k c cur rest hpop hvis2
          have inv1 : SInv g start goal (fun _ _ => (0 : ℚ)) (finalize cur rest S) :=
            sinv_finalize inv (k, c, cur) rest hpop hvis2
          have hvcur1 : memberN (finalize cur rest S).visited cur = true := by
            show memberN (S.visited ++ [cur]) cur = true
            rw [memberN_append_one, node_beq_self, Bool.or_true]
          have hgc1 : lookupA (finalize cur rest S).gScore cur = some k := hgc
          have hexp := astarExpand_zero goal cur (g.neighbors cur) (finalize cur rest S)
            k hvcur1 hgc1
          have h1 : dijkstraLoop g goal (fuel+1) S = dijkstraLoop g goal fuel
              (dijkstraExpand cur k (g.neighbors cur) (finalize cur rest S)) := by
            simp only [dijkstraLoop, hpop, hvis, hgoal]
            simp
          have h2 : astarLoop g goal (fun _ _ => (0 : ℚ)) (fuel+1) S
              = astarLoop g goal (fun _ _ => (0 : ℚ)) fuel
                (dijkstraExpand cur k (g.neighbors cur) (finalize cur rest S)) := by
            simp only [astarLoop, hpop, hvis, hgoal, hexp]
            simp
          rw [h1, h2]
          apply ih
          obtain ⟨S2, heq2, inv2, _⟩ := astarExpand_run g start goal (fun _ _ => (0 : ℚ))
            hw cur (g.neighbors cur) (finalize cur rest S) (fun e he => he) hvcur1 inv1
          rw [hexp] at heq2
          have hS2 : S2 = dijkstraExpand cur k (g.neighbors cur) (finalize cur rest S) := by
            injection heq2.symm
          rw [← hS2]
          exact inv2

/-! ## Wrapper-level analysis -/

theorem node_beq_symm_false (a b : Node) (h : (a == b) = false) : (b == a) = false := by
  apply bool_eq_false
  rw [node_beq_iff]
  intro hid
  have := (node_beq_iff a b).2 hid.symm
  rw [h] at this
  exact absurd this (by simp)

theorem searchResult_fail {alg : String} {start goal : Node} {S' : SearchState}
    (hneq : (start == goal) = false)
    (hcf : containsA S'.cameFrom goal = false) :
    searchResult alg start goal (some S')
      = some ⟨false, none,
          some ("No path found from " ++ start.id ++ " to " ++ goal.id)⟩ := by
  unfold searchResult
  dsimp only
  rw [hcf, node_beq_symm_false start goal hneq]
  simp

theorem searchResult_success {g : Graph} {start goal : Node}
    {heuristic : Node → Node → ℚ} {alg : String} {S' : SearchState} (hw : g.WF)
    (inv : SInv g start goal heuristic S')
    (hcf : containsA S'.cameFrom goal = true) :
    ∃ path d,
      searchResult alg start goal (some S')
        = some ⟨true, some ⟨path, d, alg, 0, (S'.exploredNodes.length : Int),
            S'.exploredNodes, S'.openSetNodes, S'.exploredEdges⟩, none⟩ ∧
      lookupA S'.gScore goal = some d ∧
      path.head? = some start ∧
      (∃ lnode, path.getLast? = some lnode ∧ lnode.id = goal.id) ∧
      List.Chain' (fun a b => ∃ m w, (m, w) ∈ g.neighbors a ∧ m.id = b.id) path := by
  obtain ⟨q, hq, hqid⟩ := (containsA_iff _ _).1 hcf
  obtain ⟨m, w, vp, hm, hmid, hqvis, hvp, hq1⟩ := inv.cf_edge q hq
  have hgsgoal : lookupA S'.gScore goal = some (vp + w) := by
    rw [← lookupA_id S'.gScore q.1 goal hqid]
    exact hq1
  have hcount : cfCount S'.cameFrom S'.gScore (vp + w) < S'.cameFrom.length + 1 := by
    have := List.length_filter_le (fun q : Node × Node =>
      match lookupA S'.gScore q.1 with
      | some x => decide (x ≤ vp + w)
      | none => false) S'.cameFrom
    unfold cfCount
    omega
  obtain ⟨tailp, hrun, hhead, hlast, hchain⟩ := reconstructPath_ok hw inv
    (S'.cameFrom.length + 1) goal (vp + w) [] hgsgoal hcount
  refine ⟨tailp.reverse, vp + w, ?_, hgsgoal, ?_, ?_, ?_⟩
  · unfold searchResult
    dsimp only
    rw [hcf]
    simp only [Bool.not_true, Bool.false_and, Bool.false_eq_true, if_false]
    rw [hrun, hgsgoal]
    rw [List.nil_append]
  · rw [List.head?_reverse]
    exact hlast
  · obtain ⟨hnode, hh, hhid⟩ := hhead
    refine ⟨hnode, ?_, hhid⟩
    rw [List.getLast?_reverse]
    exact hh
  · rw [List.chain'_reverse]
    exact hchain

theorem cf_goal_reachable {g : Graph} {start goal : Node}
    {heuristic : Node → Node → ℚ} {S' : SearchState}
    (inv : SInv g start goal heuristic S')
    (hcf : containsA S'.cameFrom goal = true) : Reachable g start goal := by
  obtain ⟨q, hq, hqid⟩ := (containsA_iff _ _).1 hcf
  obtain ⟨m, w, vp, hm, hmid, hqvis, hvp, hq1⟩ := inv.cf_edge q hq
  have hgsgoal : lookupA S'.gScore goal = some (vp + w) := by
    rw [← lookupA_id S'.gScore q.1 goal hqid]
    exact hq1
  obtain ⟨steps, hwk, hend, _⟩ := inv.gs_walk goal _ hgsgoal
  exact ⟨steps, hwk, hend⟩

theorem final_cf_goal {g : Graph} {start goal : Node}
    {heuristic : Node → Node → ℚ} {S' : SearchState}
    (inv : SInv g start goal heuristic S') (hcl : ClosedInv g goal S')
    (hfin : S'.pq = [] ∨ memberN S'.visited goal = true)
    (hre : Reachable g start goal) (hneqid : ¬ goal.id = start.id) :
    containsA S'.cameFrom goal = true := by
  have hvis : memberN S'.visited goal = true := by
    rcases hfin with h | h
    · exact reachable_goal_visited inv hcl h hre
    · exact h
  have hdef := inv.visited_gs goal hvis
  obtain ⟨v, hv⟩ := Option.isSome_iff_exists.1 hdef
  rcases inv.gs_cf goal v hv with h | h
  · exact absurd h hneqid
  · exact h

/-- Outcome analysis of the non-degenerate `astar` call. -/
theorem astar_run (g : Graph) (start goal : Node) (hf : Node → Node → ℚ) (hw : g.WF)
    (hs : memberN g.nodes start = true) (hg : memberN g.nodes goal = true)
    (hneq : (start == goal) = false) :
    ∃ S', astarLoop g goal hf (searchFuel g)
        ⟨[(hf start goal, 0, start)], 1, [(start, (0 : ℚ))], [], [], [], [start], []⟩
        = some S' ∧
      SInv g start goal hf S' ∧ TraceOK g goal S' ∧ ClosedInv g goal S' ∧
      (S'.pq = [] ∨ memberN S'.visited goal = true) ∧
      astar g start goal (.callable hf) = searchResult "A*" start goal (some S') := by
  obtain ⟨S', heq, inv', htr', hcl', hfin⟩ := astarLoop_run g start goal hf hw
    (searchFuel g) _ (sinv_init g start goal hf) (traceOK_init g goal _ start)
    (closedInv_init g goal _ start) rfl (sMeasure_init g _ start)
  refine ⟨S', heq, inv', htr', hcl', hfin, ?_⟩
  simp only [astar, hs, hg, hneq]
  rw [heq]
  simp

/-- Outcome analysis of the non-degenerate `dijkstra` call. -/
theorem dijkstra_run (g : Graph) (start goal : Node) (hw : g.WF)
    (hs : memberN g.nodes start = true) (hg : memberN g.nodes goal = true)
    (hneq : (start == goal) = false) :
    ∃ S', astarLoop g goal (fun _ _ => (0 : ℚ)) (searchFuel g)
        ⟨[((0 : ℚ), 0, start)], 1, [(start, (0 : ℚ))], [], [], [], [start], []⟩
        = some S' ∧
      SInv g start goal (fun _ _ => (0 : ℚ)) S' ∧ TraceOK g goal S' ∧
      ClosedInv g goal S' ∧
      (S'.pq = [] ∨ memberN S'.visited goal = true) ∧
      dijkstra g start goal = searchResult "Dijkstra" start goal (some S') := by
  have hinit : SInv g start goal (fun _ _ => (0 : ℚ))
      ⟨[((0 : ℚ), 0, start)], 1, [(start, (0 : ℚ))], [], [], [], [start], []⟩ :=
    sinv_init g start goal (fun _ _ => (0 : ℚ))
  obtain ⟨S', heq, inv', htr', hcl', hfin⟩ := astarLoop_run g start goal
    (fun _ _ => (0 : ℚ)) hw (searchFuel g) _ hinit (traceOK_init g goal _ start)
    (closedInv_init g goal _ start) rfl (sMeasure_init g _ start)
  refine ⟨S', heq, inv', htr', hcl', hfin, ?_⟩
  have hloop := dijkstraLoop_zero g start goal hw (searchFuel g) _ hinit
  simp only [dijkstra, hs, hg, hneq]
  rw [hloop, heq]
  simp

/-! ## Shared result facts -/

/-- The path-shape facts the spec asserts of a successful `Route`. -/
def PathContiguous (g : Graph) (start goal : Node) (route : Route) : Prop :=
  (∃ h, route.path.head? = some h ∧ h.id = start.id) ∧
  (∃ l, route.path.getLast? = some l ∧ l.id = goal.id) ∧
  List.Chain' (fun a b => ∃ m w, (m, w) ∈ g.neighbors a ∧ m.id = b.id) route.path

theorem searchResult_success_facts {g : Graph} {start goal : Node}
    {heuristic : Node → Node → ℚ} {alg : String} {S' : SearchState} (hw : g.WF)
    (inv : SInv g start goal heuristic S') (htr : TraceOK g goal S')
    (hneq : (start == goal) = false) {r : PathfindingResult}
    (hres : searchResult alg start goal (some S') = some r) :
    (r.success = true → ∃ route, r.route = some route) ∧
    (∀ route, r.route = some route → r.success = true ∧
      PathContiguous g start goal route ∧
      route.explored_nodes = S'.exploredNodes ∧
      route.explored_edges = route.explored_nodes.flatMap (fun v =>
        if v.id = goal.id then [] else (g.neighbors v).map (fun e => (v, e.1))) ∧
      lookupA S'.gScore goal = some route.total_distance ∧
      route.algorithm = alg) := by
  cases hcf : containsA S'.cameFrom goal with
  | false =>
    rw [searchResult_fail hneq hcf] at hres
    cases Option.some.inj hres
    constructor
    · intro hsucc
      simp at hsucc
    · intro route hroute
      simp at hroute
  | true =>
    obtain ⟨path, d, hsr, hgs, hhead, hlast, hchain⟩ := searchResult_success hw inv hcf
    rw [hsr] at hres
    cases Option.some.inj hres
    constructor
    · intro _
      exact ⟨_, rfl⟩
    · intro route hroute
      cases Option.some.inj hroute
      refine ⟨rfl, ⟨⟨start, hhead, rfl⟩, hlast, hchain⟩, rfl, ?_, hgs, rfl⟩
      exact htr.2

/-! ## Concrete example graphs used by the witnesses -/

def nA : Node := ⟨"a", 0, 0⟩
def nB : Node := ⟨"b", 0, 0⟩
def nD : Node := ⟨"d", 0, 0⟩
def nX : Node := ⟨"x", 0, 0⟩

/-- Two isolated nodes. -/
def gAD : Graph := ⟨[(nA, []), (nD, [])]⟩

/-- One edge `a → b` of weight 1. -/
def gAB : Graph := ⟨[(nA, [(nB, 1)]), (nB, [])]⟩

theorem gAD_wf : gAD.WF := by
  constructor
  · intro p hp e he
    simp only [gAD, List.mem_cons, List.not_mem_nil, or_false] at hp
    rcases hp with h | h <;> (subst h; exact absurd he (List.not_mem_nil e))
  · show (["a", "d"] : List String).Nodup
    decide

theorem gAB_wf : gAB.WF := by
  constructor
  · intro p hp e he
    simp only [gAB, List.mem_cons, List.not_mem_nil, or_false] at hp
    rcases hp with h | h
    · subst h
      simp only [List.mem_singleton] at he
      subst he
      norm_num
    · subst h
      exact absurd he (List.not_mem_nil e)
  · show (["a", "b"] : List String).Nodup
    decide

theorem gAD_not_reach : ¬ Reachable gAD nA nD := by
  rintro ⟨steps, hwk, hend⟩
  cases steps with
  | nil =>
    exact absurd hend (by decide)
  | cons e rest =>
    obtain ⟨v, w⟩ := e
    obtain ⟨hmem, _⟩ := hwk
    have : gAD.neighbors nA = [] := rfl
    rw [this] at hmem
    exact absurd hmem (List.not_mem_nil _)

/-! ## The claims -/

/-- C9: when the start node or the goal node is missing from the graph (or,
for `astar`, the heuristic is not callable), both searches return normally a
failed `PathfindingResult` whose message names the offending input; these
checks run before the start-equals-goal short-circuit. -/
theorem C9_input_validation (g : Graph) (start goal : Node) (hf : PyObj) :
    (memberN g.nodes start = false →
      dijkstra g start goal
        = some ⟨false, none, some ("Start node " ++ start.id ++ " not found in graph")⟩ ∧
      astar g start goal hf
        = some ⟨false, none, some ("Start node " ++ start.id ++ " not found in graph")⟩) ∧
    (memberN g.nodes start = true → memberN g.nodes goal = false →
      dijkstra g start goal
        = some ⟨false, none, some ("Goal node " ++ goal.id ++ " not found in graph")⟩ ∧
      astar g start goal hf
        = some ⟨false, none, some ("Goal node " ++ goal.id ++ " not found in graph")⟩) ∧
    (memberN g.nodes start = true → memberN g.nodes goal = true →
      astar g start goal .notCallable
        = some ⟨false, none, some "Heuristic must be a callable function"⟩) := by
  refine ⟨?_, ?_, ?_⟩
  · intro hs
    constructor <;> simp [dijkstra, astar, hs]
  · intro hs hg
    constructor <;> simp [dijkstra, astar, hs, hg]
  · intro hs hg
    simp [astar, hs, hg]

theorem C9_input_validation_witness :
    memberN gAD.nodes nX = false ∧
    dijkstra gAD nX nA
      = some ⟨false, none, some "Start node x not found in graph"⟩ ∧
    astar gAD nA nX (.callable fun _ _ => 0)
      = some ⟨false, none, some "Goal node x not found in graph"⟩ := by
  refine ⟨rfl, ?_, ?_⟩
  · exact ((C9_input_validation gAD nX nA (.callable fun _ _ => 0)).1 rfl).1
  · exact (((C9_input_validation gAD nA nX (.callable fun _ _ => 0)).2.1) rfl rfl).2

/-- C6: when start equals goal (same `id`) and the node is present in the
graph, both searches succeed with the single-node zero-cost `Route`. -/
theorem C6_degenerate_success (g : Graph) (n : Node) (hf : Node → Node → ℚ)
    (hn : memberN g.nodes n = true) :
    dijkstra g n n = some ⟨true, some ⟨[n], 0, "Dijkstra", 0, 1, [n], [n], []⟩, none⟩ ∧
    astar g n n (.callable hf)
      = some ⟨true, some ⟨[n], 0, "A*", 0, 1, [n], [n], []⟩, none⟩ := by
  constructor <;> simp [dijkstra, astar, hn, node_beq_self]

theorem C6_degenerate_success_witness :
    memberN gAD.nodes nA = true ∧
    dijkstra gAD nA nA
      = some ⟨true, some ⟨[nA], 0, "Dijkstra", 0, 1, [nA], [nA], []⟩, none⟩ := by
  refine ⟨rfl, ?_⟩
  exact (C6_degenerate_success gAD nA (fun _ _ => 0) rfl).1

/-- Shared no-path analysis of both wrappers. -/
theorem search_no_path_msg (g : Graph) (start goal : Node) (hf : Node → Node → ℚ)
    (hw : g.WF) (hs : memberN g.nodes start = true) (hg : memberN g.nodes goal = true)
    (hneq : (start == goal) = false) (hnr : ¬ Reachable g start goal) :
    dijkstra g start goal
      = some ⟨false, none, some ("No path found from " ++ start.id ++ " to " ++ goal.id)⟩ ∧
    astar g start goal (.callable hf)
      = some ⟨false, none, some ("No path found from " ++ start.id ++ " to " ++ goal.id)⟩ := by
  constructor
  · obtain ⟨S', _, inv', _, _, _, hred⟩ := dijkstra_run g start goal hw hs hg hneq
    rw [hred]
    have hcf : containsA S'.cameFrom goal = false := by
      apply bool_eq_false
      intro hc
      exact hnr (cf_goal_reachable inv' hc)
    exact searchResult_fail hneq hcf
  · obtain ⟨S', _, inv', _, _, _, hred⟩ := astar_run g start goal hf hw hs hg hneq
    rw [hred]
    have hcf : containsA S'.cameFrom goal = false := by
      apply bool_eq_false
      intro hc
      exact hnr (cf_goal_reachable inv' hc)
    exact searchResult_fail hneq hcf

/-- C2: on a well-formed graph with both endpoints present, distinct ids and
the goal unreachable from the start, both searches return normally a failed
result with exactly the message "No path found from <start id> to <goal id>". -/
theorem C2_no_path_failure (g : Graph) (start goal : Node) (hf : Node → Node → ℚ)
    (hw : g.WF) (hs : memberN g.nodes start = true) (hg : memberN g.nodes goal = true)
    (hneq : (start == goal) = false) (hnr : ¬ Reachable g start goal) :
    dijkstra g start goal
      = some ⟨false, none, some ("No path found from " ++ start.id ++ " to " ++ goal.id)⟩ ∧
    astar g start goal (.callable hf)
      = some ⟨false, none, some ("No path found from " ++ start.id ++ " to " ++ goal.id)⟩ :=
  search_no_path_msg g start goal hf hw hs hg hneq hnr

theorem C2_no_path_failure_witness :
    gAD.WF ∧ (nA == nD) = false ∧ ¬ Reachable gAD nA nD ∧
    dijkstra gAD nA nD = some ⟨false, none, some "No path found from a to d"⟩ ∧
    astar gAD nA nD (.callable fun _ _ => 0)
      = some ⟨false, none, some "No path found from a to d"⟩ := by
  refine ⟨gAD_wf, rfl, gAD_not_reach, ?_⟩
  exact C2_no_path_failure gAD nA nD (fun _ _ => 0) gAD_wf rfl rfl rfl gAD_not_reach

/-- A concrete `Route` used to exercise the result validator. -/
def routeEx : Route := ⟨[nA], 0, "Dijkstra", 0, 1, [nA], [nA], []⟩

/-- C4 (amended): `PathfindingResult.__post_init__` enforces exactly the two
mandatory-field checks — a successful result must carry a route and a failed
result must carry an error — and nothing else; in particular the fields are
not mutually exclusive. -/
theorem C4_validation_characterization (success : Bool) (route : Option Route)
    (error : Option String) :
    ((mkPathfindingResult success route error).isOk = true
      ↔ ((success = true → route.isSome = true) ∧
         (success = false → error.isSome = true))) ∧
    (∀ r, mkPathfindingResult success route error = .ok r
      → r = ⟨success, route, error⟩) := by
  constructor
  · unfold mkPathfindingResult
    cases success <;> cases route <;> cases error <;> simp [Except.isOk, Except.toBool]
  · intro r h
    unfold mkPathfindingResult at h
    cases success <;> cases route <;> cases error <;> simp_all

/-- C4 is refuted as stated: a successful result with a populated error and a
failed result with a populated route both pass construction validation, so
the route and error fields are not mutually exclusive. -/
theorem C4_counterexample :
    mkPathfindingResult true (some routeEx) (some "spurious")
      = .ok ⟨true, some routeEx, some "spurious"⟩ ∧
    mkPathfindingResult false (some routeEx) (some "boom")
      = .ok ⟨false, some routeEx, some "boom"⟩ := ⟨rfl, rfl⟩

/-- C7: every successful search result carries a contiguous path — it starts
at the start node, ends at the goal node, and every consecutive pair of path
nodes is an edge of the searched graph. -/
theorem C7_path_contiguous (g : Graph) (start goal : Node) (hf : Node → Node → ℚ)
    (hw : g.WF) :
    (∀ r, dijkstra g start goal = some r → r.success = true →
      ∃ route, r.route = some route ∧ PathContiguous g start goal route) ∧
    (∀ r, astar g start goal (.callable hf) = some r → r.success = true →
      ∃ route, r.route = some route ∧ PathContiguous g start goal route) := by
  constructor
  · intro r hres hsucc
    cases hs : memberN g.nodes start with
    | false =>
      simp only [dijkstra, hs, Bool.not_false, if_true] at hres
      cases Option.some.inj hres
      simp at hsucc
    | true =>
    cases hg : memberN g.nodes goal with
    | false =>
      simp only [dijkstra, hs, hg, Bool.not_false, Bool.not_true, Bool.false_eq_true,
        if_false, if_true] at hres
      cases Option.some.inj hres
      simp at hsucc
    | true =>
    cases heq : (start == goal) with
    | true =>
      simp only [dijkstra, hs, hg, heq, Bool.not_true, Bool.false_eq_true, if_false,
        if_true] at hres
      cases Option.some.inj hres
      refine ⟨_, rfl, ⟨start, rfl, rfl⟩, ⟨start, rfl, (node_beq_iff _ _).1 heq⟩, ?_⟩
      exact List.chain'_singleton start
    | false =>
      obtain ⟨S', _, inv', htr', _, _, hred⟩ := dijkstra_run g start goal hw hs hg heq
      rw [hred] at hres
      obtain ⟨route, hroute⟩ :=
        (searchResult_success_facts hw inv' htr' heq hres).1 hsucc
      exact ⟨route, hroute,
        ((searchResult_success_facts hw inv' htr' heq hres).2 route hroute).2.1⟩
  · intro r hres hsucc
    cases hs : memberN g.nodes start with
    | false =>
      simp only [astar, hs, Bool.not_false, if_true] at hres
      cases Option.some.inj hres
      simp at hsucc
    | true =>
    cases hg : memberN g.nodes goal with
    | false =>
      simp only [astar, hs, hg, Bool.not_false, Bool.not_true, Bool.false_eq_true,
        if_false, if_true] at hres
      cases Option.some.inj hres
      simp at hsucc
    | true =>
    cases heq : (start == goal) with
    | true =>
      simp only [astar, hs, hg, heq, Bool.not_true, Bool.false_eq_true, if_false,
        if_true] at hres
      cases Option.some.inj hres
      refine ⟨_, rfl, ⟨start, rfl, rfl⟩, ⟨start, rfl, (node_beq_iff _ _).1 heq⟩, ?_⟩
      exact List.chain'_singleton start
    | false =>
      obtain ⟨S', _, inv', htr', _, _, hred⟩ := astar_run g start goal hf hw hs hg heq
      rw [hred] at hres
      obtain ⟨route, hroute⟩ :=
        (searchResult_success_facts hw inv' htr' heq hres).1 hsucc
      exact ⟨route, hroute,
        ((searchResult_success_facts hw inv' htr' heq hres).2 route hroute).2.1⟩

theorem C7_path_contiguous_witness :
    gAB.WF ∧
    (∀ r, dijkstra gAB nA nB = some r → r.success = true →
      ∃ route, r.route = some route ∧ PathContiguous gAB nA nB route) := by
  refine ⟨gAB_wf, ?_⟩
  exact (C7_path_contiguous gAB nA nB (fun _ _ => 0) gAB_wf).1

/-- C8: in every non-degenerate search, the returned route's `explored_edges`
is exactly the concatenation, over the finalized non-goal nodes in pop order
(`explored_nodes`), of their full neighbor lists. -/
theorem C8_explored_edges (g : Graph) (start goal : Node) (hf : Node → Node → ℚ)
    (hw : g.WF) (hneq : (start == goal) = false) :
    (∀ r route, dijkstra g start goal = some r → r.route = some route →
      route.explored_edges = route.explored_nodes.flatMap (fun v =>
        if v.id = goal.id then [] else (g.neighbors v).map (fun e => (v, e.1)))) ∧
    (∀ r route, astar g start goal (.callable hf) = some r → r.route = some route →
      route.explored_edges = route.explored_nodes.flatMap (fun v =>
        if v.id = goal.id then [] else (g.neighbors v).map (fun e => (v, e.1)))) := by
  constructor
  · intro r route hres hroute
    cases hs : memberN g.nodes start with
    | false =>
      simp only [dijkstra, hs, Bool.not_false, if_true] at hres
      cases Option.some.inj hres
      simp at hroute
    | true =>
    cases hg : memberN g.nodes goal with
    | false =>
      simp only [dijkstra, hs, hg, Bool.not_false, Bool.not_true, Bool.false_eq_true,
        if_false, if_true] at hres
      cases Option.some.inj hres
      simp at hroute
    | true =>
      obtain ⟨S', _, inv', htr', _, _, hred⟩ := dijkstra_run g start goal hw hs hg hneq
      rw [hred] at hres
      exact ((searchResult_success_facts hw inv' htr' hneq hres).2 route hroute).2.2.2.1
  · intro r route hres hroute
    cases hs : memberN g.nodes start with
    | false =>
      simp only [astar, hs, Bool.not_false, if_true] at hres
      cases Option.some.inj hres
      simp at hroute
    | true =>
    cases hg : memberN g.nodes goal with
    | false =>
      simp only [astar, hs, hg, Bool.not_false, Bool.not_true, Bool.false_eq_true,
        if_false, if_true] at hres
      cases Option.some.inj hres
      simp at hroute
    | true =>
      obtain ⟨S', _, inv', htr', _, _, hred⟩ := astar_run g start goal hf hw hs hg hneq
      rw [hred] at hres
      exact ((searchResult_success_facts hw inv' htr' hneq hres).2 route hroute).2.2.2.1

theorem C8_explored_edges_witness :
    gAB.WF ∧ (nA == nB) = false ∧
    (∀ r route, dijkstra gAB nA nB = some r → r.route = some route →
      route.explored_edges = route.explored_nodes.flatMap (fun v =>
        if v.id = nB.id then [] else (gAB.neighbors v).map (fun e => (v, e.1)))) := by
  refine ⟨gAB_wf, rfl, ?_⟩
  exact (C8_explored_edges gAB nA nB (fun _ _ => 0) gAB_wf rfl).1

/-! ## BFS soundness (for `is_connected`) -/

theorem memberN_cons (c : Node) (l : List Node) (n : Node) :
    memberN (c :: l) n = ((c == n) || memberN l n) := rfl

theorem bfsEnqueue_spec (ns : List (Node × ℚ)) :
    ∀ (v q : List Node), ∃ Δ, bfsEnqueue ns v q = (v ++ Δ, q ++ Δ) ∧
      ∀ e ∈ ns, memberN (v ++ Δ) e.1 = true := by
  induction ns with
  | nil =>
    intro v q
    exact ⟨[], by simp [bfsEnqueue], by simp⟩
  | cons e rest ih =>
    intro v q
    cases hm : memberN v e.1 with
    | true =>
      obtain ⟨Δ, h1, h2⟩ := ih v q
      refine ⟨Δ, by simp [bfsEnqueue, hm, h1], ?_⟩
      intro f hf
      rcases List.mem_cons.1 hf with h | h
      · subst h
        rw [memberN_append, hm]
        rfl
      · exact h2 f h
    | false =>
      obtain ⟨Δ, h1, h2⟩ := ih (v ++ [e.1]) (q ++ [e.1])
      refine ⟨e.1 :: Δ, ?_, ?_⟩
      · simp only [bfsEnqueue, hm, Bool.false_eq_true, if_false, h1,
          List.append_assoc, List.singleton_append]
      · intro f hf
        rcases List.mem_cons.1 hf with h | h
        · subst h
          rw [memberN_append, memberN_cons, node_beq_self]
          simp
        · have := h2 f h
          rw [List.append_assoc, List.singleton_append] at this
          exact this

/-- The invariant of `is_connected`'s BFS loop: queued nodes are visited,
and every visited node is either still queued (by id) or has been expanded
(all its neighbors visited) and found different from the goal. -/
structure BFSInv (g : Graph) (goal : Node) (visited queue : List Node) : Prop where
  sub : ∀ n, memberN queue n = true → memberN visited n = true
  closed : ∀ v, memberN visited v = true →
    (∃ q, memberN queue q = true ∧ q.id = v.id) ∨
    ((∀ e ∈ g.neighbors v, memberN visited e.1 = true) ∧ ¬ v.id = goal.id)

theorem bfsLoop_false_sound (g : Graph) (goal : Node) :
    ∀ (fuel : Nat) (visited queue : List Node),
    BFSInv g goal visited queue →
    bfsLoop g goal fuel visited queue = some false →
    ∀ u, memberN visited u = true → ∀ steps, WalkFrom g u steps →
      ¬ (walkEnd u steps).id = goal.id := by
  intro fuel
  induction fuel with
  | zero =>
    intro visited queue _ hrun
    simp [bfsLoop] at hrun
  | succ fuel ih =>
    intro visited queue inv hrun
    cases queue with
    | nil =>
      have hclosed : ∀ v, memberN visited v = true →
          (∀ e ∈ g.neighbors v, memberN visited e.1 = true) ∧ ¬ v.id = goal.id := by
        intro v hv
        rcases inv.closed v hv with ⟨q, hq, _⟩ | h
        · exact absurd hq (by simp [memberN])
        · exact h
      have main : ∀ (steps : List (Node × ℚ)) (u : Node), memberN visited u = true →
          WalkFrom g u steps → ¬ (walkEnd u steps).id = goal.id := by
        intro steps
        induction steps with
        | nil =>
          intro u hu _ h
          exact (hclosed u hu).2 h
        | cons e rest2 ihs =>
          obtain ⟨v, w⟩ := e
          intro u hu hwk
          obtain ⟨hmem, hwk2⟩ := hwk
          exact ihs v ((hclosed u hu).1 (v, w) hmem) hwk2
      intro u hu steps hwk
      exact main steps u hu hwk
    | cons c rest =>
      simp only [bfsLoop] at hrun
      cases hcg : (c == goal) with
      | true =>
        rw [if_pos hcg] at hrun
        simp at hrun
      | false =>
        rw [if_neg (by rw [hcg]; simp)] at hrun
        obtain ⟨Δ, henq, hns⟩ := bfsEnqueue_spec (g.neighbors c) visited rest
        rw [henq] at hrun
        have inv' : BFSInv g goal (visited ++ Δ) (rest ++ Δ) := by
          constructor
          · intro n hn
            rw [memberN_append, Bool.or_eq_true] at hn
            rw [memberN_append]
            rcases hn with h | h
            · have : memberN (c :: rest) n = true := by
                rw [memberN_cons, h]
                simp
              rw [inv.sub n this]
              rfl
            · rw [h]
              simp
          · intro v hv
            rw [memberN_append, Bool.or_eq_true] at hv
            rcases hv with hvv | hvd
            · rcases inv.closed v hvv with ⟨q, hqmem, hqid⟩ | ⟨hcl, hng⟩
              · rw [memberN_cons] at hqmem
                cases hcq : (c == q) with
                | true =>
                  right
                  have hvc : v.id = c.id := by
                    rw [← hqid, ← (node_beq_iff c q).1 hcq]
                  constructor
                  · intro e he
                    rw [neighbors_id g v c hvc] at he
                    exact hns e he
                  · intro h
                    exact absurd ((node_beq_iff c goal).2 (hvc ▸ h)) (by rw [hcg]; simp)
                | false =>
                  left
                  rw [hcq] at hqmem
                  simp only [Bool.false_or] at hqmem
                  refine ⟨q, ?_, hqid⟩
                  rw [memberN_append, hqmem]
                  rfl
              · right
                refine ⟨?_, hng⟩
                intro e he
                rw [memberN_append, hcl e he]
                rfl
            · left
              refine ⟨v, ?_, rfl⟩
              rw [memberN_append, hvd]
              simp
        intro u hu steps hwk
        refine ih (visited ++ Δ) (rest ++ Δ) inv' hrun u ?_ steps hwk
        rw [memberN_append, hu]
        rfl

/-- `is_connected` never answers `false` between connected nodes. -/
theorem is_connected_false_not_reachable (g : Graph) (a b : Node)
    (h : is_connected g a b = some false) : ¬ Reachable g a b := by
  unfold is_connected at h
  cases hab : (a == b) with
  | true =>
    rw [if_pos hab] at h
    simp at h
  | false =>
    rw [if_neg (by rw [hab]; simp)] at h
    rintro ⟨steps, hwk, hend⟩
    have inv : BFSInv g b [a] [a] := by
      constructor
      · intro n hn
        exact hn
      · intro v hv
        rw [memberN_cons] at hv
        simp only [memberN, List.any_nil, Bool.or_false] at hv
        exact Or.inl ⟨a, by rw [memberN_cons, node_beq_self]; rfl,
          (node_beq_iff a v).1 hv⟩
    exact bfsLoop_false_sound g b (bfsFuel g) [a] [a] inv h a
      (by rw [memberN_cons, node_beq_self]; rfl) steps hwk hend

theorem mentions_both (a b : Node) :
    a.id.data <:+: ("No path found from " ++ a.id ++ " to " ++ b.id).data ∧
    b.id.data <:+: ("No path found from " ++ a.id ++ " to " ++ b.id).data := by
  constructor
  · refine ⟨"No path found from ".data, " to ".data ++ b.id.data, ?_⟩
    simp [String.data_append, List.append_assoc]
  · refine ⟨"No path found from ".data ++ a.id.data ++ " to ".data, [], ?_⟩
    simp [String.data_append, List.append_assoc]

/-- C3 (amended): on a well-formed graph containing both nodes, a `false`
answer from `is_connected` makes both searches fail with an error message
mentioning both node identifiers. -/
theorem C3_disconnected_message (g : Graph) (a b : Node) (hf : Node → Node → ℚ)
    (hw : g.WF) (ha : memberN g.nodes a = true) (hb : memberN g.nodes b = true)
    (hic : is_connected g a b = some false) :
    (∃ r, dijkstra g a b = some r ∧ r.success = false ∧
      ∃ msg, r.error = some msg ∧ a.id.data <:+: msg.data ∧ b.id.data <:+: msg.data) ∧
    (∃ r, astar g a b (.callable hf) = some r ∧ r.success = false ∧
      ∃ msg, r.error = some msg ∧ a.id.data <:+: msg.data ∧ b.id.data <:+: msg.data) := by
  have hnr : ¬ Reachable g a b := is_connected_false_not_reachable g a b hic
  have hab : (a == b) = false := by
    apply bool_eq_false
    intro h
    unfold is_connected at hic
    rw [if_pos h] at hic
    simp at hic
  have hmain := search_no_path_msg g a b hf hw ha hb hab hnr
  constructor
  · exact ⟨_, hmain.1, rfl, _, rfl, mentions_both a b⟩
  · exact ⟨_, hmain.2, rfl, _, rfl, mentions_both a b⟩

/-- C3 is refuted as stated: on the empty graph, `is_connected` answers
`false` for the nodes `a` and `b`, but the search fails with the message
"Start node a not found in graph", which does not mention `b`. -/
theorem C3_counterexample :
    is_connected Graph.emptyGraph nA nB = some false ∧
    ∃ r, dijkstra Graph.emptyGraph nA nB = some r ∧ r.success = false ∧
      ∃ msg, r.error = some msg ∧ ¬ (nB.id.data <:+: msg.data) := by
  refine ⟨rfl, ⟨false, none, some "Start node a not found in graph"⟩, rfl, rfl,
    "Start node a not found in graph", rfl, ?_⟩
  decide

theorem C3_disconnected_message_witness :
    gAD.WF ∧ is_connected gAD nA nD = some false ∧
    (∃ r, dijkstra gAD nA nD = some r ∧ r.success = false ∧
      ∃ msg, r.error = some msg ∧ nA.id.data <:+: msg.data ∧ nD.id.data <:+: msg.data) := by
  refine ⟨gAD_wf, rfl, ?_⟩
  exact (C3_disconnected_message gAD nA nD (fun _ _ => 0) gAD_wf rfl rfl rfl).1

/-! ## Heuristics (`src/src/algorithms/heuristics.py`) and
`find_closest_node` (`src/src/services/routing.py`) -/

/-- `math.radians`. -/
noncomputable def radians (x : ℝ) : ℝ := x * (Real.pi / 180)

/-- `euclidean_distance`: Haversine distance in km, with the id-equality
short circuit of line 22. -/
noncomputable def euclidean_distance (node1 node2 : Node) : ℝ :=
  if node1 == node2 then 0
  else
    let lat1 := radians node1.latitude
    let lon1 := radians node1.longitude
    let lat2 := radians node2.latitude
    let lon2 := radians node2.longitude
    let dlat := lat2 - lat1
    let dlon := lon2 - lon1
    let a := Real.sin (dlat / 2) ^ 2
      + Real.cos lat1 * Real.cos lat2 * Real.sin (dlon / 2) ^ 2
    let c := 2 * Real.arcsin (Real.sqrt a)
    6371.0 * c

/-- `manhattan_distance`: north-south plus cos-scaled east-west component. -/
noncomputable def manhattan_distance (node1 node2 : Node) : ℝ :=
  if node1 == node2 then 0
  else
    let lat_diff := |node2.latitude - node1.latitude|
    let lon_diff := |node2.longitude - node1.longitude|
    let avg_lat := (node1.latitude + node2.latitude) / 2
    let lat_dist := lat_diff * 111.0
    let lon_dist := lon_diff * 111.0 * Real.cos (radians avg_lat)
    lat_dist + lon_dist

theorem mul_arcsin_sqrt_nonneg (k x : ℝ) (hk : 0 ≤ k) :
    0 ≤ k * (2 * Real.arcsin (Real.sqrt x)) :=
  mul_nonneg hk (mul_nonneg (by norm_num)
    (Real.arcsin_nonneg.mpr (Real.sqrt_nonneg x)))

theorem euclidean_nonneg (n1 n2 : Node) : 0 ≤ euclidean_distance n1 n2 := by
  unfold euclidean_distance
  split
  · exact le_refl 0
  · exact mul_arcsin_sqrt_nonneg 6371.0 _ (by norm_num)

/-- The `for node in all_nodes` loop of `find_closest_node`;
`float('inf')` is the top element of `WithTop ℝ`. -/
noncomputable def closestFold (location_node : Node) :
    List Node → Node × WithTop ℝ → Node × WithTop ℝ
  | [], acc => acc
  | n :: rest, (cn, md) =>
    let dist : WithTop ℝ := ((euclidean_distance location_node n : ℝ) : WithTop ℝ)
    if dist < md then closestFold location_node rest (n, dist)
    else closestFold location_node rest (cn, md)

/-- `find_closest_node`; `none` models the `NoRouteError` on an empty graph. -/
noncomputable def find_closest_node (location : Location) (graph : Graph) :
    Option (Node × WithTop ℝ) :=
  match graph.nodes with
  | [] => none
  | n0 :: _ =>
    some (closestFold ⟨"temp", location.latitude, location.longitude⟩
      graph.nodes (n0, ⊤))

theorem closestFold_le (ln : Node) (l : List Node) :
    ∀ acc : Node × WithTop ℝ, (closestFold ln l acc).2 ≤ acc.2 ∧
      ∀ n ∈ l, (closestFold ln l acc).2
        ≤ ((euclidean_distance ln n : ℝ) : WithTop ℝ) := by
  induction l with
  | nil =>
    intro acc
    exact ⟨le_refl _, by simp⟩
  | cons n rest ih =>
    rintro ⟨cn, md⟩
    by_cases hd : ((euclidean_distance ln n : ℝ) : WithTop ℝ) < md
    · have hred : closestFold ln (n :: rest) (cn, md)
          = closestFold ln rest (n, ((euclidean_distance ln n : ℝ) : WithTop ℝ)) := by
        simp only [closestFold, hd, if_true]
      obtain ⟨h1, h2⟩ := ih (n, ((euclidean_distance ln n : ℝ) : WithTop ℝ))
      rw [hred]
      refine ⟨h1.trans hd.le, ?_⟩
      intro m hm
      rcases List.mem_cons.1 hm with h | h
      · subst h
        exact h1
      · exact h2 m h
    · have hred : closestFold ln (n :: rest) (cn, md)
          = closestFold ln rest (cn, md) := by
        simp only [closestFold, hd, if_false]
      obtain ⟨h1, h2⟩ := ih (cn, md)
      rw [hred]
      refine ⟨h1, ?_⟩
      intro m hm
      rcases List.mem_cons.1 hm with h | h
      · subst h
        exact h1.trans (not_lt.1 hd)
      · exact h2 m h

theorem closestFold_val (ln : Node) (l : List Node) :
    ∀ acc : Node × WithTop ℝ, (closestFold ln l acc).2 = acc.2 ∨
      ∃ n ∈ l, (closestFold ln l acc).2
        = ((euclidean_distance ln n : ℝ) : WithTop ℝ) := by
  induction l with
  | nil =>
    intro acc
    exact Or.inl rfl
  | cons n rest ih =>
    rintro ⟨cn, md⟩
    by_cases hd : ((euclidean_distance ln n : ℝ) : WithTop ℝ) < md
    · have hred : closestFold ln (n :: rest) (cn, md)
          = closestFold ln rest (n, ((euclidean_distance ln n : ℝ) : WithTop ℝ)) := by
        simp only [closestFold, hd, if_true]
      rw [hred]
      rcases ih (n, ((euclidean_distance ln n : ℝ) : WithTop ℝ)) with h | ⟨m, hm, h⟩
      · exact Or.inr ⟨n, List.mem_cons_self n rest, h⟩
      · exact Or.inr ⟨m, List.mem_cons_of_mem n hm, h⟩
    · have hred : closestFold ln (n :: rest) (cn, md)
          = closestFold ln rest (cn, md) := by
        simp only [closestFold, hd, if_false]
      rw [hred]
      rcases ih (cn, md) with h | ⟨m, hm, h⟩
      · exact Or.inl h
      · exact Or.inr ⟨m, List.mem_cons_of_mem n hm, h⟩

/-- C10 (amended): whenever the graph contains a node with identifier
"temp", `find_closest_node` reports distance exactly 0 — the query's
temporary wrapper node compares equal to it by id — though the node
reported is the first node attaining distance 0, not necessarily the
"temp" one. -/
theorem C10_temp_distance_zero (loc : Location) (g : Graph)
    (ht : ∃ n ∈ g.nodes, n.id = "temp") :
    ∃ cn, find_closest_node loc g = some (cn, ((0 : ℝ) : WithTop ℝ)) := by
  obtain ⟨t, htmem, htid⟩ := ht
  cases hng : g.nodes with
  | nil =>
    rw [hng] at htmem
    exact absurd htmem (List.not_mem_nil t)
  | cons n0 ns =>
    have hred : find_closest_node loc g
        = some (closestFold ⟨"temp", loc.latitude, loc.longitude⟩ g.nodes (n0, ⊤)) := by
      unfold find_closest_node
      rw [hng]
    have hdist0 : euclidean_distance ⟨"temp", loc.latitude, loc.longitude⟩ t = 0 := by
      unfold euclidean_distance
      rw [if_pos ((node_beq_iff _ t).2 htid.symm)]
    have h2 := (closestFold_le ⟨"temp", loc.latitude, loc.longitude⟩ g.nodes (n0, ⊤)).2
      t htmem
    rw [hdist0] at h2
    have hP2 : (closestFold ⟨"temp", loc.latitude, loc.longitude⟩ g.nodes (n0, ⊤)).2
        = ((0 : ℝ) : WithTop ℝ) := by
      rcases closestFold_val ⟨"temp", loc.latitude, loc.longitude⟩ g.nodes (n0, ⊤)
        with h3 | ⟨m, _, h3⟩
      · rw [h3] at h2
        exact absurd h2 (by simp)
      · rw [h3] at h2 ⊢
        rw [WithTop.coe_le_coe] at h2
        rw [WithTop.coe_eq_coe]
        exact le_antisymm h2 (euclidean_nonneg _ m)
    refine ⟨(closestFold ⟨"temp", loc.latitude, loc.longitude⟩ g.nodes (n0, ⊤)).1, ?_⟩
    rw [hred, ← hP2]

def nT : Node := ⟨"temp", 5, 5⟩

def gTemp : Graph := ⟨[(nX, []), (nT, [])]⟩

/-- C10 is refuted as stated: with a node "x" sitting at the query's exact
coordinates and listed before the "temp"-id node, the strict `<` update rule
keeps "x" as the reported closest node, not the "temp" one. -/
theorem C10_counterexample :
    (∃ n ∈ gTemp.nodes, n.id = "temp") ∧
    ∃ p, find_closest_node ⟨"", 0, 0⟩ gTemp = some p ∧ p.1.id = "x" ∧
      ¬ p.1.id = "temp" ∧ p.2 = ((0 : ℝ) : WithTop ℝ) := by
  have h1 : euclidean_distance ⟨"temp", 0, 0⟩ nX = 0 := by
    unfold euclidean_distance radians
    rw [if_neg (by intro h; exact absurd ((node_beq_iff _ _).1 h) (by decide))]
    norm_num [nX, Real.sin_zero, Real.arcsin_zero, Real.sqrt_zero]
  have h2 : euclidean_distance ⟨"temp", 0, 0⟩ nT = 0 := by
    unfold euclidean_distance
    rw [if_pos ((node_beq_iff ⟨"temp", 0, 0⟩ nT).2 rfl)]
  have hred : find_closest_node ⟨"", 0, 0⟩ gTemp = some (nX, ((0 : ℝ) : WithTop ℝ)) := by
    show some (closestFold ⟨"temp", 0, 0⟩ [nX, nT] (nX, ⊤)) = _
    simp only [closestFold, h1, h2]
    rw [if_pos (WithTop.coe_lt_top (0 : ℝ)), if_neg (lt_irrefl _)]
  refine ⟨⟨nT, List.mem_cons_of_mem nX (List.mem_singleton_self nT), rfl⟩,
    (nX, ((0 : ℝ) : WithTop ℝ)), hred, rfl, by decide, rfl⟩

theorem C10_temp_distance_zero_witness :
    (∃ n ∈ gTemp.nodes, n.id = "temp") ∧
    ∃ cn, find_closest_node ⟨"", 7, 7⟩ gTemp = some (cn, ((0 : ℝ) : WithTop ℝ)) := by
  have ht : ∃ n ∈ gTemp.nodes, n.id = "temp" :=
    ⟨nT, List.mem_cons_of_mem nX (List.mem_singleton_self nT), rfl⟩
  exact ⟨ht, C10_temp_distance_zero ⟨"", 7, 7⟩ gTemp ht⟩

/-! ## C5: the Manhattan heuristic versus the Haversine distance -/

theorem arcsin_mul_sin_le (k x : ℝ) (hk0 : 0 ≤ k) (hk1 : k ≤ 1)
    (hx0 : 0 ≤ x) (hx : x ≤ Real.pi / 2) :
    Real.arcsin (k * Real.sin x) ≤ k * x := by
  have hπ := Real.pi_pos
  have hxπ : x ≤ Real.pi := by linarith
  have hsx : 0 ≤ Real.sin x := Real.sin_nonneg_of_nonneg_of_le_pi hx0 hxπ
  have hkx0 : 0 ≤ k * x := mul_nonneg hk0 hx0
  have hkxx : k * x ≤ x := by nlinarith
  have key : k * Real.sin x ≤ Real.sin (k * x) := by
    have hmem1 : x ∈ Set.Icc (0 : ℝ) Real.pi := ⟨hx0, hxπ⟩
    have hmem2 : (0 : ℝ) ∈ Set.Icc (0 : ℝ) Real.pi := ⟨le_refl 0, hπ.le⟩
    have hcc := strictConcaveOn_sin_Icc.concaveOn
    have h := hcc.2 hmem1 hmem2 hk0 (by linarith : (0 : ℝ) ≤ 1 - k) (by ring)
    simpa using h
  have h1 : Real.arcsin (k * Real.sin x) ≤ Real.arcsin (Real.sin (k * x)) :=
    Real.monotone_arcsin key
  rw [Real.arcsin_sin (by linarith) (by linarith)] at h1
  exact h1

theorem arcsin_sqrt_add_le (u v : ℝ) (hu : 0 ≤ u) (hv : 0 ≤ v)
    (huv : u ^ 2 + v ^ 2 ≤ 1) :
    Real.arcsin (Real.sqrt (u ^ 2 + v ^ 2)) ≤ Real.arcsin u + Real.arcsin v := by
  have hu1 : u ≤ 1 := by nlinarith
  have hv1 : v ≤ 1 := by nlinarith
  have hα0 : 0 ≤ Real.arcsin u := Real.arcsin_nonneg.mpr hu
  have hβ0 : 0 ≤ Real.arcsin v := Real.arcsin_nonneg.mpr hv
  by_cases hs : Real.arcsin u + Real.arcsin v ≤ Real.pi / 2
  · have hsinα : Real.sin (Real.arcsin u) = u := Real.sin_arcsin (by linarith) hu1
    have hsinβ : Real.sin (Real.arcsin v) = v := Real.sin_arcsin (by linarith) hv1
    have hcosα : Real.cos (Real.arcsin u) = Real.sqrt (1 - u ^ 2) := Real.cos_arcsin u
    have hcosβ : Real.cos (Real.arcsin v) = Real.sqrt (1 - v ^ 2) := Real.cos_arcsin v
    have hsin_ab : Real.sin (Real.arcsin u + Real.arcsin v)
        = u * Real.sqrt (1 - v ^ 2) + v * Real.sqrt (1 - u ^ 2) := by
      rw [Real.sin_add, hsinα, hsinβ, hcosα, hcosβ]
      ring
    have hR0 : 0 ≤ u * Real.sqrt (1 - v ^ 2) + v * Real.sqrt (1 - u ^ 2) := by positivity
    have e1 : Real.sqrt (1 - v ^ 2) ^ 2 = 1 - v ^ 2 := Real.sq_sqrt (by nlinarith)
    have e2 : Real.sqrt (1 - u ^ 2) ^ 2 = 1 - u ^ 2 := Real.sq_sqrt (by nlinarith)
    have e3 : u * v ≤ Real.sqrt (1 - u ^ 2) * Real.sqrt (1 - v ^ 2) := by
      have h4 : u * v = Real.sqrt ((u * v) ^ 2) := (Real.sqrt_sq (mul_nonneg hu hv)).symm
      rw [h4, ← Real.sqrt_mul (by nlinarith)]
      apply Real.sqrt_le_sqrt
      nlinarith
    have hsq : u ^ 2 + v ^ 2
        ≤ (u * Real.sqrt (1 - v ^ 2) + v * Real.sqrt (1 - u ^ 2)) ^ 2 := by
      nlinarith [e1, e2, e3, Real.sqrt_nonneg (1 - u ^ 2), Real.sqrt_nonneg (1 - v ^ 2),
        mul_nonneg hu hv]
    have key : Real.sqrt (u ^ 2 + v ^ 2)
        ≤ Real.sin (Real.arcsin u + Real.arcsin v) := by
      rw [hsin_ab]
      calc Real.sqrt (u ^ 2 + v ^ 2)
          ≤ Real.sqrt ((u * Real.sqrt (1 - v ^ 2) + v * Real.sqrt (1 - u ^ 2)) ^ 2) :=
            Real.sqrt_le_sqrt hsq
        _ = u * Real.sqrt (1 - v ^ 2) + v * Real.sqrt (1 - u ^ 2) := Real.sqrt_sq hR0
    have h5 : Real.arcsin (Real.sqrt (u ^ 2 + v ^ 2))
        ≤ Real.arcsin (Real.sin (Real.arcsin u + Real.arcsin v)) :=
      Real.monotone_arcsin key
    rw [Real.arcsin_sin (by linarith) hs] at h5
    exact h5
  · exact (Real.arcsin_le_pi_div_two _).trans (by linarith)

theorem haversine_identity (φ₁ φ₂ t : ℝ) :
    Real.sin ((φ₂ - φ₁) / 2) ^ 2 + Real.cos φ₁ * Real.cos φ₂ * Real.sin t ^ 2
      = (Real.sin ((φ₂ - φ₁) / 2) * Real.cos t) ^ 2
        + (Real.cos ((φ₁ + φ₂) / 2) * Real.sin t) ^ 2 := by
  have h2 : Real.cos φ₁ * Real.cos φ₂
      = Real.cos ((φ₁ + φ₂) / 2) ^ 2 - Real.sin ((φ₂ - φ₁) / 2) ^ 2 := by
    rw [Real.cos_sq ((φ₁ + φ₂) / 2), Real.sin_sq ((φ₂ - φ₁) / 2),
      Real.cos_sq ((φ₂ - φ₁) / 2)]
    rw [show 2 * ((φ₁ + φ₂) / 2) = φ₁ + φ₂ from by ring,
      show 2 * ((φ₂ - φ₁) / 2) = φ₂ - φ₁ from by ring, Real.cos_add,
      show φ₂ - φ₁ = -(φ₁ - φ₂) from by ring, Real.cos_neg, Real.cos_sub]
    ring
  rw [h2]
  have ht := Real.sin_sq_add_cos_sq t
  linear_combination (-(Real.sin ((φ₂ - φ₁) / 2) ^ 2)) * ht

theorem sin_abs_eq (d : ℝ) (hd : |d| ≤ Real.pi / 2) : Real.sin |d| = |Real.sin d| := by
  have hπ := Real.pi_pos
  rcases abs_cases d with ⟨he, hd0⟩ | ⟨he, hd0⟩
  · rw [he] at hd ⊢
    rw [abs_of_nonneg (Real.sin_nonneg_of_nonneg_of_le_pi hd0 (by linarith))]
  · rw [he] at hd ⊢
    have h1 : 0 ≤ Real.sin (-d) :=
      Real.sin_nonneg_of_nonneg_of_le_pi (by linarith) (by linarith)
    rw [Real.sin_neg] at h1
    rw [Real.sin_neg, abs_of_nonpos (by linarith)]

theorem haversine_core (d m t : ℝ) (hd : |d| ≤ Real.pi / 2) (hm : |m| ≤ Real.pi / 2)
    (ht : |t| ≤ Real.pi / 2) :
    2 * Real.arcsin (Real.sqrt ((Real.sin d * Real.cos t) ^ 2
      + (Real.cos m * Real.sin t) ^ 2))
      ≤ 2 * |d| + Real.cos m * (2 * |t|) := by
  have hπ := Real.pi_pos
  have hcosm0 : 0 ≤ Real.cos m := by
    obtain ⟨hl, hr⟩ := abs_le.1 hm
    exact Real.cos_nonneg_of_neg_pi_div_two_le_of_le hl hr
  have hcost0 : 0 ≤ Real.cos t := by
    obtain ⟨hl, hr⟩ := abs_le.1 ht
    exact Real.cos_nonneg_of_neg_pi_div_two_le_of_le hl hr
  have harg : (Real.sin d * Real.cos t) ^ 2 + (Real.cos m * Real.sin t) ^ 2
      = (|Real.sin d| * Real.cos t) ^ 2 + (Real.cos m * |Real.sin t|) ^ 2 := by
    rw [mul_pow, mul_pow, mul_pow, mul_pow, sq_abs, sq_abs]
  rw [harg]
  have hu0 : 0 ≤ |Real.sin d| * Real.cos t := mul_nonneg (abs_nonneg _) hcost0
  have hv0 : 0 ≤ Real.cos m * |Real.sin t| := mul_nonneg hcosm0 (abs_nonneg _)
  have hsum : (|Real.sin d| * Real.cos t) ^ 2 + (Real.cos m * |Real.sin t|) ^ 2 ≤ 1 := by
    have hu2 : (|Real.sin d| * Real.cos t) ^ 2 = Real.sin d ^ 2 * Real.cos t ^ 2 := by
      rw [mul_pow, sq_abs]
    have hv2 : (Real.cos m * |Real.sin t|) ^ 2 = Real.cos m ^ 2 * Real.sin t ^ 2 := by
      rw [mul_pow, sq_abs]
    rw [hu2, hv2]
    nlinarith [mul_nonneg (sub_nonneg.2 (Real.sin_sq_le_one d)) (sq_nonneg (Real.cos t)),
      mul_nonneg (sub_nonneg.2 (Real.cos_sq_le_one m)) (sq_nonneg (Real.sin t)),
      Real.sin_sq_add_cos_sq t]
  have hmain := arcsin_sqrt_add_le (|Real.sin d| * Real.cos t)
    (Real.cos m * |Real.sin t|) hu0 hv0 hsum
  have hbu : Real.arcsin (|Real.sin d| * Real.cos t) ≤ |d| := by
    have h := arcsin_mul_sin_le (Real.cos t) |d| hcost0 (Real.cos_le_one t)
      (abs_nonneg d) hd
    rw [sin_abs_eq d hd] at h
    rw [mul_comm]
    refine h.trans ?_
    nlinarith [abs_nonneg d, Real.cos_le_one t]
  have hbv : Real.arcsin (Real.cos m * |Real.sin t|) ≤ Real.cos m * |t| := by
    have h := arcsin_mul_sin_le (Real.cos m) |t| hcosm0 (Real.cos_le_one m)
      (abs_nonneg t) ht
    rw [sin_abs_eq t ht] at h
    exact h
  linarith [hmain, hbu, hbv]

theorem scale_step (A X : ℝ) (h : 2 * A ≤ Real.pi / 180 * X) :
    19980 / (6371 * Real.pi) * (6371 * (2 * A)) ≤ 111 * X := by
  have hπ := Real.pi_pos
  have h1 : 19980 / (6371 * Real.pi) * (6371 * (2 * A)) = (19980 / Real.pi) * (2 * A) := by
    field_simp
    ring
  rw [h1]
  have h2 : (19980 / Real.pi) * (2 * A) ≤ (19980 / Real.pi) * (Real.pi / 180 * X) :=
    mul_le_mul_of_nonneg_left h (by positivity)
  have h3 : (19980 / Real.pi) * (Real.pi / 180 * X) = 111 * X := by
    field_simp
    ring
  linarith

/-- C5 (amended): for geographic inputs (latitudes within ±90°, longitude
difference within ±180°) the Manhattan heuristic is at least
`19980/(6371π) ≈ 0.99882` times the Haversine distance; the unscaled
inequality of the spec fails (see the counterexample). -/
theorem C5_manhattan_ge_scaled (n1 n2 : Node)
    (h1 : |n1.latitude| ≤ 90) (h2 : |n2.latitude| ≤ 90)
    (hlon : |n2.longitude - n1.longitude| ≤ 180) :
    19980 / (6371 * Real.pi) * euclidean_distance n1 n2 ≤ manhattan_distance n1 n2 := by
  have hπ := Real.pi_pos
  unfold euclidean_distance manhattan_distance radians
  by_cases hbeq : (n1 == n2) = true
  · rw [if_pos hbeq, if_pos hbeq]
    simp
  · rw [if_neg hbeq, if_neg hbeq]
    dsimp only
    rw [show (6371.0 : ℝ) = 6371 from by norm_num,
      show (111.0 : ℝ) = 111 from by norm_num]
    have hc : (0 : ℝ) ≤ Real.pi / 180 := by positivity
    have hb1 : |n1.latitude * (Real.pi / 180)| ≤ Real.pi / 2 := by
      rw [abs_mul, abs_of_nonneg hc]
      nlinarith [abs_nonneg n1.latitude]
    have hb2 : |n2.latitude * (Real.pi / 180)| ≤ Real.pi / 2 := by
      rw [abs_mul, abs_of_nonneg hc]
      nlinarith [abs_nonneg n2.latitude]
    have hd : |(n2.latitude * (Real.pi / 180) - n1.latitude * (Real.pi / 180)) / 2|
        ≤ Real.pi / 2 := by
      rw [abs_div, abs_two]
      have h := abs_sub (n2.latitude * (Real.pi / 180)) (n1.latitude * (Real.pi / 180))
      linarith
    have hm : |(n1.latitude * (Real.pi / 180) + n2.latitude * (Real.pi / 180)) / 2|
        ≤ Real.pi / 2 := by
      rw [abs_div, abs_two]
      have h := abs_add (n1.latitude * (Real.pi / 180)) (n2.latitude * (Real.pi / 180))
      linarith
    have ht : |(n2.longitude * (Real.pi / 180) - n1.longitude * (Real.pi / 180)) / 2|
        ≤ Real.pi / 2 := by
      rw [show n2.longitude * (Real.pi / 180) - n1.longitude * (Real.pi / 180)
        = (n2.longitude - n1.longitude) * (Real.pi / 180) from by ring]
      rw [abs_div, abs_two, abs_mul, abs_of_nonneg hc]
      nlinarith [abs_nonneg (n2.longitude - n1.longitude)]
    have hcore := haversine_core
      ((n2.latitude * (Real.pi / 180) - n1.latitude * (Real.pi / 180)) / 2)
      ((n1.latitude * (Real.pi / 180) + n2.latitude * (Real.pi / 180)) / 2)
      ((n2.longitude * (Real.pi / 180) - n1.longitude * (Real.pi / 180)) / 2) hd hm ht
    rw [haversine_identity (n1.latitude * (Real.pi / 180)) (n2.latitude * (Real.pi / 180))
      ((n2.longitude * (Real.pi / 180) - n1.longitude * (Real.pi / 180)) / 2)]
    have e1 : |(n2.latitude * (Real.pi / 180) - n1.latitude * (Real.pi / 180)) / 2|
        = |n2.latitude - n1.latitude| * (Real.pi / 360) := by
      rw [show (n2.latitude * (Real.pi / 180) - n1.latitude * (Real.pi / 180)) / 2
        = (n2.latitude - n1.latitude) * (Real.pi / 360) from by ring]
      rw [abs_mul, abs_of_nonneg (by positivity : (0 : ℝ) ≤ Real.pi / 360)]
    have e2 : |(n2.longitude * (Real.pi / 180) - n1.longitude * (Real.pi / 180)) / 2|
        = |n2.longitude - n1.longitude| * (Real.pi / 360) := by
      rw [show (n2.longitude * (Real.pi / 180) - n1.longitude * (Real.pi / 180)) / 2
        = (n2.longitude - n1.longitude) * (Real.pi / 360) from by ring]
      rw [abs_mul, abs_of_nonneg (by positivity : (0 : ℝ) ≤ Real.pi / 360)]
    have e3 : (n1.latitude * (Real.pi / 180) + n2.latitude * (Real.pi / 180)) / 2
        = (n1.latitude + n2.latitude) / 2 * (Real.pi / 180) := by ring
    rw [e1, e2, e3] at hcore
    rw [e3]
    have hcoreX : 2 * Real.arcsin (Real.sqrt
        ((Real.sin ((n2.latitude * (Real.pi / 180) - n1.latitude * (Real.pi / 180)) / 2)
          * Real.cos ((n2.longitude * (Real.pi / 180) - n1.longitude * (Real.pi / 180)) / 2)) ^ 2
        + (Real.cos ((n1.latitude + n2.latitude) / 2 * (Real.pi / 180))
          * Real.sin ((n2.longitude * (Real.pi / 180) - n1.longitude * (Real.pi / 180)) / 2)) ^ 2))
        ≤ Real.pi / 180 * (|n2.latitude - n1.latitude|
          + Real.cos ((n1.latitude + n2.latitude) / 2 * (Real.pi / 180))
            * |n2.longitude - n1.longitude|) := by
      refine le_trans hcore (le_of_eq (by ring))
    refine le_trans (scale_step _ _ hcoreX) (le_of_eq (by ring))

/-- C5 is refuted as stated: along the equator from longitude 0° to 180°,
the Manhattan estimate is `180·111 = 19980` km while the great-circle
distance is `6371π ≈ 20015` km, so Manhattan < Haversine. -/
theorem C5_counterexample :
    manhattan_distance ⟨"a", 0, 0⟩ ⟨"b", 0, 180⟩
      < euclidean_distance ⟨"a", 0, 0⟩ ⟨"b", 0, 180⟩ := by
  have hne : ((⟨"a", 0, 0⟩ : Node) == ⟨"b", 0, 180⟩) = false := rfl
  unfold manhattan_distance euclidean_distance radians
  rw [if_neg (by rw [hne]; simp), if_neg (by rw [hne]; simp)]
  dsimp only
  norm_num
  rw [show (180 : ℝ) * (Real.pi / 180) / 2 = Real.pi / 2 from by ring, Real.sin_pi_div_two]
  norm_num [Real.arcsin_one]
  nlinarith [Real.pi_gt_d6]

theorem C5_manhattan_ge_scaled_witness :
    |nA.latitude| ≤ 90 ∧ |nB.latitude| ≤ 90 ∧ |nB.longitude - nA.longitude| ≤ 180 ∧
    19980 / (6371 * Real.pi) * euclidean_distance nA nB ≤ manhattan_distance nA nB := by
  have h1 : |nA.latitude| ≤ (90 : ℝ) := by norm_num [nA]
  have h2 : |nB.latitude| ≤ (90 : ℝ) := by norm_num [nB]
  have h3 : |nB.longitude - nA.longitude| ≤ (180 : ℝ) := by norm_num [nA, nB]
  exact ⟨h1, h2, h3, C5_manhattan_ge_scaled nA nB h1 h2 h3⟩

/-! ## C1: optimality of the searches -/

/-- The heuristic never overestimates the remaining walk cost. -/
def Admissible (g : Graph) (goal : Node) (hq : Node → Node → ℚ) : Prop :=
  ∀ u steps, WalkFrom g u steps → (walkEnd u steps).id = goal.id →
    hq u goal ≤ walkCost steps

/-- The heuristic satisfies the triangle inequality along every edge. -/
def Consistent (g : Graph) (goal : Node) (hq : Node → Node → ℚ) : Prop :=
  ∀ u, ∀ e ∈ g.neighbors u, hq u goal ≤ e.2 + hq e.1 goal

/-- The heuristic depends on its first argument only through the id — the
counterpart of Python `Node.__eq__` for heuristic values. -/
def HIdCoherent (goal : Node) (hq : Node → Node → ℚ) : Prop :=
  ∀ a b, a.id = b.id → hq a goal = hq b goal

theorem consistent_walk {g : Graph} {goal : Node} {hq : Node → Node → ℚ}
    (hcons : Consistent g goal hq) :
    ∀ (steps : List (Node × ℚ)) (u : Node), WalkFrom g u steps →
      hq u goal ≤ walkCost steps + hq (walkEnd u steps) goal := by
  intro steps
  induction steps with
  | nil =>
    intro u _
    rw [walkCost_nil, walkEnd_nil, zero_add]
  | cons e rest ih =>
    obtain ⟨m, w⟩ := e
    intro u hwk
    obtain ⟨hmem, hwk2⟩ := hwk
    have h1 := hcons u (m, w) hmem
    have h2 := ih m hwk2
    rw [walkCost_cons, walkEnd_cons]
    linarith

/-- The optimality invariant: every finalized node's `g_score` is a lower
bound on the cost of every walk reaching it, and every finalized non-goal
node has had all its outgoing edges relaxed. -/
structure OptInv (g : Graph) (start goal : Node) (hq : Node → Node → ℚ)
    (S : SearchState) : Prop where
  visited_opt : ∀ n v, memberN S.visited n = true → lookupA S.gScore n = some v →
    ∀ steps, WalkFrom g start steps → (walkEnd start steps).id = n.id →
      v ≤ walkCost steps
  visited_relaxed : ∀ n, memberN S.visited n = true → ¬ n.id = goal.id →
    ∀ e ∈ g.neighbors n, ∃ vn vm, lookupA S.gScore n = some vn ∧
      lookupA S.gScore e.1 = some vm ∧ vm ≤ vn + e.2

theorem optInv_congr {g : Graph} {start goal : Node} {hq : Node → Node → ℚ}
    {S S' : SearchState} (hgs : S'.gScore = S.gScore) (hv : S'.visited = S.visited)
    (hopt : OptInv g start goal hq S) : OptInv g start goal hq S' := by
  constructor
  · rw [hgs, hv]
    exact hopt.visited_opt
  · rw [hgs, hv]
    exact hopt.visited_relaxed

theorem optInv_init (g : Graph) (start goal : Node) (hq : Node → Node → ℚ) (k : ℚ) :
    OptInv g start goal hq
      ⟨[(k, 0, start)], 1, [(start, (0 : ℚ))], [], [], [], [start], []⟩ := by
  constructor
  · intro n v hn
    exact absurd hn (by simp [memberN])
  · intro n hn
    exact absurd hn (by simp [memberN])

/-- Minimality of the popped key against every node that is still
unvisited but has a `g_score`. -/
theorem min_key_bound {g : Graph} {start goal : Node} {hq : Node → Node → ℚ}
    {S : SearchState} (inv : SInv g start goal hq S) (hcoh : HIdCoherent goal hq)
    {e : Entry} {rest : List Entry} (hpop : popMin S.pq = some (e, rest))
    (u : Node) (hu : memberN S.visited u = false) (vu : ℚ)
    (hgu : lookupA S.gScore u = some vu) :
    e.1 ≤ vu + hq u goal := by
  obtain ⟨e2, he2, hid, hkey⟩ := inv.min_entry u vu hu hgu
  have h1 := popMin_key_le S.pq e rest hpop e2 he2
  rw [hkey, hcoh e2.2.2 u hid] at h1
  exact h1

/-- The cut argument: the popped key is bounded by the cost of every walk
from a priced node to (the id of) the unvisited node `c`, plus `h c`. -/
theorem walk_cut {g : Graph} {start goal : Node} {hq : Node → Node → ℚ}
    {S : SearchState} (inv : SInv g start goal hq S) (hopt : OptInv g start goal hq S)
    (hcons : Consistent g goal hq) (hcoh : HIdCoherent goal hq)
    (hgoal : memberN S.visited goal = false)
    {e : Entry} {rest : List Entry} (hpop : popMin S.pq = some (e, rest))
    (c : Node) (hcunvis : memberN S.visited c = false) :
    ∀ (steps : List (Node × ℚ)) (u : Node) (β : ℚ), WalkFrom g u steps →
      (walkEnd u steps).id = c.id →
      (∃ vu, lookupA S.gScore u = some vu ∧ vu ≤ β) →
      e.1 ≤ β + walkCost steps + hq c goal := by
  intro steps
  induction steps with
  | nil =>
    rintro u β _ hend ⟨vu, hgu, hvub⟩
    rw [walkEnd_nil] at hend
    have huv : memberN S.visited u = false := by
      rw [memberN_id S.visited u c hend]
      exact hcunvis
    have h1 := min_key_bound inv hcoh hpop u huv vu hgu
    rw [hcoh u c hend] at h1
    rw [walkCost_nil]
    linarith
  | cons e2 rest2 ih =>
    obtain ⟨m, w⟩ := e2
    rintro u β hwk hend ⟨vu, hgu, hvub⟩
    obtain ⟨hmem, hwk2⟩ := hwk
    rw [walkEnd_cons] at hend
    rw [walkCost_cons]
    cases huv : memberN S.visited u with
    | false =>
      have h1 := min_key_bound inv hcoh hpop u huv vu hgu
      have h2 := hcons u (m, w) hmem
      have h3 := consistent_walk hcons rest2 m hwk2
      rw [hcoh (walkEnd m rest2) c hend] at h3
      linarith
    | true =>
      have hng : ¬ u.id = goal.id := by
        intro hh
        rw [memberN_id S.visited goal u hh.symm] at hgoal
        rw [hgoal] at huv
        exact absurd huv (by simp)
      obtain ⟨vn, vm, hvn, hvm, hle⟩ := hopt.visited_relaxed u huv hng (m, w) hmem
      rw [hgu] at hvn
      have hvnvu : vn = vu := (Option.some.inj hvn).symm
      subst hvnvu
      have hIH := ih m (β + w) hwk2 hend ⟨vm, hvm, by linarith⟩
      linarith

/-- When it is popped and finalized, a node's `g_score` is a lower bound for
the cost of every walk from the start to it. -/
theorem pop_optimal {g : Graph} {start goal : Node} {hq : Node → Node → ℚ}
    {S : SearchState} (inv : SInv g start goal hq S) (hopt : OptInv g start goal hq S)
    (hcons : Consistent g goal hq) (hcoh : HIdCoherent goal hq)
    (hgoal : memberN S.visited goal = false)
    {e : Entry} {rest : List Entry} (hpop : popMin S.pq = some (e, rest))
    (hunvis : memberN S.visited e.2.2 = false) :
    ∀ v, lookupA S.gScore e.2.2 = some v →
    ∀ steps, WalkFrom g start steps → (walkEnd start steps).id = e.2.2.id →
      v ≤ walkCost steps := by
  intro v hv steps hwk hend
  have hcut := walk_cut inv hopt hcons hcoh hgoal hpop e.2.2 hunvis steps start 0 hwk
    hend ⟨0, inv.gs_start, le_refl 0⟩
  obtain ⟨v2, hv2, hkey⟩ := inv.entry_gs e (popMin_mem S.pq e rest hpop)
  rw [hv] at hv2
  have : v2 = v := (Option.some.inj hv2).symm
  subst this
  linarith

theorem astarExpand_cons_none (goal : Node) (heuristic : Node → Node → ℚ)
    (cur neighbor : Node) (w : ℚ) (rest : List (Node × ℚ)) (S : SearchState)
    (hnb : memberN S.visited neighbor = false)
    (hgc : lookupA S.gScore cur = none) :
    astarExpand goal heuristic cur ((neighbor, w) :: rest) S = none := by
  simp only [astarExpand, hnb, hgc]
  simp

/-- Along a successful neighbor-expansion run, priced nodes keep a price
that can only decrease. -/
theorem astarExpand_gs_mono (goal : Node) (hq : Node → Node → ℚ) (cur : Node) :
    ∀ (ns : List (Node × ℚ)) (S S' : SearchState),
    astarExpand goal hq cur ns S = some S' →
    ∀ n v, lookupA S.gScore n = some v →
      ∃ v2, lookupA S'.gScore n = some v2 ∧ v2 ≤ v := by
  intro ns
  induction ns with
  | nil =>
    intro S S' hrun n v hv
    cases Option.some.inj hrun
    exact ⟨v, hv, le_refl v⟩
  | cons e2 rest ih =>
    obtain ⟨nb, w⟩ := e2
    intro S S' hrun n v hv
    cases hnb : memberN S.visited nb with
    | true =>
      rw [astarExpand_cons_skip goal hq cur nb w rest S hnb] at hrun
      exact ih (logEdge cur nb S) S' hrun n v hv
    | false =>
      cases hgc : lookupA S.gScore cur with
      | none =>
        rw [astarExpand_cons_none goal hq cur nb w rest S hnb hgc] at hrun
        exact absurd hrun (by simp)
      | some gc =>
        cases hbet : betterThan S nb (gc + w) with
        | true =>
          rw [astarExpand_cons_relax goal hq cur nb w gc rest S hnb hgc hbet] at hrun
          have hgs := (relaxA_fields goal hq cur nb (gc + w) (logEdge cur nb S)).2.2.2.2.1
          by_cases hid : nb.id = n.id
          · have hvn : lookupA S.gScore nb = some v := by
              rw [lookupA_id S.gScore nb n hid]
              exact hv
            have hlt : gc + w < v := by
              unfold betterThan at hbet
              rw [hvn] at hbet
              exact of_decide_eq_true hbet
            have hlk : lookupA (relaxA goal hq cur nb (gc + w)
                (logEdge cur nb S)).gScore n = some (gc + w) := by
              rw [hgs]
              exact lookupA_setA_self _ nb n _ hid
            obtain ⟨v2, hv2, hle2⟩ := ih _ S' hrun n (gc + w) hlk
            exact ⟨v2, hv2, hle2.trans hlt.le⟩
          · have hlk : lookupA (relaxA goal hq cur nb (gc + w)
                (logEdge cur nb S)).gScore n = some v := by
              rw [hgs]
              exact (lookupA_setA_ne _ nb n _ hid).trans hv
            exact ih _ S' hrun n v hlk
        | false =>
          rw [astarExpand_cons_norelax goal hq cur nb w gc rest S hnb hgc hbet] at hrun
          exact ih (logEdge cur nb S) S' hrun n v hv

/-- After a successful expansion of `cur`, every unvisited neighbor is
relaxed: its price is at most `g_score[cur] + weight`. -/
theorem astarExpand_relaxed (goal : Node) (hq : Node → Node → ℚ) (cur : Node) :
    ∀ (ns : List (Node × ℚ)) (S S' : SearchState),
    astarExpand goal hq cur ns S = some S' →
    memberN S.visited cur = true →
    ∀ vc, lookupA S.gScore cur = some vc →
    ∀ e ∈ ns, memberN S.visited e.1 = false →
      ∃ vm, lookupA S'.gScore e.1 = some vm ∧ vm ≤ vc + e.2 := by
  intro ns
  induction ns with
  | nil =>
    intro S S' _ _ vc _ e he
    exact absurd he (List.not_mem_nil e)
  | cons e2 rest ih =>
    obtain ⟨nb, w⟩ := e2
    intro S S' hrun hvcur vc hvc e he hev
    cases hnb : memberN S.visited nb with
    | true =>
      rw [astarExpand_cons_skip goal hq cur nb w rest S hnb] at hrun
      rcases List.mem_cons.1 he with h | h
      · subst h
        rw [hnb] at hev
        exact absurd hev (by simp)
      · exact ih (logEdge cur nb S) S' hrun hvcur vc hvc e h hev
    | false =>
      have hidnc : ¬ nb.id = cur.id := by
        intro hh
        rw [memberN_id S.visited nb cur hh] at hnb
        rw [hvcur] at hnb
        exact absurd hnb (by simp)
      cases hbet : betterThan S nb (vc + w) with
      | true =>
        rw [astarExpand_cons_relax goal hq cur nb w vc rest S hnb hvc hbet] at hrun
        have hgs := (relaxA_fields goal hq cur nb (vc + w) (logEdge cur nb S)).2.2.2.2.1
        have hvis1 := (relaxA_fields goal hq cur nb (vc + w) (logEdge cur nb S)).1
        have hvc1 : lookupA (relaxA goal hq cur nb (vc + w)
            (logEdge cur nb S)).gScore cur = some vc := by
          rw [hgs]
          exact (lookupA_setA_ne _ nb cur _ hidnc).trans hvc
        have hvcur1 : memberN (relaxA goal hq cur nb (vc + w)
            (logEdge cur nb S)).visited cur = true := by
          rw [hvis1]
          exact hvcur
        rcases List.mem_cons.1 he with h | h
        · subst h
          have hlk : lookupA (relaxA goal hq cur nb (vc + w)
              (logEdge cur nb S)).gScore nb = some (vc + w) := by
            rw [hgs]
            exact lookupA_setA_self _ nb nb _ rfl
          obtain ⟨v2, hv2, hle2⟩ := astarExpand_gs_mono goal hq cur rest _ S' hrun
            nb (vc + w) hlk
          exact ⟨v2, hv2, hle2⟩
        · refine ih _ S' hrun hvcur1 vc hvc1 e h ?_
          rw [hvis1]
          exact hev
      | false =>
        rw [astarExpand_cons_norelax goal hq cur nb w vc rest S hnb hvc hbet] at hrun
        rcases List.mem_cons.1 he with h | h
        · subst h
          obtain ⟨gn, hgn, hgnle⟩ : ∃ gn, lookupA S.gScore nb = some gn ∧ gn ≤ vc + w := by
            unfold betterThan at hbet
            cases hlx : lookupA S.gScore nb with
            | none =>
              rw [hlx] at hbet
              exact absurd hbet (by simp)
            | some gn =>
              rw [hlx] at hbet
              exact ⟨gn, rfl, not_lt.1 (of_decide_eq_false hbet)⟩
          obtain ⟨v2, hv2, hle2⟩ := astarExpand_gs_mono goal hq cur rest
            (logEdge cur nb S) S' hrun nb gn hgn
          exact ⟨v2, hv2, hle2.trans hgnle⟩
        · exact ih (logEdge cur nb S) S' hrun hvcur vc hvc e h hev

/-- `OptInv` survives the finalize-then-expand step of the main loop. -/
theorem optInv_step {g : Graph} {start goal : Node} {hq : Node → Node → ℚ}
    {S S2 : SearchState} (hw : g.WF) (inv : SInv g start goal hq S)
    (hopt : OptInv g start goal hq S) (hcons : Consistent g goal hq)
    (hcoh : HIdCoherent goal hq) (hgoal : memberN S.visited goal = false)
    (k : ℚ) (cnt : Nat) (cur : Node) {rest : List Entry}
    (hpop : popMin S.pq = some ((k, cnt, cur), rest))
    (hunvis : memberN S.visited cur = false)
    (hrun : astarExpand goal hq cur (g.neighbors cur) (finalize cur rest S) = some S2)
    (hepost : EPost cur (g.neighbors cur) (finalize cur rest S) S2) :
    OptInv g start goal hq S2 := by
  obtain ⟨vc, hvc, _⟩ := inv.entry_gs (k, cnt, cur) (popMin_mem S.pq _ rest hpop)
  have hpopt := pop_optimal inv hopt hcons hcoh hgoal hpop hunvis vc hvc
  have hvcur1 : memberN (finalize cur rest S).visited cur = true := by
    show memberN (S.visited ++ [cur]) cur = true
    rw [memberN_append_one, node_beq_self, Bool.or_true]
  constructor
  · intro n v hn hv steps hwk hend
    have hn1 : memberN (finalize cur rest S).visited n = true := by
      rw [← hepost.visited_eq]
      exact hn
    have hfroz := hepost.gs_frozen n hn1
    rw [hfroz] at hv
    have hvS : lookupA S.gScore n = some v := hv
    have hn2 : memberN (S.visited ++ [cur]) n = true := hn1
    rw [memberN_append_one] at hn2
    rcases Bool.eq_false_or_eq_true (memberN S.visited n) with h | h
    · exact hopt.visited_opt n v h hvS steps hwk hend
    · rw [h, Bool.false_or] at hn2
      have hcn : cur.id = n.id := (node_beq_iff _ _).1 hn2
      have hvvc : v = vc := by
        rw [lookupA_id S.gScore n cur hcn.symm, hvc] at hvS
        exact (Option.some.inj hvS).symm
      subst hvvc
      exact hpopt steps hwk (hend.trans hcn.symm)
  · intro n hn hng e3 he3
    obtain ⟨m, w⟩ := e3
    have hn1 : memberN (finalize cur rest S).visited n = true := by
      rw [← hepost.visited_eq]
      exact hn
    have hfroz := hepost.gs_frozen n hn1
    have hn2 : memberN (S.visited ++ [cur]) n = true := hn1
    rw [memberN_append_one] at hn2
    rcases Bool.eq_false_or_eq_true (memberN S.visited n) with h | h
    · -- previously finalized node: its relaxation facts persist
      obtain ⟨vn, vm, hvn, hvm, hle⟩ := hopt.visited_relaxed n h hng (m, w) he3
      have hgsn : lookupA S2.gScore n = some vn := by
        rw [hfroz]
        exact hvn
      obtain ⟨vm2, hvm2, hle2⟩ := hepost.gs_mono m vm hvm
      exact ⟨vn, vm2, hgsn, hvm2, by linarith⟩
    · -- freshly finalized node (id of cur): its edges were just relaxed
      rw [h, Bool.false_or] at hn2
      have hcn : cur.id = n.id := (node_beq_iff _ _).1 hn2
      have hgsn : lookupA S2.gScore n = some vc := by
        rw [hfroz]
        show lookupA S.gScore n = some vc
        rw [lookupA_id S.gScore n cur hcn.symm]
        exact hvc
      have he3c : (m, w) ∈ g.neighbors cur := by
        rw [neighbors_id g cur n hcn]
        exact he3
      rcases Bool.eq_false_or_eq_true (memberN (S.visited ++ [cur]) m) with hm1 | hm1
      · -- neighbor already finalized: bounded through its own optimality
        rw [memberN_append_one] at hm1
        rcases Bool.eq_false_or_eq_true (memberN S.visited m) with hm2 | hm2
        · obtain ⟨vm, hvm⟩ := Option.isSome_iff_exists.1 (inv.visited_gs m hm2)
          obtain ⟨Wc, hwkc, hendc, hcostc⟩ := inv.gs_walk cur vc hvc
          have hwalk2 : WalkFrom g start (Wc ++ [(m, w)]) := by
            rw [walkFrom_append]
            refine ⟨hwkc, ?_, trivial⟩
            rw [neighbors_id g (walkEnd start Wc) cur hendc]
            exact he3c
          have hend2 : (walkEnd start (Wc ++ [(m, w)])).id = m.id := by
            rw [walkEnd_append, walkEnd_cons, walkEnd_nil]
          have hcost2 : walkCost (Wc ++ [(m, w)]) = vc + w := by
            rw [walkCost_append, walkCost_cons, walkCost_nil, hcostc]
            ring
          have hbound := hopt.visited_opt m vm hm2 hvm (Wc ++ [(m, w)]) hwalk2 hend2
          rw [hcost2] at hbound
          have hgsm : lookupA S2.gScore m = some vm := by
            rw [hepost.gs_frozen m (by
              show memberN (S.visited ++ [cur]) m = true
              rw [memberN_append_one, hm2]
              rfl)]
            exact hvm
          exact ⟨vc, vm, hgsn, hgsm, hbound⟩
        · rw [hm2, Bool.false_or] at hm1
          have hcm : cur.id = m.id := (node_beq_iff _ _).1 hm1
          have hgsm : lookupA S2.gScore m = some vc := by
            rw [hepost.gs_frozen m (by
              show memberN (S.visited ++ [cur]) m = true
              rw [memberN_append_one, hm1, Bool.or_true])]
            show lookupA S.gScore m = some vc
            rw [lookupA_id S.gScore m cur hcm.symm]
            exact hvc
          have hwpos : 0 < w := mem_neighbors_pos g hw cur (m, w) he3c
          exact ⟨vc, vc, hgsn, hgsm, by linarith⟩
      · -- unvisited neighbor: relaxed by the expansion
        have hm1f : memberN (finalize cur rest S).visited m = false := hm1
        obtain ⟨vm, hvm, hle⟩ := astarExpand_relaxed goal hq cur (g.neighbors cur)
          (finalize cur rest S) S2 hrun hvcur1 vc hvc (m, w) he3c hm1f
        exact ⟨vc, vm, hgsn, hvm, hle⟩

/-- The main loop preserves the optimality invariant as long as it starts
with the goal unvisited. -/
theorem astarLoop_opt (g : Graph) (start goal : Node) (hq : Node → Node → ℚ)
    (hw : g.WF) (hcons : Consistent g goal hq) (hcoh : HIdCoherent goal hq) :
    ∀ (fuel : Nat) (S S' : SearchState), SInv g start goal hq S →
    OptInv g start goal hq S → memberN S.visited goal = false →
    astarLoop g goal hq fuel S = some S' →
    OptInv g start goal hq S' := by
  intro fuel
  induction fuel with
  | zero =>
    intro S S' _ _ _ hrun
    exact absurd hrun (by simp [astarLoop])
  | succ fuel ih =>
    intro S S' inv hopt hgoal hrun
    cases hpop : popMin S.pq with
    | none =>
      simp only [astarLoop, hpop] at hrun
      cases Option.some.inj hrun
      exact hopt
    | some pr =>
      rcases pr with ⟨⟨k, cnt, cur⟩, rest⟩
      by_cases hvis : memberN S.visited cur = true
      · have hred : astarLoop g goal hq (fuel+1) S
            = astarLoop g goal hq fuel {S with pq := rest} := by
          simp only [astarLoop, hpop, hvis]
          simp
        rw [hred] at hrun
        have hopt2 : OptInv g start goal hq {S with pq := rest} :=
          optInv_congr
            (show ({S with pq := rest} : SearchState).gScore = S.gScore from rfl)
            (show ({S with pq := rest} : SearchState).visited = S.visited from rfl) hopt
        exact ih {S with pq := rest} S' (sinv_pop_stale inv (k, cnt, cur) rest hpop hvis)
          hopt2 hgoal hrun
      · have hvis2 : memberN S.visited cur = false := bool_eq_false hvis
        have inv1 : SInv g start goal hq (finalize cur rest S) :=
          sinv_finalize inv (k, cnt, cur) rest hpop hvis2
        by_cases hcg : (cur == goal) = true
        · have hred : astarLoop g goal hq (fuel+1) S = some (finalize cur rest S) := by
            simp only [astarLoop, hpop, hvis, hcg]
            simp
          rw [hred] at hrun
          cases Option.some.inj hrun
          -- OptInv for the final state: the new node is the goal, so the
          -- relaxation clause does not apply to it
          obtain ⟨vc, hvc, _⟩ := inv.entry_gs (k, cnt, cur)
            (popMin_mem S.pq _ rest hpop)
          have hpopt := pop_optimal inv hopt hcons hcoh hgoal hpop hvis2 vc hvc
          constructor
          · intro n v hn hv steps hwk hend
            have hn2 : memberN (S.visited ++ [cur]) n = true := hn
            have hvS : lookupA S.gScore n = some v := hv
            rw [memberN_append_one] at hn2
            rcases Bool.eq_false_or_eq_true (memberN S.visited n) with h | h
            · exact hopt.visited_opt n v h hvS steps hwk hend
            · rw [h, Bool.false_or] at hn2
              have hcn : cur.id = n.id := (node_beq_iff _ _).1 hn2
              have hvvc : v = vc := by
                rw [lookupA_id S.gScore n cur hcn.symm, hvc] at hvS
                exact (Option.some.inj hvS).symm
              subst hvvc
              exact hpopt steps hwk (hend.trans hcn.symm)
          · intro n hn hng e3 he3
            have hn2 : memberN (S.visited ++ [cur]) n = true := hn
            rw [memberN_append_one] at hn2
            rcases Bool.eq_false_or_eq_true (memberN S.visited n) with h | h
            · obtain ⟨vn, vm, hvn, hvm, hle⟩ := hopt.visited_relaxed n h hng e3 he3
              exact ⟨vn, vm, hvn, hvm, hle⟩
            · rw [h, Bool.false_or] at hn2
              exfalso
              apply hng
              rw [← (node_beq_iff _ _).1 hn2]
              exact (node_beq_iff _ _).1 hcg
        · have hcg2 : (cur == goal) = false := bool_eq_false hcg
          have hvcur1 : memberN (finalize cur rest S).visited cur = true := by
            show memberN (S.visited ++ [cur]) cur = true
            rw [memberN_append_one, node_beq_self, Bool.or_true]
          obtain ⟨S2, hexp, inv2, post⟩ := astarExpand_run g start goal hq hw cur
            (g.neighbors cur) (finalize cur rest S) (fun e he => he) hvcur1 inv1
          have hred : astarLoop g goal hq (fuel+1) S = astarLoop g goal hq fuel S2 := by
            simp only [astarLoop, hpop, hvis2, hcg2, hexp]
            simp
          rw [hred] at hrun
          have hopt2 := optInv_step hw inv hopt hcons hcoh hgoal k cnt cur hpop
            hvis2 hexp post
          have hgoal2 : memberN S2.visited goal = false := by
            rw [post.visited_eq]
            show memberN (S.visited ++ [cur]) goal = false
            rw [memberN_append_one, hgoal, hcg2]
            rfl
          exact ih S2 S' inv2 hopt2 hgoal2 hrun

/-- At the end of the search, the goal's `g_score` is the minimum walk cost. -/
theorem final_min_cost {g : Graph} {start goal : Node} {hq : Node → Node → ℚ}
    {S' : SearchState} (inv : SInv g start goal hq S') (hopt : OptInv g start goal hq S')
    (hvis : memberN S'.visited goal = true) {d : ℚ}
    (hgs : lookupA S'.gScore goal = some d) :
    IsMinCost g start goal d := by
  constructor
  · exact inv.gs_walk goal d hgs
  · intro steps hwk hend
    exact hopt.visited_opt goal d hvis hgs steps hwk hend

/-- C1: on well-formed graphs with both endpoints present and the goal
reachable, `dijkstra` succeeds with the minimum-cost distance, and `astar`
run with a consistent, admissible, id-coherent heuristic succeeds with the
same `total_distance`. -/
theorem C1_optimality (g : Graph) (start goal : Node) (hf : Node → Node → ℚ)
    (hw : g.WF) (hs : memberN g.nodes start = true) (hg : memberN g.nodes goal = true)
    (hre : Reachable g start goal) (_hadm : Admissible g goal hf)
    (hcons : Consistent g goal hf) (hcoh : HIdCoherent goal hf) :
    ∃ rd routeD ra routeA,
      dijkstra g start goal = some rd ∧ rd.route = some routeD ∧
      astar g start goal (.callable hf) = some ra ∧ ra.route = some routeA ∧
      IsMinCost g start goal routeD.total_distance ∧
      routeA.total_distance = routeD.total_distance := by
  by_cases hbeq : (start == goal) = true
  · have hid := (node_beq_iff _ _).1 hbeq
    have hd : dijkstra g start goal
        = some ⟨true, some ⟨[start], 0, "Dijkstra", 0, 1, [start], [start], []⟩, none⟩ := by
      simp [dijkstra, hs, hg, hbeq]
    have ha : astar g start goal (.callable hf)
        = some ⟨true, some ⟨[start], 0, "A*", 0, 1, [start], [start], []⟩, none⟩ := by
      simp [astar, hs, hg, hbeq]
    have hmin : IsMinCost g start goal 0 := by
      constructor
      · exact ⟨[], trivial, hid, rfl⟩
      · intro steps hwk _
        exact walkCost_nonneg g hw start steps hwk
    exact ⟨_, _, _, _, hd, rfl, ha, rfl, hmin, rfl⟩
  · have hneq : (start == goal) = false := bool_eq_false hbeq
    have hgid : ¬ goal.id = start.id := fun hh =>
      absurd ((node_beq_iff start goal).2 hh.symm) (by rw [hneq]; simp)
    have hconsz : Consistent g goal (fun _ _ => (0 : ℚ)) := by
      intro u e he
      have := mem_neighbors_pos g hw u e he
      show (0 : ℚ) ≤ e.2 + 0
      linarith
    have hcohz : HIdCoherent goal (fun _ _ => (0 : ℚ)) := fun _ _ _ => rfl
    obtain ⟨Sd, heqd, invd, htrd, hcld, hfind, hredd⟩ :=
      dijkstra_run g start goal hw hs hg hneq
    have hoptd := astarLoop_opt g start goal (fun _ _ => (0 : ℚ)) hw hconsz hcohz
      (searchFuel g) _ Sd (sinv_init g start goal _) (optInv_init g start goal _ 0)
      rfl heqd
    have hgvisd : memberN Sd.visited goal = true := by
      rcases hfind with h | h
      · exact reachable_goal_visited invd hcld h hre
      · exact h
    have hcfd : containsA Sd.cameFrom goal = true :=
      final_cf_goal invd hcld hfind hre hgid
    obtain ⟨pathd, dd, hsrd, hgsd, _, _, _⟩ := searchResult_success hw invd hcfd
    have hmind : IsMinCost g start goal dd := final_min_cost invd hoptd hgvisd hgsd
    obtain ⟨Sa, heqa, inva, htra, hcla, hfina, hreda⟩ :=
      astar_run g start goal hf hw hs hg hneq
    have hopta := astarLoop_opt g start goal hf hw hcons hcoh
      (searchFuel g) _ Sa (sinv_init g start goal hf)
      (optInv_init g start goal hf (hf start goal)) rfl heqa
    have hgvisa : memberN Sa.visited goal = true := by
      rcases hfina with h | h
      · exact reachable_goal_visited inva hcla h hre
      · exact h
    have hcfa : containsA Sa.cameFrom goal = true :=
      final_cf_goal inva hcla hfina hre hgid
    obtain ⟨patha, da, hsra, hgsa, _, _, _⟩ := searchResult_success hw inva hcfa
    have hmina : IsMinCost g start goal da := final_min_cost inva hopta hgvisa hgsa
    have hda : da = dd := by
      obtain ⟨⟨s1, hw1, he1, hc1⟩, hlbd⟩ := hmind
      obtain ⟨⟨s2, hw2, he2, hc2⟩, hlba⟩ := hmina
      have h1 := hlbd s2 hw2 he2
      have h2 := hlba s1 hw1 he1
      rw [hc2] at h1
      rw [hc1] at h2
      linarith
    refine ⟨_, _, _, _, by rw [hredd, hsrd], rfl, by rw [hreda, hsra], rfl, hmind, hda⟩

theorem C1_optimality_witness :
    gAB.WF ∧ Reachable gAB nA nB ∧ Admissible gAB nB (fun _ _ => 0) ∧
    Consistent gAB nB (fun _ _ => 0) ∧ HIdCoherent nB (fun _ _ => 0) ∧
    ∃ rd routeD ra routeA,
      dijkstra gAB nA nB = some rd ∧ rd.route = some routeD ∧
      astar gAB nA nB (.callable fun _ _ => 0) = some ra ∧ ra.route = some routeA ∧
      IsMinCost gAB nA nB routeD.total_distance ∧
      routeA.total_distance = routeD.total_distance := by
  have hadm : Admissible gAB nB (fun _ _ => 0) := by
    intro u steps hwk _
    exact walkCost_nonneg gAB gAB_wf u steps hwk
  have hcons : Consistent gAB nB (fun _ _ => 0) := by
    intro u e he
    have := mem_neighbors_pos gAB gAB_wf u e he
    show (0 : ℚ) ≤ e.2 + 0
    linarith
  have hmem : (nB, (1 : ℚ)) ∈ gAB.neighbors nA := List.mem_singleton_self (nB, (1 : ℚ))
  have hre : Reachable gAB nA nB := ⟨[(nB, 1)], ⟨hmem, trivial⟩, rfl⟩
  exact ⟨gAB_wf, hre, hadm, hcons, fun _ _ _ => rfl,
    C1_optimality gAB nA nB (fun _ _ => 0) gAB_wf rfl rfl hre hadm hcons
      (fun _ _ _ => rfl)⟩

end RouteViz
